import Mathlib

/-!
# MapReduce coordinator (`src/mr/master.go`, `src/mr/rpc.go`): scheduling core

A shallow embedding of the coordinator ("master") of the MapReduce lab and a
verification of its scheduling properties.

Modelling conventions.

* A Go buffered channel `chan *Task` is a FIFO buffer with a capacity
  (`Chan`).  A receive on an empty channel and a send on a full channel never
  return while the handler holds the coordinator lock, so both are modelled
  as `none`; every handler therefore returns an `Option`, `none` meaning
  "the call never returns".
* The channel holds pointers.  The field `Task.Addr` is the only field that is
  not a Go field: it stands for the identity of the heap cell a `*Task`
  points to (the allocation index of the task inside its generating loop).
  No handler reads or writes it.
* Every RPC handler and every pass of the reaper loop is executed atomically
  (sequential interleaving of whole calls), and reads the clock once; that
  clock value is the argument `now`.  Clock readings (`time.Time`) are
  integers, in nanoseconds.
* Go `int` values (`WorkerId`, `MapNum`, `ReduceNum`, worker ids) are
  unbounded integers: wrapping `WorkerId` would take `2^63` dispatches.
* File promotion (`generateMapFile`, `generateReduceFile`) is recorded as the
  list of files handed to it; the file system itself is not modelled.
-/

namespace MR

/-! ## Data model (`rpc.go`, `master.go`) -/

/-- Go `time.Second`, a `Duration` in nanoseconds. -/
def Second : Int := 1000000000

/-- Largest `time.Duration` (an `int64`). -/
def maxDuration : Int := 9223372036854775807

/-- Smallest `time.Duration` (an `int64`). -/
def minDuration : Int := -9223372036854775808

/-- Go `Time.Sub`: the difference `t - u` of two clock readings (in
nanoseconds), saturated to the `int64` range of `time.Duration`. -/
def timeSub (t u : Int) : Int :=
  if maxDuration < t - u then maxDuration
  else if t - u < minDuration then minDuration
  else t - u

/-- Scratch directory of `worker.go`. -/
def TempFilePath : String := "/var/tmp/"

/-- Go constants `MapTask = 0`, `ReduceTask = 1`. -/
inductive TaskType where
  | MapTask
  | ReduceTask
deriving DecidableEq, Repr

/-- Go constants `MapPhase = 0`, `ReducePhase = 1`. -/
inductive DistributePhase where
  | MapPhase
  | ReducePhase
deriving DecidableEq, Repr

/-- Go constants `Ready = 0`, `Running = 1`, `Finished = 2`. -/
inductive TaskStatus where
  | Ready
  | Running
  | Finished
deriving DecidableEq, Repr

open TaskType DistributePhase TaskStatus

/-- Go `struct Task`; `Addr` is the identity of the pointed-to cell. -/
structure Task where
  Addr : Nat
  TaskType : MR.TaskType
  MapWorkerId : Int
  ReduceWorkerId : Int
  InputFile : String
  BeginTime : Int
  TaskStatus : MR.TaskStatus
deriving DecidableEq, Repr

/-- The holder id a task carries: `MapWorkerId` for a Map task,
`ReduceWorkerId` for a Reduce task (as read by `worker.work`). -/
def Task.holderId (t : Task) : Int :=
  match t.TaskType with
  | MapTask => t.MapWorkerId
  | ReduceTask => t.ReduceWorkerId

/-- The part of a task no handler ever writes. -/
def Task.static (t : Task) : Nat × MR.TaskType × String :=
  (t.Addr, t.TaskType, t.InputFile)

/-- A buffered channel of task pointers. -/
structure Chan where
  buf : List Task
  cap : Nat
deriving DecidableEq, Repr

/-- Receive `<-c`: blocks (`none`) on an empty buffer. -/
def Chan.recv (c : Chan) : Option (Task × Chan) :=
  match c.buf with
  | [] => none
  | t :: rest => some (t, { c with buf := rest })

/-- Send `c <- t`: blocks (`none`) when the buffer is full. -/
def Chan.send (c : Chan) (t : Task) : Option Chan :=
  if c.buf.length < c.cap then some { c with buf := c.buf ++ [t] } else none

/-- Go `struct Master` (without the mutex). -/
structure Master where
  MapChannel : Chan
  ReduceChannel : Chan
  Files : List String
  MapNum : Int
  ReduceNum : Int
  DistributePhase : MR.DistributePhase
  WorkerId : Int
  IsDone : Bool
deriving DecidableEq, Repr

/-- Go `struct TaskReply`. -/
structure TaskReply where
  Task : Option MR.Task
  NReduce : Int
  AllDone : Bool
deriving DecidableEq, Repr

/-- The zero value of `TaskReply` the RPC layer passes to the handler. -/
def TaskReply.zero : TaskReply := { Task := none, NReduce := 0, AllDone := false }

/-- Go `struct MapTaskDoneArgs`. -/
structure MapTaskDoneArgs where
  MapWorkerId : Int
  Files : List String
deriving DecidableEq, Repr

/-- Go `struct ReduceTaskDoneArgs`. -/
structure ReduceTaskDoneArgs where
  ReduceWorkerId : Int
  Files : List String
deriving DecidableEq, Repr

/-! ## The rotating scan

Every loop over a task queue in `master.go` has the shape
```
for i := 0; i < n; i++ {
    task := <-ch
    ch <- task
    [update task in place]            -- f
    if [condition on task] {          -- p
        [update task in place]        -- g
        return / break
    }
}
```
Because the channel holds a pointer, the updates are seen through the queue.
-/

/-- The common loop: `n` iterations, each moving the head of the queue to its
tail; `f` is the unconditional in-place update, `p` the exit condition, `g` the
update made before leaving.  The result is the channel and the task the loop
left with, if any. -/
def rotateScan (f : Task → Task) (p : Task → Bool) (g : Task → Task) :
    Nat → Chan → Option (Chan × Option Task)
  | 0, ch => some (ch, none)
  | n + 1, ch =>
    match ch.recv with
    | none => none
    | some (task, ch1) =>
      if p (f task) then
        match ch1.send (g (f task)) with
        | none => none
        | some ch2 => some (ch2, some (g (f task)))
      else
        match ch1.send (f task) with
        | none => none
        | some ch2 => rotateScan f p g n ch2

/-! ## Operations of `master.go` -/

/-- Go `Master.removeTimeoutTask`: a Running task whose lease is at least 10 s
old goes back to Ready. -/
def removeTimeoutTask (now : Int) (task : Task) : Task :=
  if task.TaskStatus = Running ∧ 10 * Second ≤ timeSub now task.BeginTime then
    { task with TaskStatus := Ready }
  else task

/-- The task literal of `Master.generateMapTasks` for the `i`-th input file;
the fields not named in the literal have Go's zero value. -/
def newMapTask (i : Nat) (file : String) : Task :=
  { Addr := i, TaskType := MapTask, MapWorkerId := 0, ReduceWorkerId := 0,
    InputFile := file, BeginTime := 0, TaskStatus := Ready }

/-- The task literal of `Master.generateReduceTasks` for loop index `i`:
`InputFile` is `fmt.Sprintf("%vmr-*-%v", TempFilePath, i)`. -/
def newReduceTask (i : Nat) : Task :=
  { Addr := i, TaskType := ReduceTask, MapWorkerId := 0, ReduceWorkerId := 0,
    InputFile := TempFilePath ++ "mr-*-" ++ toString i, BeginTime := 0, TaskStatus := Ready }

/-- The loop of `Master.generateMapTasks`: one Ready Map task per file, sent
to the Map channel in order; `i` is the index of the next file. -/
def generateMapTasksLoop : List String → Nat → Chan → Option Chan
  | [], _, ch => some ch
  | file :: rest, i, ch =>
    match ch.send (newMapTask i file) with
    | none => none
    | some ch1 => generateMapTasksLoop rest (i + 1) ch1

/-- Go `Master.generateMapTasks`: fills the Map channel (the removal of
stale files from the scratch directory is not modelled). -/
def generateMapTasks (m : Master) (files : List String) : Option Master :=
  match generateMapTasksLoop files 0 m.MapChannel with
  | none => none
  | some ch => some { m with MapChannel := ch }

/-- The loop `for i := 0; i < m.ReduceNum; i++` of `Master.generateReduceTasks`;
`k` iterations remain and `i` is the loop variable. -/
def generateReduceTasksLoop : Nat → Nat → Chan → Option Chan
  | 0, _, ch => some ch
  | k + 1, i, ch =>
    match ch.send (newReduceTask i) with
    | none => none
    | some ch1 => generateReduceTasksLoop k (i + 1) ch1

/-- Go `Master.generateReduceTasks`: fills the Reduce channel. -/
def generateReduceTasks (m : Master) : Option Master :=
  match generateReduceTasksLoop m.ReduceNum.toNat 0 m.ReduceChannel with
  | none => none
  | some ch => some { m with ReduceChannel := ch }

/-- Go `MakeMaster`: `make(chan *Task, nReduce)` panics for a negative size. -/
def MakeMaster (files : List String) (nReduce : Int) : Option Master :=
  if nReduce < 0 then none
  else
    generateMapTasks
      { MapChannel := { buf := [], cap := files.length }
        ReduceChannel := { buf := [], cap := nReduce.toNat }
        Files := files
        MapNum := files.length
        ReduceNum := nReduce
        DistributePhase := MapPhase
        WorkerId := 1
        IsDone := false } files

/-- Go `Master.judgeAllMapDone`: the scan leaves at the first task that is not
Finished and answers false; the queue keeps the rotation made so far. -/
def judgeAllMapDone (m : Master) : Option (Master × Bool) :=
  match rotateScan id (fun t => decide (t.TaskStatus ≠ Finished)) id
      m.MapNum.toNat m.MapChannel with
  | none => none
  | some (ch, some _) => some ({ m with MapChannel := ch }, false)
  | some (ch, none) => some ({ m with MapChannel := ch }, true)

/-- Go `Master.judgeAllReduceDone`, the same scan over the Reduce channel. -/
def judgeAllReduceDone (m : Master) : Option (Master × Bool) :=
  match rotateScan id (fun t => decide (t.TaskStatus ≠ Finished)) id
      m.ReduceNum.toNat m.ReduceChannel with
  | none => none
  | some (ch, some _) => some ({ m with ReduceChannel := ch }, false)
  | some (ch, none) => some ({ m with ReduceChannel := ch }, true)

/-- The assignment made to a Ready Map task in `DistributeTask`. -/
def leaseMap (wid : Int) (now : Int) (task : Task) : Task :=
  { task with MapWorkerId := wid, TaskStatus := Running, BeginTime := now }

/-- The assignment made to a Ready Reduce task in `DistributeTask`. -/
def leaseReduce (wid : Int) (now : Int) (task : Task) : Task :=
  { task with ReduceWorkerId := wid, TaskStatus := Running, BeginTime := now }

/-- Go `Master.DistributeTask`: the new coordinator state and the reply.  In
each phase the handler scans the queue of that phase for a Ready task; when it
finds none it asks whether every task of the phase is Finished, and then, in
the Map phase, creates the Reduce tasks and sets the phase to Reduce, and, in
the Reduce phase, sets `AllDone` (where the Go code also starts `m.finish()`);
in both cases it returns without a task.  The `time.Sleep` of the branches in
which some task is still Running only delays the reply.  The Reduce branch does
not set `reply.NReduce`. -/
def DistributeTask (m : Master) (now : Int) : Option (Master × TaskReply) :=
  if m.DistributePhase = MapPhase then
    match rotateScan id (fun t => decide (t.TaskStatus = Ready)) (leaseMap m.WorkerId now)
        m.MapNum.toNat m.MapChannel with
    | none => none
    | some (ch, some task) =>
      some ({ m with MapChannel := ch, WorkerId := m.WorkerId + 1 },
            { TaskReply.zero with Task := some task, NReduce := m.ReduceNum })
    | some (ch, none) =>
      match judgeAllMapDone { m with MapChannel := ch } with
      | none => none
      | some (m1, true) =>
        match generateReduceTasks m1 with
        | none => none
        | some m2 => some ({ m2 with DistributePhase := ReducePhase }, TaskReply.zero)
      | some (m1, false) => some (m1, TaskReply.zero)
  else
    match rotateScan id (fun t => decide (t.TaskStatus = Ready)) (leaseReduce m.WorkerId now)
        m.ReduceNum.toNat m.ReduceChannel with
    | none => none
    | some (ch, some task) =>
      some ({ m with ReduceChannel := ch, WorkerId := m.WorkerId + 1 },
            { TaskReply.zero with Task := some task })
    | some (ch, none) =>
      match judgeAllReduceDone { m with ReduceChannel := ch } with
      | none => none
      | some (m1, true) => some (m1, { TaskReply.zero with AllDone := true })
      | some (m1, false) => some (m1, TaskReply.zero)

/-- The in-place update `task.TaskStatus = Finished`. -/
def finishTask (task : Task) : Task :=
  { task with TaskStatus := Finished }

/-- Go `Master.MapTaskDone`: the new state and, when the commit is accepted
(`flag = true`), the files handed to `generateMapFile`. -/
def MapTaskDone (m : Master) (args : MapTaskDoneArgs) (now : Int) :
    Option (Master × Option (List String)) :=
  match rotateScan (removeTimeoutTask now)
      (fun t => decide (t.MapWorkerId = args.MapWorkerId ∧ t.TaskStatus = Running)) finishTask
      m.MapNum.toNat m.MapChannel with
  | none => none
  | some (ch, some _) => some ({ m with MapChannel := ch }, some args.Files)
  | some (ch, none) => some ({ m with MapChannel := ch }, none)

/-- Go `Master.ReduceTaskDone`: the new state and, when the commit is accepted,
the files handed to `generateReduceFile`.  The handler does not read the
clock. -/
def ReduceTaskDone (m : Master) (args : ReduceTaskDoneArgs) :
    Option (Master × Option (List String)) :=
  match rotateScan id
      (fun t => decide (t.ReduceWorkerId = args.ReduceWorkerId ∧ t.TaskStatus = Running))
      finishTask m.ReduceNum.toNat m.ReduceChannel with
  | none => none
  | some (ch, some _) => some ({ m with ReduceChannel := ch }, some args.Files)
  | some (ch, none) => some ({ m with ReduceChannel := ch }, none)

/-- One pass of the body of `Master.loopRemoveTimeoutTasks` (after the
`time.Sleep`), at clock value `now`. -/
def reaperPass (m : Master) (now : Int) : Option Master :=
  if m.DistributePhase = MapPhase then
    match rotateScan (removeTimeoutTask now) (fun _ => false) id
        m.MapNum.toNat m.MapChannel with
    | none => none
    | some (ch, _) => some { m with MapChannel := ch }
  else
    match rotateScan (removeTimeoutTask now) (fun _ => false) id
        m.ReduceNum.toNat m.ReduceChannel with
    | none => none
    | some (ch, _) => some { m with ReduceChannel := ch }

/-! ## Runs of the coordinator -/

/-- One atomic step of the coordinator: an RPC call or a reaper pass. -/
inductive Event where
  | distribute (now : Int)
  | mapDone (args : MapTaskDoneArgs) (now : Int)
  | reduceDone (args : ReduceTaskDoneArgs)
  | reaper (now : Int)
deriving DecidableEq, Repr

/-- What a step lets the outside observe. -/
inductive Output where
  | reply (r : TaskReply)
  | commit (files : Option (List String))
  | silent
deriving DecidableEq, Repr

/-- Execute one event. -/
def step (m : Master) : Event → Option (Master × Output)
  | Event.distribute now => (DistributeTask m now).map (fun x => (x.1, Output.reply x.2))
  | Event.mapDone args now => (MapTaskDone m args now).map (fun x => (x.1, Output.commit x.2))
  | Event.reduceDone args => (ReduceTaskDone m args).map (fun x => (x.1, Output.commit x.2))
  | Event.reaper now => (reaperPass m now).map (fun m1 => (m1, Output.silent))

/-- Execute a sequence of events, collecting the outputs. -/
def run (m : Master) : List Event → Option (Master × List Output)
  | [] => some (m, [])
  | e :: es =>
    match step m e with
    | none => none
    | some (m1, o) =>
      match run m1 es with
      | none => none
      | some (m2, os) => some (m2, o :: os)

/-- The states a coordinator created by `MakeMaster files nReduce` can be in. -/
def Reachable (files : List String) (nReduce : Int) (m : Master) : Prop :=
  ∃ m0 es os, MakeMaster files nReduce = some m0 ∧ run m0 es = some (m, os)

/-- All tasks currently held by the coordinator. -/
def Master.tasks (m : Master) : List Task :=
  m.MapChannel.buf ++ m.ReduceChannel.buf

/-- The tasks of the phase the coordinator is in. -/
def Master.phaseTasks (m : Master) : List Task :=
  match m.DistributePhase with
  | MapPhase => m.MapChannel.buf
  | ReducePhase => m.ReduceChannel.buf

/-- The task a dispatch reply carries, if any. -/
def Output.task : Output → Option Task
  | Output.reply r => r.Task
  | _ => none

/-- The holder ids issued by a sequence of outputs, oldest first. -/
def issuedIds (os : List Output) : List Int :=
  os.filterMap (fun o => o.task.map Task.holderId)

/-! ## Specification vocabulary -/

/-- The Map tasks `generateMapTasks` creates for `files`, numbered from `i`. -/
def mapTasksFrom : List String → Nat → List Task
  | [], _ => []
  | file :: rest, i => newMapTask i file :: mapTasksFrom rest (i + 1)

/-- The `k` Reduce tasks `generateReduceTasks` creates, numbered from `i`. -/
def reduceTasksFrom : Nat → Nat → List Task
  | 0, _ => []
  | k + 1, i => newReduceTask i :: reduceTasksFrom k (i + 1)

/-- The outcome of a rotating scan over the whole queue `xs`: either no task
satisfies the exit condition and every task received the update `f`, or the
scan left at the first task `t` that does, the tasks before it having moved
behind the untouched rest of the queue and `t` to the very end. -/
inductive ScanOut (f : Task → Task) (p : Task → Bool) (g : Task → Task) (xs : List Task) :
    List Task → Option Task → Prop
  | none (h : ∀ t ∈ xs, p (f t) = false) : ScanOut f p g xs (xs.map f) none
  | found (pre : List Task) (t : Task) (post : List Task) (e : xs = pre ++ t :: post)
      (hpre : ∀ u ∈ pre, p (f u) = false) (ht : p (f t) = true) :
      ScanOut f p g xs (post ++ pre.map f ++ [g (f t)]) (some (g (f t)))

/-- How one step may change a task `x` into `y`, in a step that moves the
`WorkerId` counter from `w` to `w1`: the static part is kept, a Finished task
stays Finished, and either the holder id is kept (and a task that is not Ready
afterwards was not Ready before), or the task with static part `s0` was leased
under the id `w`, the counter having moved on. -/
def Upd (w w1 : Int) (s0 : Nat × MR.TaskType × String) (x y : Task) : Prop :=
  y.static = x.static ∧ (x.TaskStatus = Finished → y.TaskStatus = Finished) ∧
    ((y.holderId = x.holderId ∧ (y.TaskStatus ≠ Ready → x.TaskStatus ≠ Ready)) ∨
      (y.holderId = w ∧ y.static = s0 ∧ w < w1))

/-- The effect of one step on the task registry: either every task of the new
state is an update (`Upd`) of a task of the old one, the constants, the
capacities and the phase being kept and the queues rotated; or the step is the
Map-to-Reduce transition, which creates the Reduce tasks and changes nothing
else. -/
inductive Effect (R : Int) (m m1 : Master) : Prop
  | upd (s0 : Nat × MR.TaskType × String)
      (hF : m1.Files = m.Files) (hMN : m1.MapNum = m.MapNum) (hRN : m1.ReduceNum = m.ReduceNum)
      (hMC : m1.MapChannel.cap = m.MapChannel.cap)
      (hRC : m1.ReduceChannel.cap = m.ReduceChannel.cap)
      (hP : m1.DistributePhase = m.DistributePhase) (hW : m.WorkerId ≤ m1.WorkerId)
      (hMs : List.IsRotated (m1.MapChannel.buf.map Task.static)
        (m.MapChannel.buf.map Task.static))
      (hRs : List.IsRotated (m1.ReduceChannel.buf.map Task.static)
        (m.ReduceChannel.buf.map Task.static))
      (hM : ∀ y ∈ m1.MapChannel.buf,
        ∃ x ∈ m.MapChannel.buf, Upd m.WorkerId m1.WorkerId s0 x y)
      (hRd : ∀ y ∈ m1.ReduceChannel.buf,
        ∃ x ∈ m.ReduceChannel.buf, Upd m.WorkerId m1.WorkerId s0 x y) : Effect R m m1
  | toReduce (hp : m.DistributePhase = MapPhase)
      (hfin : ∀ u ∈ m.MapChannel.buf, u.TaskStatus = Finished)
      (e : m1 = { m with ReduceChannel := ⟨reduceTasksFrom R.toNat 0, m.ReduceChannel.cap⟩,
                         DistributePhase := ReducePhase }) : Effect R m m1

/-- The holder id `h` is retired in state `s`: it lies below the `WorkerId`
counter, so no later lease can receive it, and no Running task carries it. -/
def Retired (h : Int) (s : Master) : Prop :=
  h < s.WorkerId ∧ ∀ u ∈ s.tasks, u.holderId = h → u.TaskStatus ≠ Running

/-- Well-formed coordinator states for input `files` and reduce count `R`:
the invariant of the sequential runs. -/
structure WF (files : List String) (R : Int) (m : Master) : Prop where
  hFiles : m.Files = files
  hMapNum : m.MapNum = files.length
  hRedNum : m.ReduceNum = R
  hR : 0 ≤ R
  hMapCap : m.MapChannel.cap = files.length
  hRedCap : m.ReduceChannel.cap = R.toNat
  hMapStatic : List.IsRotated (m.MapChannel.buf.map Task.static)
    ((mapTasksFrom files 0).map Task.static)
  hRedStatic : m.DistributePhase = ReducePhase →
    List.IsRotated (m.ReduceChannel.buf.map Task.static)
      ((reduceTasksFrom R.toNat 0).map Task.static)
  hRedEmpty : m.DistributePhase = MapPhase → m.ReduceChannel.buf = []
  hGate : m.DistributePhase = ReducePhase → ∀ t ∈ m.MapChannel.buf, t.TaskStatus = Finished
  hWid : 1 ≤ m.WorkerId
  hIds : ∀ t ∈ m.tasks, 0 ≤ t.holderId ∧ t.holderId < m.WorkerId ∧
    (t.TaskStatus ≠ Ready → 1 ≤ t.holderId)
  hUniq : ∀ a ∈ m.tasks, ∀ b ∈ m.tasks, a.holderId = b.holderId → 1 ≤ a.holderId →
    a.static = b.static

/-- The coordinator of `files` and `R` in the Map phase after `j` dispatches:
the Map tasks of the files `rest` not yet handed out are Ready at the head of
the queue, followed by the tasks `L` handed out so far. -/
def dispatchState (files : List String) (R : Int) (rest : List String) (j : Nat)
    (L : List Task) : Master :=
  { MapChannel := ⟨mapTasksFrom rest j ++ L, files.length⟩
    ReduceChannel := ⟨[], R.toNat⟩
    Files := files
    MapNum := files.length
    ReduceNum := R
    DistributePhase := MapPhase
    WorkerId := (j : Int) + 1
    IsDone := false }

/-- The replies to consecutive `DistributeTask` calls at the clock values
`nows`, when the files `rest` are still to be handed out and `j` tasks have
been: one Map task per call, in file order, under the holder ids `j + 1`,
`j + 2`, ..., then empty replies. -/
def dispatchOutputs (R : Int) : List String → Nat → List Int → List Output
  | _, _, [] => []
  | [], j, _ :: nows => Output.reply TaskReply.zero :: dispatchOutputs R [] j nows
  | f :: rest, j, now :: nows =>
    Output.reply ⟨some (leaseMap ((j : Int) + 1) now (newMapTask j f)), R, false⟩
      :: dispatchOutputs R rest (j + 1) nows

/-! ## Example runs

A job with the single input file `"a"` and one reduce shard, followed through
its life: lease of the Map task, its commit, the phase change, and the lease of
the Reduce task. -/

/-- The coordinator `MakeMaster ["a"] 1` returns. -/
def demoInit : Master :=
  { MapChannel := ⟨[newMapTask 0 "a"], 1⟩
    ReduceChannel := ⟨[], 1⟩
    Files := ["a"]
    MapNum := 1
    ReduceNum := 1
    DistributePhase := MapPhase
    WorkerId := 1
    IsDone := false }

/-- After the first `DistributeTask`, at clock 0: the Map task is leased to holder 1. -/
def demoLeased : Master :=
  { demoInit with MapChannel := ⟨[leaseMap 1 0 (newMapTask 0 "a")], 1⟩, WorkerId := 2 }

/-- After holder 1 has committed the Map task. -/
def demoMapped : Master :=
  { demoLeased with MapChannel := ⟨[finishTask (leaseMap 1 0 (newMapTask 0 "a"))], 1⟩ }

/-- After the `DistributeTask` call that moves the job to the Reduce phase. -/
def demoReduce : Master :=
  { demoMapped with ReduceChannel := ⟨[newReduceTask 0], 1⟩, DistributePhase := ReducePhase }

/-- After the Reduce task has been leased to holder 2, at clock 3. -/
def demoReduceLeased : Master :=
  { demoReduce with ReduceChannel := ⟨[leaseReduce 2 3 (newReduceTask 0)], 1⟩, WorkerId := 3 }

/-- The calls that lead from `demoInit` to `demoReduceLeased`. -/
def demoEvents : List Event :=
  [Event.distribute 0, Event.mapDone ⟨1, ["/var/tmp/mr-1-0"]⟩ 1, Event.distribute 2,
   Event.distribute 3]

/-- What the four calls of `demoEvents` return. -/
def demoOutputs : List Output :=
  [Output.reply ⟨some (leaseMap 1 0 (newMapTask 0 "a")), 1, false⟩,
   Output.commit (some ["/var/tmp/mr-1-0"]),
   Output.reply TaskReply.zero,
   Output.reply ⟨some (leaseReduce 2 3 (newReduceTask 0)), 0, false⟩]

/-- The state `demoLeased` after a reaper pass at clock 10 s: the lease of
holder 1 has expired and the Map task is Ready again. -/
def demoExpired : Master :=
  { demoLeased with
    MapChannel := ⟨[removeTimeoutTask 10000000000 (leaseMap 1 0 (newMapTask 0 "a"))], 1⟩ }

/-- The state `demoExpired` after the Map task was leased again, to holder 2,
at clock 11 s. -/
def demoReleased : Master :=
  { demoExpired with
    MapChannel :=
      ⟨[leaseMap 2 11000000000
          (removeTimeoutTask 10000000000 (leaseMap 1 0 (newMapTask 0 "a")))], 1⟩
    WorkerId := 3 }

/-- A job with the input files `"a"` and `"b"` and one reduce shard, after both
Map tasks were leased at clock 0 (to holders 1 and 2) and holder 1 committed. -/
def demoCommitted : Master :=
  { MapChannel :=
      ⟨[leaseMap 2 0 (newMapTask 1 "b"), finishTask (leaseMap 1 0 (newMapTask 0 "a"))], 2⟩
    ReduceChannel := ⟨[], 1⟩
    Files := ["a", "b"]
    MapNum := 2
    ReduceNum := 1
    DistributePhase := MapPhase
    WorkerId := 3
    IsDone := false }

/-- The calls that lead to `demoCommitted`. -/
def demoCommittedEvents : List Event :=
  [Event.distribute 0, Event.distribute 0, Event.mapDone ⟨1, ["/var/tmp/mr-1-0"]⟩ 1000000000]

/-- The job of `demoCommitted` in an earlier state: the Map task of `"a"` was
leased at clock 0 to holder 1 and expired by a reaper pass at clock 10 s; the
queue, rotated by the dispatch, has the Map task of `"b"` at its head. -/
def demoStale : Master :=
  { MapChannel :=
      ⟨[newMapTask 1 "b", removeTimeoutTask 10000000000 (leaseMap 1 0 (newMapTask 0 "a"))], 2⟩
    ReduceChannel := ⟨[], 1⟩
    Files := ["a", "b"]
    MapNum := 2
    ReduceNum := 1
    DistributePhase := MapPhase
    WorkerId := 2
    IsDone := false }

/-- The state `demoStale` after a `DistributeTask` call at clock 10 s. -/
def demoStaleNext : Master :=
  { demoStale with
    MapChannel :=
      ⟨[removeTimeoutTask 10000000000 (leaseMap 1 0 (newMapTask 0 "a")),
        leaseMap 2 10000000000 (newMapTask 1 "b")], 2⟩
    WorkerId := 3 }

/-! ## The completion flag (`Master.finish`, `Master.Done`)

`DistributeTask` starts `go m.finish()` with each reply that has
`AllDone = true`; the goroutine sleeps and then sets `IsDone`.  A system state
pairs the coordinator with the number of such goroutines that have been
started and have not yet run. -/

/-- Go `Master.finish`, after its `time.Sleep`. -/
def finish (m : Master) : Master :=
  { m with IsDone := true }

/-- Go `Master.Done`. -/
def Done (m : Master) : Bool :=
  m.IsDone

/-- The coordinator together with its pending `finish` goroutines. -/
structure Sys where
  m : Master
  finishPending : Nat
deriving DecidableEq, Repr

/-- A step of the whole coordinator process: a step of `Event`, or the body of
one pending `finish` goroutine. -/
inductive SysEvent where
  | call (e : Event)
  | finish
deriving DecidableEq, Repr

/-- Whether an output is a dispatch reply with `AllDone = true`. -/
def Output.allDone : Output → Bool
  | Output.reply r => r.AllDone
  | _ => false

/-- Execute one system event; `SysEvent.finish` is possible (`some`) only when
a `finish` goroutine is pending. -/
def sysStep (s : Sys) : SysEvent → Option (Sys × Output)
  | SysEvent.call e =>
    match step s.m e with
    | none => none
    | some (m1, o) =>
      some (⟨m1, if o.allDone then s.finishPending + 1 else s.finishPending⟩, o)
  | SysEvent.finish =>
    match s.finishPending with
    | 0 => none
    | k + 1 => some (⟨finish s.m, k⟩, Output.silent)

/-- Execute a sequence of system events, collecting the outputs. -/
def sysRun (s : Sys) : List SysEvent → Option (Sys × List Output)
  | [] => some (s, [])
  | e :: es =>
    match sysStep s e with
    | none => none
    | some (s1, o) =>
      match sysRun s1 es with
      | none => none
      | some (s2, os) => some (s2, o :: os)

/-- The system states a coordinator created by `MakeMaster files nReduce` can
be in; no `finish` goroutine is pending at creation. -/
def SysReachable (files : List String) (nReduce : Int) (s : Sys) : Prop :=
  ∃ m0 es os, MakeMaster files nReduce = some m0 ∧ sysRun ⟨m0, 0⟩ es = some (s, os)

/-- The number of steps of a run that take the coordinator from the Map phase to
the Reduce phase (the steps in which `generateReduceTasks` is called). -/
def phaseChanges : Master → List Event → Nat
  | _, [] => 0
  | m, e :: es =>
    match step m e with
    | none => 0
    | some (m1, _) =>
      (if m.DistributePhase = MapPhase ∧ m1.DistributePhase = ReducePhase then 1 else 0)
        + phaseChanges m1 es

/-- The reduce count `mrmaster.go` passes to `MakeMaster`. -/
def mrmasterNReduce : Int := 10

/-! ## The worker (`worker.go`)

Strings are sequences of Unicode characters; `ihash` hashes their UTF-8
encoding, as Go does.  Where the Go code indexes a string by bytes
(`writeReduceResToTempFiles`) the model covers ASCII strings, which is what the
coordinator produces.  File-system failures (`log.Fatal`) are not modelled: an
operation returns the names and the contents of the files it writes. -/

/-- Go `struct KeyValue`. -/
structure KeyValue where
  Key : String
  Value : String
deriving DecidableEq, Repr

/-- The bytes of a Go string (its UTF-8 encoding). -/
def utf8Bytes (s : String) : List UInt8 :=
  s.data.flatMap String.utf8EncodeChar

/-- One step of `hash/fnv` `New32a`: `hash ^= byte; hash *= 16777619` on
`uint32`. -/
def fnvStep (hash : Nat) (b : UInt8) : Nat :=
  ((hash ^^^ b.toNat) * 16777619) % 4294967296

/-- The 32-bit FNV-1a sum of a byte sequence, from the offset basis 2166136261. -/
def fnv32a (bytes : List UInt8) : Nat :=
  bytes.foldl fnvStep 2166136261

/-- Go `ihash`: `int(h.Sum32() & 0x7fffffff)`. -/
def ihash (key : String) : Int :=
  ((fnv32a (utf8Bytes key) &&& 2147483647 : Nat) : Int)

/-- The statement `cutRes[index] = append(cutRes[index], kv)`; an index out of
range panics. -/
def appendAt : List (List KeyValue) → Nat → KeyValue → Option (List (List KeyValue))
  | [], _, _ => none
  | b :: bs, 0, kv => some ((b ++ [kv]) :: bs)
  | b :: bs, i + 1, kv =>
    match appendAt bs i kv with
    | none => none
    | some bs1 => some (b :: bs1)

/-- The partition loop of `writeMapResToTempFiles`:
`index := ihash(kv.Key) % worker.NReduce`, Go's truncated remainder, which
panics for a zero divisor. -/
def cutLoop (nReduce : Int) : List KeyValue → List (List KeyValue) →
    Option (List (List KeyValue))
  | [], cutRes => some cutRes
  | kv :: rest, cutRes =>
    if nReduce = 0 then none
    else if Int.tmod (ihash kv.Key) nReduce < 0 then none
    else
      match appendAt cutRes (Int.tmod (ihash kv.Key) nReduce).toNat kv with
      | none => none
      | some cutRes1 => cutLoop nReduce rest cutRes1

/-- The name `TempFilePath + fmt.Sprintf("mr-%v-%v", worker.WorkerId, i)` of a
staged shard. -/
def shardName (workerId : Int) (i : Nat) : String :=
  TempFilePath ++ "mr-" ++ toString workerId ++ "-" ++ toString i

/-- Go `AWorker.writeMapResToTempFiles`, for a worker with the given
`WorkerId` and `NReduce`: the staged files in the order of the returned list,
each with the records encoded into it, in order.  `make` panics for a
negative `NReduce`. -/
def writeMapResToTempFiles (workerId : Int) (nReduce : Int) (intermediate : List KeyValue) :
    Option (List (String × List KeyValue)) :=
  if nReduce < 0 then none
  else
    match cutLoop nReduce intermediate (List.replicate nReduce.toNat []) with
    | none => none
    | some cutRes => some (cutRes.enum.map (fun p => (shardName workerId p.1, p.2)))

/-- The inner loops of `generateReduceResult` for the run of equal keys that
starts with a record of key `key`: `values` are the values collected so far,
and the list is what follows in the sorted slice. -/
def groupRun (reducef : String → List String → String) :
    String → List String → List KeyValue → List KeyValue
  | key, values, [] => [⟨key, reducef key values⟩]
  | key, values, kv :: rest =>
    if kv.Key = key then groupRun reducef key (values ++ [kv.Value]) rest
    else ⟨key, reducef key values⟩ :: groupRun reducef kv.Key [kv.Value] rest

/-- The grouping loop of `generateReduceResult` over the sorted slice: for
each maximal run `intermediate[i..j)` of records with the key of
`intermediate[i]`, one output record with `reducef` applied to the values of
the run. -/
def groupSorted (reducef : String → List String → String) : List KeyValue → List KeyValue
  | [] => []
  | kv :: rest => groupRun reducef kv.Key [kv.Value] rest

/-- Go `AWorker.generateReduceResult` on the records decoded from the globbed
files.  `sortByKey` stands for `sort.Sort(ByKey(intermediate))` of the Go
library, and `reducef` for a Reduce function that does not panic. -/
def generateReduceResult (sortByKey : List KeyValue → List KeyValue)
    (reducef : String → List String → String) (decoded : List KeyValue) : List KeyValue :=
  groupSorted reducef (sortByKey decoded)

/-- What `sort.Sort(ByKey(...))` guarantees: the result is a rearrangement of
the slice in which no element is `Less` than an earlier one
(`Less(i, j) = a[i].Key < a[j].Key`). -/
def SortsByKey (sortByKey : List KeyValue → List KeyValue) : Prop :=
  ∀ l, (sortByKey l).Perm l ∧ (sortByKey l).Pairwise (fun a b => ¬ b.Key < a.Key)

/-- The Go expression `s[len(s)-1:]`: the last byte of `s`, as a string.  It
panics for the empty string; a last character outside ASCII is not covered. -/
def lastByte (s : String) : Option String :=
  match s.data.getLast? with
  | none => none
  | some c => if c.toNat < 128 then some (String.singleton c) else none

/-- The text `fmt.Fprintf(tempFile, "%v %v\n", kv.Key, kv.Value)` writes. -/
def outputLine (kv : KeyValue) : String :=
  kv.Key ++ " " ++ kv.Value ++ "\n"

/-- Go `AWorker.writeReduceResToTempFiles`: the returned file list and the
content written to that file. -/
def writeReduceResToTempFiles (task : Task) (intermediate : List KeyValue) :
    Option (List String × String) :=
  match lastByte task.InputFile with
  | none => none
  | some index =>
    some ([TempFilePath ++ ("mr-out-" ++ index)], String.join (intermediate.map outputLine))

/-! ## Files read and written

The coordinator promotes a staged file by copying it into its working
directory; a Reduce worker reads the files that `filepath.Glob` finds for the
pattern of its task. -/

/-- Go `filepath.Base` for a path that does not end in a separator: what
follows the last `/`. -/
def Base (path : String) : String :=
  ⟨(path.data.reverse.takeWhile (fun c => c ≠ '/')).reverse⟩

/-- The files `Master.generateMapFile` (and `generateReduceFile`) creates for
`files`, the coordinator running in directory `dir` (`os.Getwd`). -/
def generateMapFile (dir : String) (files : List String) : List String :=
  files.map (fun file => dir ++ "/" ++ Base file)

/-- Go `filepath.Match` for a pattern `pre ++ "*" ++ post` with a single `*`
and no other metacharacter: the name starts with `pre`, ends with `post`, and
what lies between contains no `/`. -/
def matchStar (pre post : List Char) (name : List Char) : Bool :=
  pre.length + post.length ≤ name.length && pre.isPrefixOf name && post.isSuffixOf name
    && ((name.drop pre.length).take (name.length - pre.length - post.length)).all
        (fun c => c ≠ '/')

/-- Go `filepath.Match` for the patterns used here: at most one `*`. -/
def globMatch (pattern name : String) : Bool :=
  match pattern.data.span (fun c => c ≠ '*') with
  | (pre, []) => pre = name.data
  | (pre, _ :: post) => matchStar pre post name.data

/-- The files `filepath.Glob(filePattern)` returns in `generateReduceResult`,
for a file system holding the files `fs`. -/
def globFiles (fs : List String) (filePattern : String) : List String :=
  fs.filter (globMatch filePattern)

/-- An instance of `sort.Sort(ByKey(...))`: insertion sort by key. -/
def insertionSortByKey (l : List KeyValue) : List KeyValue :=
  l.insertionSort (fun a b => a.Key ≤ b.Key)

/-- A Reduce function: the number of values, in decimal (word count with
values `"1"`). -/
def countValues (_key : String) (values : List String) : String :=
  toString values.length

/-- The file loop of Go `AWorker.generateReduceResult`: the records decoded from
every file whose name matches `filePattern`, in the order of the files.  The
file system is the list `disk` of names with the records stored under them
(what `json.Encoder` wrote is what `json.Decoder` reads). -/
def readIntermediate (disk : List (String × List KeyValue)) (filePattern : String) :
    List KeyValue :=
  (disk.filter (fun f => globMatch filePattern f.1)).flatMap Prod.snd

/-- The Reduce tasks of shards `0, 1, ...` as leased by consecutive
`DistributeTask` calls at the clock values `nows`: shard `k` goes to holder
`k + 1`. -/
def reduceLeases (nows : List Int) : List Task :=
  nows.enum.map (fun p => leaseReduce ((p.1 : Int) + 1) p.2 (newReduceTask p.1))

/-- The coordinator of a job without input files and with reduce count `R`,
in the Reduce phase, with `WorkerId = w` and the Reduce queue `buf`. -/
def reduceQueueState (R : Int) (w : Int) (buf : List Task) : Master :=
  { MapChannel := ⟨[], 0⟩
    ReduceChannel := ⟨buf, R.toNat⟩
    Files := []
    MapNum := 0
    ReduceNum := R
    DistributePhase := ReducePhase
    WorkerId := w
    IsDone := false }

/-! ## Example runs, continued -/

/-- The files of the job of `demoReleased` once holder 2 has committed: the
shard staged by holder 1 (whose lease expired), the shard staged by holder 2,
and the copy of the latter that `generateMapFile` placed in the working
directory `/home/u/job`. -/
def demoDisk : List (String × List KeyValue) :=
  [("/var/tmp/mr-1-0", [⟨"k", "1"⟩]), ("/var/tmp/mr-2-0", [⟨"k", "1"⟩]),
   ("/home/u/job/mr-2-0", [⟨"k", "1"⟩])]


/-- The state `demoReduceLeased` after holder 2 committed the Reduce task. -/
def demoFinished : Master :=
  { demoReduceLeased with
    ReduceChannel := ⟨[finishTask (leaseReduce 2 3 (newReduceTask 0))], 1⟩ }

/-- The whole life of the one-file job: the calls of `demoEvents`, the commit
of the Reduce task, a further `DistributeTask` call, and the `finish`
goroutine that call starts. -/
def demoSysEvents : List SysEvent :=
  demoEvents.map SysEvent.call ++
    [SysEvent.call (Event.reduceDone ⟨2, ["/var/tmp/mr-out-0"]⟩),
     SysEvent.call (Event.distribute 5), SysEvent.finish]

/-- What the steps of `demoSysEvents` return. -/
def demoSysOutputs : List Output :=
  demoOutputs ++
    [Output.commit (some ["/var/tmp/mr-out-0"]), Output.reply ⟨none, 0, true⟩, Output.silent]

/-! ## Sorting by key

`generateReduceResult` sorts with `sort.Sort(ByKey(intermediate))`.  `ByKey` is
declared in `worker.go`; `sort.Sort` is the Go library function.  The lab
(the 2020 edition, with `master.go`) prescribes Go 1.13, and the definitions
below follow `sort/sort.go` as it stands from Go 1.6 to Go 1.18: `Sort` calls
`quickSort`, which partitions ranges longer than 12 elements and sorts the
shorter ones by one pass of Shell sort with gap 6 followed by insertion sort. -/

/-- Go library `sort.Interface`, over a slice type `σ`.  A method returns
`none` where the Go method panics. -/
structure sort.Interface (σ : Type) where
  Len : σ → Nat
  Less : σ → Nat → Nat → Option Bool
  Swap : σ → Nat → Nat → Option σ

/-- Go `ByKey.Len`. -/
def ByKey.Len (a : List KeyValue) : Nat :=
  a.length

/-- Go `ByKey.Less`: `a[i].Key < a[j].Key`; an index out of range panics. -/
def ByKey.Less (a : List KeyValue) (i j : Nat) : Option Bool :=
  match a[i]?, a[j]? with
  | some x, some y => some (decide (x.Key < y.Key))
  | _, _ => none

/-- Go `ByKey.Swap`: `a[i], a[j] = a[j], a[i]`; an index out of range panics. -/
def ByKey.Swap (a : List KeyValue) (i j : Nat) : Option (List KeyValue) :=
  match a[i]?, a[j]? with
  | some x, some y => some ((a.set i y).set j x)
  | _, _ => none

/-- Go `type ByKey []KeyValue` with its three methods, as a `sort.Interface`. -/
def ByKey : sort.Interface (List KeyValue) :=
  { Len := ByKey.Len, Less := ByKey.Less, Swap := ByKey.Swap }

/-- The loop `for i := n; i > 0; i >>= 1 { depth++ }` of Go library
`sort.maxDepth`, with at most `fuel` iterations. -/
def sort.maxDepthLoop : Nat → Nat → Nat → Nat
  | 0, _, depth => depth
  | fuel + 1, i, depth => if 0 < i then sort.maxDepthLoop fuel (i / 2) (depth + 1) else depth

/-- Go library `sort.maxDepth`: twice the number of bits of `n`.  The loop
ends within `n` iterations. -/
def sort.maxDepth (n : Nat) : Nat :=
  2 * sort.maxDepthLoop n n 0

/-- The inner loop of Go library `sort.insertionSort`:
`for j := i; j > a && data.Less(j, j-1); j-- { data.Swap(j, j-1) }`,
entered with the value `j`. -/
def sort.insertionInner {σ : Type} (d : sort.Interface σ) (a : Nat) : Nat → σ → Option σ
  | 0, data => some data
  | j + 1, data =>
    if a < j + 1 then
      match d.Less data (j + 1) j with
      | none => none
      | some false => some data
      | some true =>
        match d.Swap data (j + 1) j with
        | none => none
        | some data1 => sort.insertionInner d a j data1
    else some data

/-- The outer loop of Go library `sort.insertionSort`, `for i := ...; i < b; i++`,
with `n` iterations left and the counter at `i`. -/
def sort.insertionOuter {σ : Type} (d : sort.Interface σ) (a : Nat) : Nat → Nat → σ → Option σ
  | 0, _, data => some data
  | n + 1, i, data =>
    match sort.insertionInner d a i data with
    | none => none
    | some data1 => sort.insertionOuter d a n (i + 1) data1

/-- Go library `sort.insertionSort(data, a, b)`. -/
def sort.insertionSort {σ : Type} (d : sort.Interface σ) (data : σ) (a b : Nat) : Option σ :=
  sort.insertionOuter d a (b - (a + 1)) (a + 1) data

/-- The Shell sort pass of Go library `sort.quickSort`:
`for i := a + 6; i < b; i++ { if data.Less(i, i-6) { data.Swap(i, i-6) } }`,
with `n` iterations left and the counter at `i`. -/
def sort.shellPass {σ : Type} (d : sort.Interface σ) : Nat → Nat → σ → Option σ
  | 0, _, data => some data
  | n + 1, i, data =>
    match d.Less data i (i - 6) with
    | none => none
    | some false => sort.shellPass d n (i + 1) data
    | some true =>
      match d.Swap data i (i - 6) with
      | none => none
      | some data1 => sort.shellPass d n (i + 1) data1

/-- Go library `sort.quickSort(data, a, b, maxDepth)`.  The loop
`for b-a > 12` partitions the range with `doPivot`, sorts the smaller part by a
recursive call and goes on with the other part, or leaves the range to
`heapSort` once `maxDepth` is used up; a range of at most 12 elements gets the
Shell sort pass and `insertionSort`.  `doPivot` and `heapSort`, which only
ranges longer than 12 elements reach, are parameters. -/
def sort.quickSort {σ : Type} (d : sort.Interface σ)
    (doPivot : σ → Nat → Nat → Option (σ × Nat × Nat)) (heapSort : σ → Nat → Nat → Option σ) :
    Nat → σ → Nat → Nat → Option σ
  | maxDepth, data, a, b =>
    if 12 < b - a then
      match maxDepth with
      | 0 => heapSort data a b
      | depth + 1 =>
        match doPivot data a b with
        | none => none
        | some (data1, mlo, mhi) =>
          if mlo - a < b - mhi then
            match sort.quickSort d doPivot heapSort depth data1 a mlo with
            | none => none
            | some data2 => sort.quickSort d doPivot heapSort depth data2 mhi b
          else
            match sort.quickSort d doPivot heapSort depth data1 mhi b with
            | none => none
            | some data2 => sort.quickSort d doPivot heapSort depth data2 a mlo
    else if 1 < b - a then
      match sort.shellPass d (b - (a + 6)) (a + 6) data with
      | none => none
      | some data1 => sort.insertionSort d data1 a b
    else some data

/-- Go library `sort.Sort(data)`: `quickSort(data, 0, n, maxDepth(n))` with
`n = data.Len()`. -/
def sort.SortData {σ : Type} (d : sort.Interface σ)
    (doPivot : σ → Nat → Nat → Option (σ × Nat × Nat)) (heapSort : σ → Nat → Nat → Option σ)
    (data : σ) : Option σ :=
  sort.quickSort d doPivot heapSort (sort.maxDepth (d.Len data)) data 0 (d.Len data)

/-- The slice after the statement `sort.Sort(ByKey(intermediate))` of
`generateReduceResult`; where the call panics the slice is as before. -/
def sortByKeyGo (doPivot : List KeyValue → Nat → Nat → Option (List KeyValue × Nat × Nat))
    (heapSort : List KeyValue → Nat → Nat → Option (List KeyValue))
    (intermediate : List KeyValue) : List KeyValue :=
  (sort.SortData ByKey doPivot heapSort intermediate).getD intermediate

/-- The interface `ByKey` with the keys compared as lists of characters, which
is the same order; this form can be evaluated. -/
def ByKeyData : sort.Interface (List KeyValue) :=
  { Len := ByKey.Len
    Less := fun a i j =>
      match a[i]?, a[j]? with
      | some x, some y => some (decide (x.Key.data < y.Key.data))
      | _, _ => none
    Swap := ByKey.Swap }

/-- The values of the records of key `k`, in the order of the list. -/
def valuesOf (k : String) (l : List KeyValue) : List String :=
  (l.filter (fun r => decide (r.Key = k))).map (fun r => r.Value)

/-- A sort keeps records of equal key in their order on the slice `l`. -/
def StableOn (sortByKey : List KeyValue → List KeyValue) (l : List KeyValue) : Prop :=
  ∀ k, (sortByKey l).filter (fun r => decide (r.Key = k)) = l.filter (fun r => decide (r.Key = k))

/-- A Reduce function: the values one after the other. -/
def concatValues (_key : String) (values : List String) : String :=
  String.join values

/-- Seven decoded records: six of key `"b"`, then one of key `"a"`. -/
def demoRecords : List KeyValue :=
  [⟨"b", "1"⟩, ⟨"b", "2"⟩, ⟨"b", "3"⟩, ⟨"b", "4"⟩, ⟨"b", "5"⟩, ⟨"b", "6"⟩, ⟨"a", "7"⟩]

/-- The slice `demoRecords` after `sort.Sort(ByKey(...))`. -/
def demoRecordsSorted : List KeyValue :=
  [⟨"a", "7"⟩, ⟨"b", "2"⟩, ⟨"b", "3"⟩, ⟨"b", "4"⟩, ⟨"b", "5"⟩, ⟨"b", "6"⟩, ⟨"b", "1"⟩]

/-! ## Properties of the operations

### The rotating scan, step by step -/

theorem rotateScan_cons (f : Task → Task) (p : Task → Bool) (g : Task → Task) (n cap : Nat)
    (x : Task) (xs : List Task) :
    rotateScan f p g (n + 1) ⟨x :: xs, cap⟩ =
      if xs.length < cap then
        (if p (f x) = true then some (⟨xs ++ [g (f x)], cap⟩, some (g (f x)))
         else rotateScan f p g n ⟨xs ++ [f x], cap⟩)
      else none := by
  by_cases h : xs.length < cap <;> by_cases hp : p (f x) = true <;>
    simp [rotateScan, Chan.recv, Chan.send, h, hp]

theorem rotateScan_nil (f : Task → Task) (p : Task → Bool) (g : Task → Task) (n cap : Nat) :
    rotateScan f p g (n + 1) ⟨[], cap⟩ = none := by
  simp [rotateScan, Chan.recv]

theorem rotateScan_none_aux (f : Task → Task) (p : Task → Bool) (g : Task → Task) (cap : Nat) :
    ∀ (ys zs : List Task), ys.length + zs.length ≤ cap → (∀ t ∈ ys, p (f t) = false) →
      rotateScan f p g ys.length ⟨ys ++ zs, cap⟩ = some (⟨zs ++ ys.map f, cap⟩, none) := by
  intro ys
  induction ys with
  | nil => intro zs _ _; simp [rotateScan]
  | cons y ys ih =>
    intro zs hcap hno
    have hy : ¬ p (f y) = true := by simp [hno y (List.mem_cons_self _ _)]
    have hlt : (ys ++ zs).length < cap := by
      simp only [List.length_append, List.length_cons] at hcap ⊢; omega
    have hcap2 : ys.length + (zs ++ [f y]).length ≤ cap := by
      simp only [List.length_append, List.length_cons, List.length_nil] at hcap ⊢; omega
    have hrec := ih (zs ++ [f y]) hcap2 (fun t ht => hno t (List.mem_cons_of_mem _ ht))
    rw [List.length_cons, List.cons_append, rotateScan_cons, if_pos hlt, if_neg hy,
      List.append_assoc, hrec]
    simp

theorem rotateScan_found_aux (f : Task → Task) (p : Task → Bool) (g : Task → Task) (cap : Nat)
    (t : Task) (post : List Task) (ht : p (f t) = true) :
    ∀ (pre zs : List Task) (k : Nat), pre.length + 1 + post.length + zs.length ≤ cap →
      (∀ u ∈ pre, p (f u) = false) →
      rotateScan f p g (pre.length + k + 1) ⟨pre ++ (t :: post ++ zs), cap⟩
        = some (⟨post ++ zs ++ pre.map f ++ [g (f t)], cap⟩, some (g (f t))) := by
  intro pre
  induction pre with
  | nil =>
    intro zs k hcap _
    have hlt : (post ++ zs).length < cap := by
      simp only [List.length_append, List.length_nil] at hcap ⊢; omega
    rw [List.nil_append, List.cons_append, rotateScan_cons, if_pos hlt, if_pos ht]
    simp
  | cons y ys ih =>
    intro zs k hcap hno
    have hy : ¬ p (f y) = true := by simp [hno y (List.mem_cons_self _ _)]
    have hlt : (ys ++ (t :: post ++ zs)).length < cap := by
      simp only [List.length_append, List.length_cons] at hcap ⊢; omega
    have hcap2 : ys.length + 1 + post.length + (zs ++ [f y]).length ≤ cap := by
      simp only [List.length_append, List.length_cons, List.length_nil] at hcap ⊢; omega
    have hrec := ih (zs ++ [f y]) k hcap2 (fun u hu => hno u (List.mem_cons_of_mem _ hu))
    have e : (y :: ys).length + k + 1 = (ys.length + k + 1) + 1 := by simp; omega
    rw [e, List.cons_append, rotateScan_cons, if_pos hlt, if_neg hy]
    simp only [List.append_assoc, List.cons_append] at hrec ⊢
    rw [hrec]
    simp

theorem exists_first_split (q : Task → Bool) :
    ∀ xs : List Task, (∀ t ∈ xs, q t = false) ∨
      ∃ pre t post, xs = pre ++ t :: post ∧ (∀ u ∈ pre, q u = false) ∧ q t = true := by
  intro xs
  induction xs with
  | nil => left; simp
  | cons x xs ih =>
    by_cases hx : q x = true
    · right; exact ⟨[], x, xs, rfl, by simp, hx⟩
    · have hx' : q x = false := by simpa using hx
      rcases ih with h | ⟨pre, t, post, e, hpre, ht⟩
      · left
        intro t ht
        rcases List.mem_cons.1 ht with rfl | h'
        · exact hx'
        · exact h t h'
      · right
        refine ⟨x :: pre, t, post, by simp [e], ?_, ht⟩
        intro u hu
        rcases List.mem_cons.1 hu with rfl | h'
        · exact hx'
        · exact hpre u h'

theorem rotateScan_spec (f : Task → Task) (p : Task → Bool) (g : Task → Task)
    (xs : List Task) (cap : Nat) (hcap : xs.length ≤ cap) :
    ∃ ys r, rotateScan f p g xs.length ⟨xs, cap⟩ = some (⟨ys, cap⟩, r) ∧ ScanOut f p g xs ys r := by
  rcases exists_first_split (fun t => p (f t)) xs with h | ⟨pre, t, post, e, hpre, ht⟩
  · refine ⟨xs.map f, none, ?_, ScanOut.none h⟩
    have := rotateScan_none_aux f p g cap xs [] (by simpa using hcap) h
    simpa using this
  · refine ⟨post ++ pre.map f ++ [g (f t)], some (g (f t)), ?_, ScanOut.found pre t post e hpre ht⟩
    have hc : pre.length + 1 + post.length + ([] : List Task).length ≤ cap := by
      rw [e] at hcap; simp only [List.length_append, List.length_cons, List.length_nil] at hcap ⊢
      omega
    have := rotateScan_found_aux f p g cap t post ht pre [] post.length hc hpre
    have e2 : xs.length = pre.length + post.length + 1 := by
      rw [e]; simp only [List.length_append, List.length_cons]; omega
    rw [e2, e]
    simpa using this

/-! ### Field lemmas for the in-place updates -/

theorem timeSub_ge_iff (now b : Int) : 10 * Second ≤ timeSub now b ↔ 10 * Second ≤ now - b := by
  have hmin : minDuration < 0 := by unfold minDuration; norm_num
  have hmax : 10 * Second ≤ maxDuration := by unfold maxDuration Second; norm_num
  have hs : 0 < Second := by unfold Second; norm_num
  unfold timeSub
  split_ifs with h1 h2
  · constructor <;> intro _ <;> omega
  · constructor <;> intro _ <;> omega
  · exact Iff.rfl

theorem removeTimeoutTask_eq (now : Int) (t : Task) :
    removeTimeoutTask now t =
      if t.TaskStatus = Running ∧ 10 * Second ≤ now - t.BeginTime then
        { t with TaskStatus := Ready }
      else t := by
  unfold removeTimeoutTask
  simp only [timeSub_ge_iff]

@[simp] theorem removeTimeoutTask_static (now : Int) (t : Task) :
    (removeTimeoutTask now t).static = t.static := by
  unfold removeTimeoutTask; split <;> rfl

@[simp] theorem removeTimeoutTask_holderId (now : Int) (t : Task) :
    (removeTimeoutTask now t).holderId = t.holderId := by
  unfold removeTimeoutTask; split <;> rfl

@[simp] theorem removeTimeoutTask_MapWorkerId (now : Int) (t : Task) :
    (removeTimeoutTask now t).MapWorkerId = t.MapWorkerId := by
  unfold removeTimeoutTask; split <;> rfl

@[simp] theorem removeTimeoutTask_ReduceWorkerId (now : Int) (t : Task) :
    (removeTimeoutTask now t).ReduceWorkerId = t.ReduceWorkerId := by
  unfold removeTimeoutTask; split <;> rfl

@[simp] theorem removeTimeoutTask_BeginTime (now : Int) (t : Task) :
    (removeTimeoutTask now t).BeginTime = t.BeginTime := by
  unfold removeTimeoutTask; split <;> rfl

@[simp] theorem removeTimeoutTask_TaskType (now : Int) (t : Task) :
    (removeTimeoutTask now t).TaskType = t.TaskType := by
  unfold removeTimeoutTask; split <;> rfl

theorem removeTimeoutTask_of_not_running (now : Int) (t : Task) (h : t.TaskStatus ≠ Running) :
    removeTimeoutTask now t = t := by
  unfold removeTimeoutTask; simp [h]

theorem removeTimeoutTask_of_live (now : Int) (t : Task) (h : now - t.BeginTime < 10 * Second) :
    removeTimeoutTask now t = t := by
  rw [removeTimeoutTask_eq]
  have : ¬ 10 * Second ≤ now - t.BeginTime := not_le.2 h
  simp [this]

theorem removeTimeoutTask_of_overdue (now : Int) (t : Task) (h1 : t.TaskStatus = Running)
    (h2 : 10 * Second ≤ now - t.BeginTime) :
    removeTimeoutTask now t = { t with TaskStatus := Ready } := by
  rw [removeTimeoutTask_eq]
  simp [h1, h2]

theorem removeTimeoutTask_running_iff (now : Int) (t : Task) :
    (removeTimeoutTask now t).TaskStatus = Running ↔
      t.TaskStatus = Running ∧ now - t.BeginTime < 10 * Second := by
  rw [removeTimeoutTask_eq]
  by_cases h1 : t.TaskStatus = Running <;> by_cases h2 : 10 * Second ≤ now - t.BeginTime
  · simp [h1, h2]
  · simp [h1, h2]; exact not_le.1 h2
  · simp [h1, h2]
  · simp [h1, h2]

theorem removeTimeoutTask_of_running (now : Int) (t : Task)
    (h : (removeTimeoutTask now t).TaskStatus = Running) : removeTimeoutTask now t = t :=
  removeTimeoutTask_of_live now t ((removeTimeoutTask_running_iff now t).1 h).2

theorem removeTimeoutTask_finished_iff (now : Int) (t : Task) :
    (removeTimeoutTask now t).TaskStatus = Finished ↔ t.TaskStatus = Finished := by
  unfold removeTimeoutTask
  split
  · rename_i h; simp [h.1]
  · rfl

theorem removeTimeoutTask_status (now : Int) (t : Task) :
    (removeTimeoutTask now t = t) ∨
      (t.TaskStatus = Running ∧ 10 * Second ≤ now - t.BeginTime ∧
        (removeTimeoutTask now t).TaskStatus = Ready) := by
  rw [removeTimeoutTask_eq]
  split
  · rename_i h; right; exact ⟨h.1, h.2, rfl⟩
  · left; rfl

@[simp] theorem finishTask_static (t : Task) : (finishTask t).static = t.static := rfl
@[simp] theorem finishTask_holderId (t : Task) : (finishTask t).holderId = t.holderId := rfl
@[simp] theorem finishTask_TaskStatus (t : Task) : (finishTask t).TaskStatus = Finished := rfl
@[simp] theorem finishTask_MapWorkerId (t : Task) : (finishTask t).MapWorkerId = t.MapWorkerId := rfl
@[simp] theorem finishTask_ReduceWorkerId (t : Task) :
    (finishTask t).ReduceWorkerId = t.ReduceWorkerId := rfl
@[simp] theorem finishTask_BeginTime (t : Task) : (finishTask t).BeginTime = t.BeginTime := rfl

@[simp] theorem leaseMap_static (w : Int) (now : Int) (t : Task) :
    (leaseMap w now t).static = t.static := rfl
@[simp] theorem leaseMap_TaskStatus (w : Int) (now : Int) (t : Task) :
    (leaseMap w now t).TaskStatus = Running := rfl
@[simp] theorem leaseMap_MapWorkerId (w : Int) (now : Int) (t : Task) :
    (leaseMap w now t).MapWorkerId = w := rfl
@[simp] theorem leaseMap_BeginTime (w : Int) (now : Int) (t : Task) :
    (leaseMap w now t).BeginTime = now := rfl
@[simp] theorem leaseMap_TaskType (w : Int) (now : Int) (t : Task) :
    (leaseMap w now t).TaskType = t.TaskType := rfl

@[simp] theorem leaseReduce_static (w : Int) (now : Int) (t : Task) :
    (leaseReduce w now t).static = t.static := rfl
@[simp] theorem leaseReduce_TaskStatus (w : Int) (now : Int) (t : Task) :
    (leaseReduce w now t).TaskStatus = Running := rfl
@[simp] theorem leaseReduce_ReduceWorkerId (w : Int) (now : Int) (t : Task) :
    (leaseReduce w now t).ReduceWorkerId = w := rfl
@[simp] theorem leaseReduce_BeginTime (w : Int) (now : Int) (t : Task) :
    (leaseReduce w now t).BeginTime = now := rfl
@[simp] theorem leaseReduce_TaskType (w : Int) (now : Int) (t : Task) :
    (leaseReduce w now t).TaskType = t.TaskType := rfl

theorem holderId_of_map (t : Task) (h : t.TaskType = MapTask) : t.holderId = t.MapWorkerId := by
  unfold Task.holderId; rw [h]

theorem holderId_of_reduce (t : Task) (h : t.TaskType = ReduceTask) :
    t.holderId = t.ReduceWorkerId := by
  unfold Task.holderId; rw [h]

theorem static_TaskType {a b : Task} (h : a.static = b.static) : a.TaskType = b.TaskType := by
  unfold Task.static at h
  exact (Prod.mk.inj (Prod.mk.inj h).2).1

theorem static_Addr {a b : Task} (h : a.static = b.static) : a.Addr = b.Addr := by
  unfold Task.static at h
  exact (Prod.mk.inj h).1

theorem static_InputFile {a b : Task} (h : a.static = b.static) : a.InputFile = b.InputFile := by
  unfold Task.static at h
  exact (Prod.mk.inj (Prod.mk.inj h).2).2

/-! ### Consequences of a scan outcome -/

theorem ScanOut.length_eq {f : Task → Task} {p : Task → Bool} {g : Task → Task}
    {xs ys : List Task} {r : Option Task} (h : ScanOut f p g xs ys r) : ys.length = xs.length := by
  cases h with
  | none _ => simp
  | found pre t post e _ _ => subst e; simp; omega

theorem ScanOut.static_rotated {f : Task → Task} {p : Task → Bool} {g : Task → Task}
    {xs ys : List Task} {r : Option Task} (h : ScanOut f p g xs ys r)
    (hf : ∀ t, (f t).static = t.static) (hg : ∀ t, (g t).static = t.static) :
    List.IsRotated (ys.map Task.static) (xs.map Task.static) := by
  cases h with
  | none _ =>
    have : (xs.map f).map Task.static = xs.map Task.static := by
      simp [List.map_map, Function.comp_def, hf]
    rw [this]
  | found pre t post e _ _ =>
    subst e
    have : (post ++ pre.map f ++ [g (f t)]).map Task.static
        = post.map Task.static ++ (pre.map Task.static ++ [t.static]) := by
      simp [List.map_map, Function.comp_def, hf, hg]
    rw [this]
    have e2 : (pre ++ t :: post).map Task.static
        = (pre.map Task.static ++ [t.static]) ++ post.map Task.static := by simp
    rw [e2]
    exact List.isRotated_append

/-- Every task of the resulting queue comes from a task of the scanned queue. -/
theorem ScanOut.mem_out {f : Task → Task} {p : Task → Bool} {g : Task → Task}
    {xs ys : List Task} {r : Option Task} (h : ScanOut f p g xs ys r) {y : Task} (hy : y ∈ ys) :
    ∃ x ∈ xs, y = x ∨ (y = f x ∧ p (f x) = false) ∨ (y = g (f x) ∧ p (f x) = true ∧ r = some y) := by
  cases h with
  | none hno =>
    rcases List.mem_map.1 hy with ⟨x, hx, rfl⟩
    exact ⟨x, hx, Or.inr (Or.inl ⟨rfl, hno x hx⟩)⟩
  | found pre t post e hpre ht =>
    subst e
    simp only [List.mem_append, List.mem_map, List.mem_singleton] at hy
    rcases hy with (hy | ⟨x, hx, rfl⟩) | rfl
    · exact ⟨y, by simp [hy], Or.inl rfl⟩
    · exact ⟨x, by simp [hx], Or.inr (Or.inl ⟨rfl, hpre x hx⟩)⟩
    · exact ⟨t, by simp, Or.inr (Or.inr ⟨rfl, ht, rfl⟩)⟩

/-- Every task of the scanned queue is still in the resulting queue, possibly updated. -/
theorem ScanOut.mem_in {f : Task → Task} {p : Task → Bool} {g : Task → Task}
    {xs ys : List Task} {r : Option Task} (h : ScanOut f p g xs ys r) {x : Task} (hx : x ∈ xs) :
    x ∈ ys ∨ (f x ∈ ys ∧ p (f x) = false) ∨ (g (f x) ∈ ys ∧ p (f x) = true ∧ r = some (g (f x))) := by
  cases h with
  | none hno =>
    exact Or.inr (Or.inl ⟨List.mem_map.2 ⟨x, hx, rfl⟩, hno x hx⟩)
  | found pre t post e hpre ht =>
    subst e
    simp only [List.mem_append, List.mem_cons] at hx
    rcases hx with hx | rfl | hx
    · refine Or.inr (Or.inl ⟨?_, hpre x hx⟩)
      exact List.mem_append_left _ (List.mem_append_right _ (List.mem_map.2 ⟨x, hx, rfl⟩))
    · exact Or.inr (Or.inr ⟨by simp, ht, rfl⟩)
    · exact Or.inl (by simp [hx])

theorem ScanOut.result_mem {f : Task → Task} {p : Task → Bool} {g : Task → Task}
    {xs ys : List Task} {r : Option Task} (h : ScanOut f p g xs ys r) {y : Task}
    (hr : r = some y) : y ∈ ys ∧ ∃ x ∈ xs, y = g (f x) ∧ p (f x) = true := by
  cases h with
  | none _ => cases hr
  | found pre t post e hpre ht =>
    cases hr
    exact ⟨by simp, t, by simp [e], rfl, ht⟩

theorem ScanOut.none_iff {f : Task → Task} {p : Task → Bool} {g : Task → Task}
    {xs ys : List Task} {r : Option Task} (h : ScanOut f p g xs ys r) :
    r = Option.none ↔ ∀ t ∈ xs, p (f t) = false := by
  cases h with
  | none hno => simpa using hno
  | found pre t post e hpre ht =>
    subst e
    simp only [false_iff, reduceCtorEq]
    intro hall
    have := hall t (by simp)
    rw [ht] at this; cases this

theorem ScanOut.id_none {p : Task → Bool} {g : Task → Task}
    {xs ys : List Task} (h : ScanOut id p g xs ys Option.none) : ys = xs := by
  cases h with
  | none _ => simp

/-! ### Task creation -/

theorem generateMapTasksLoop_eq (cap : Nat) :
    ∀ (files : List String) (i : Nat) (xs : List Task), xs.length + files.length ≤ cap →
      generateMapTasksLoop files i ⟨xs, cap⟩ = some ⟨xs ++ mapTasksFrom files i, cap⟩ := by
  intro files
  induction files with
  | nil => intro i xs _; simp [generateMapTasksLoop, mapTasksFrom]
  | cons file rest ih =>
    intro i xs h
    have hlt : xs.length < cap := by simp only [List.length_cons] at h; omega
    have h2 : (xs ++ [newMapTask i file]).length + rest.length ≤ cap := by
      simp only [List.length_append, List.length_cons, List.length_nil] at h ⊢; omega
    simp only [generateMapTasksLoop, Chan.send, hlt, if_true]
    rw [ih (i + 1) (xs ++ [newMapTask i file]) h2]
    simp [mapTasksFrom]

theorem generateReduceTasksLoop_eq (cap : Nat) :
    ∀ (k i : Nat) (xs : List Task), xs.length + k ≤ cap →
      generateReduceTasksLoop k i ⟨xs, cap⟩ = some ⟨xs ++ reduceTasksFrom k i, cap⟩ := by
  intro k
  induction k with
  | zero => intro i xs _; simp [generateReduceTasksLoop, reduceTasksFrom]
  | succ k ih =>
    intro i xs h
    have hlt : xs.length < cap := by omega
    have h2 : (xs ++ [newReduceTask i]).length + k ≤ cap := by
      simp only [List.length_append, List.length_cons, List.length_nil]; omega
    simp only [generateReduceTasksLoop, Chan.send, hlt, if_true]
    rw [ih (i + 1) (xs ++ [newReduceTask i]) h2]
    simp [reduceTasksFrom]

theorem generateReduceTasksLoop_full (cap : Nat) (k i : Nat) (xs : List Task)
    (h : cap ≤ xs.length) : generateReduceTasksLoop (k + 1) i ⟨xs, cap⟩ = none := by
  have : ¬ xs.length < cap := by omega
  simp [generateReduceTasksLoop, Chan.send, this]

theorem length_mapTasksFrom : ∀ (files : List String) (i : Nat),
    (mapTasksFrom files i).length = files.length := by
  intro files
  induction files with
  | nil => intro i; rfl
  | cons f rest ih => intro i; simp [mapTasksFrom, ih]

theorem length_reduceTasksFrom : ∀ (k i : Nat), (reduceTasksFrom k i).length = k := by
  intro k
  induction k with
  | zero => intro i; rfl
  | succ k ih => intro i; simp [reduceTasksFrom, ih]

theorem mem_mapTasksFrom : ∀ (files : List String) (i : Nat) (t : Task),
    t ∈ mapTasksFrom files i →
      t.TaskType = MapTask ∧ t.TaskStatus = Ready ∧ t.MapWorkerId = 0 ∧ t.ReduceWorkerId = 0 ∧
        i ≤ t.Addr ∧ t.Addr < i + files.length ∧ t.BeginTime = 0 := by
  intro files
  induction files with
  | nil => intro i t h; simp [mapTasksFrom] at h
  | cons f rest ih =>
    intro i t h
    simp only [mapTasksFrom, List.mem_cons] at h
    rcases h with rfl | h
    · simp [newMapTask]
    · have := ih (i + 1) t h
      simp only [List.length_cons]
      refine ⟨this.1, this.2.1, this.2.2.1, this.2.2.2.1, ?_, ?_, this.2.2.2.2.2.2⟩ <;> omega

theorem mem_reduceTasksFrom : ∀ (k i : Nat) (t : Task),
    t ∈ reduceTasksFrom k i →
      t.TaskType = ReduceTask ∧ t.TaskStatus = Ready ∧ t.MapWorkerId = 0 ∧ t.ReduceWorkerId = 0 ∧
        i ≤ t.Addr ∧ t.Addr < i + k ∧ t.BeginTime = 0 ∧
        t.InputFile = TempFilePath ++ "mr-*-" ++ toString t.Addr := by
  intro k
  induction k with
  | zero => intro i t h; simp [reduceTasksFrom] at h
  | succ k ih =>
    intro i t h
    simp only [reduceTasksFrom, List.mem_cons] at h
    rcases h with rfl | h
    · simp [newReduceTask]
    · have := ih (i + 1) t h
      refine ⟨this.1, this.2.1, this.2.2.1, this.2.2.2.1, ?_, ?_, this.2.2.2.2.2.2⟩ <;> omega

theorem nodup_static_mapTasksFrom : ∀ (files : List String) (i : Nat),
    ((mapTasksFrom files i).map Task.static).Nodup := by
  intro files
  induction files with
  | nil => intro i; simp [mapTasksFrom]
  | cons f rest ih =>
    intro i
    simp only [mapTasksFrom, List.map_cons, List.nodup_cons]
    refine ⟨?_, ih (i + 1)⟩
    intro hmem
    rcases List.mem_map.1 hmem with ⟨t, ht, e⟩
    have h1 := (mem_mapTasksFrom rest (i + 1) t ht).2.2.2.2.1
    have h2 : t.Addr = i := by
      have := static_Addr e
      simpa [newMapTask] using this
    omega

theorem nodup_static_reduceTasksFrom : ∀ (k i : Nat),
    ((reduceTasksFrom k i).map Task.static).Nodup := by
  intro k
  induction k with
  | zero => intro i; simp [reduceTasksFrom]
  | succ k ih =>
    intro i
    simp only [reduceTasksFrom, List.map_cons, List.nodup_cons]
    refine ⟨?_, ih (i + 1)⟩
    intro hmem
    rcases List.mem_map.1 hmem with ⟨t, ht, e⟩
    have h1 := (mem_reduceTasksFrom k (i + 1) t ht).2.2.2.2.1
    have h2 : t.Addr = i := by
      have := static_Addr e
      simpa [newReduceTask] using this
    omega

/-! ### Basic facts about well-formed states -/

theorem mem_of_static_rotated {xs ys : List Task}
    (h : List.IsRotated (xs.map Task.static) (ys.map Task.static)) {t : Task} (ht : t ∈ xs) :
    ∃ u ∈ ys, u.static = t.static := by
  have hm : t.static ∈ xs.map Task.static := List.mem_map.2 ⟨t, ht, rfl⟩
  have := (h.perm.mem_iff).1 hm
  rcases List.mem_map.1 this with ⟨u, hu, e⟩
  exact ⟨u, hu, e⟩

theorem length_of_static_rotated {xs ys : List Task}
    (h : List.IsRotated (xs.map Task.static) (ys.map Task.static)) : xs.length = ys.length := by
  have := h.perm.length_eq
  simpa using this

theorem WF.mapLen {files : List String} {R : Int} {m : Master} (hw : WF files R m) :
    m.MapChannel.buf.length = files.length := by
  rw [length_of_static_rotated hw.hMapStatic, length_mapTasksFrom]

theorem WF.mapNumNat {files : List String} {R : Int} {m : Master} (hw : WF files R m) :
    m.MapNum.toNat = m.MapChannel.buf.length := by
  rw [hw.mapLen, hw.hMapNum]; simp

theorem WF.redLen {files : List String} {R : Int} {m : Master} (hw : WF files R m)
    (hp : m.DistributePhase = ReducePhase) : m.ReduceChannel.buf.length = R.toNat := by
  rw [length_of_static_rotated (hw.hRedStatic hp), length_reduceTasksFrom]

theorem WF.mapType {files : List String} {R : Int} {m : Master} (hw : WF files R m)
    {t : Task} (ht : t ∈ m.MapChannel.buf) : t.TaskType = MapTask := by
  rcases mem_of_static_rotated hw.hMapStatic ht with ⟨u, hu, e⟩
  rw [← static_TaskType e]
  exact (mem_mapTasksFrom _ _ u hu).1

theorem WF.redType {files : List String} {R : Int} {m : Master} (hw : WF files R m)
    {t : Task} (ht : t ∈ m.ReduceChannel.buf) : t.TaskType = ReduceTask := by
  cases hp : m.DistributePhase with
  | MapPhase => rw [hw.hRedEmpty hp] at ht; cases ht
  | ReducePhase =>
    rcases mem_of_static_rotated (hw.hRedStatic hp) ht with ⟨u, hu, e⟩
    rw [← static_TaskType e]
    exact (mem_reduceTasksFrom _ _ u hu).1

theorem WF.nodup_static {files : List String} {R : Int} {m : Master} (hw : WF files R m) :
    (m.tasks.map Task.static).Nodup := by
  unfold Master.tasks
  rw [List.map_append, List.nodup_append]
  refine ⟨?_, ?_, ?_⟩
  · exact (hw.hMapStatic.perm.nodup_iff).2 (nodup_static_mapTasksFrom _ _)
  · cases hp : m.DistributePhase with
    | MapPhase => rw [hw.hRedEmpty hp]; simp
    | ReducePhase => exact ((hw.hRedStatic hp).perm.nodup_iff).2 (nodup_static_reduceTasksFrom _ _)
  · intro s hs1 hs2
    rcases List.mem_map.1 hs1 with ⟨a, ha, rfl⟩
    rcases List.mem_map.1 hs2 with ⟨b, hb, e⟩
    have h1 := hw.mapType ha
    have h2 := hw.redType hb
    have := static_TaskType e
    rw [h1, h2] at this
    cases this

/-! ### The scans of a well-formed state -/

theorem WF.scanMap {files : List String} {R : Int} {m : Master} (hw : WF files R m)
    (f : Task → Task) (p : Task → Bool) (g : Task → Task) :
    ∃ ys r, rotateScan f p g m.MapNum.toNat m.MapChannel = some (⟨ys, m.MapChannel.cap⟩, r) ∧
      ScanOut f p g m.MapChannel.buf ys r := by
  have h := rotateScan_spec f p g m.MapChannel.buf m.MapChannel.cap
    (by rw [hw.mapLen, hw.hMapCap])
  rw [hw.mapNumNat]
  exact h

theorem WF.scanReduce {files : List String} {R : Int} {m : Master} (hw : WF files R m)
    (hp : m.DistributePhase = ReducePhase)
    (f : Task → Task) (p : Task → Bool) (g : Task → Task) :
    ∃ ys r, rotateScan f p g m.ReduceNum.toNat m.ReduceChannel
        = some (⟨ys, m.ReduceChannel.cap⟩, r) ∧
      ScanOut f p g m.ReduceChannel.buf ys r := by
  have h := rotateScan_spec f p g m.ReduceChannel.buf m.ReduceChannel.cap
    (by rw [hw.redLen hp, hw.hRedCap])
  rw [hw.hRedNum, ← hw.redLen hp]
  exact h

/-- In the Map phase the Reduce channel is empty: a scan over it blocks on
its first receive unless the reduce count is zero. -/
theorem WF.scanReduce_mapPhase {files : List String} {R : Int} {m : Master} (hw : WF files R m)
    (hp : m.DistributePhase = MapPhase)
    (f : Task → Task) (p : Task → Bool) (g : Task → Task) :
    rotateScan f p g m.ReduceNum.toNat m.ReduceChannel
      = if R = 0 then some (m.ReduceChannel, none) else none := by
  have hb := hw.hRedEmpty hp
  have hR := hw.hR
  rw [hw.hRedNum]
  by_cases h0 : R = 0
  · subst h0; simp [rotateScan]
  · have : ∃ k, R.toNat = k + 1 := ⟨R.toNat - 1, by omega⟩
    rcases this with ⟨k, hk⟩
    have hch : m.ReduceChannel = ⟨[], m.ReduceChannel.cap⟩ := by
      cases hc : m.ReduceChannel with
      | mk buf cap => rw [hc] at hb; simp at hb; simp [hb]
    rw [hk, hch, rotateScan_nil]
    simp [h0]

/-! ### What each handler does in a well-formed state -/

theorem MapTaskDone_spec {files : List String} {R : Int} {m : Master} (hw : WF files R m)
    (args : MapTaskDoneArgs) (now : Int) :
    ∃ ys r,
      ScanOut (removeTimeoutTask now)
        (fun t => decide (t.MapWorkerId = args.MapWorkerId ∧ t.TaskStatus = Running))
        finishTask m.MapChannel.buf ys r ∧
      MapTaskDone m args now
        = some ({ m with MapChannel := ⟨ys, m.MapChannel.cap⟩ }, r.map (fun _ => args.Files)) := by
  rcases hw.scanMap (removeTimeoutTask now)
    (fun t => decide (t.MapWorkerId = args.MapWorkerId ∧ t.TaskStatus = Running)) finishTask
    with ⟨ys, r, hrun, hout⟩
  refine ⟨ys, r, hout, ?_⟩
  unfold MapTaskDone
  rw [hrun]
  cases r <;> rfl

theorem ReduceTaskDone_spec {files : List String} {R : Int} {m : Master} (hw : WF files R m)
    (hp : m.DistributePhase = ReducePhase) (args : ReduceTaskDoneArgs) :
    ∃ ys r,
      ScanOut id
        (fun t => decide (t.ReduceWorkerId = args.ReduceWorkerId ∧ t.TaskStatus = Running))
        finishTask m.ReduceChannel.buf ys r ∧
      ReduceTaskDone m args
        = some ({ m with ReduceChannel := ⟨ys, m.ReduceChannel.cap⟩ },
            r.map (fun _ => args.Files)) := by
  rcases hw.scanReduce hp id
    (fun t => decide (t.ReduceWorkerId = args.ReduceWorkerId ∧ t.TaskStatus = Running)) finishTask
    with ⟨ys, r, hrun, hout⟩
  refine ⟨ys, r, hout, ?_⟩
  unfold ReduceTaskDone
  rw [hrun]
  cases r <;> rfl

/-- A `ReduceTaskDone` call in the Map phase: it returns, without effect, only
when the reduce count is zero; otherwise it blocks on the empty channel. -/
theorem ReduceTaskDone_mapPhase {files : List String} {R : Int} {m : Master} (hw : WF files R m)
    (hp : m.DistributePhase = MapPhase) (args : ReduceTaskDoneArgs) :
    ReduceTaskDone m args = if R = 0 then some (m, none) else none := by
  unfold ReduceTaskDone
  rw [hw.scanReduce_mapPhase hp]
  by_cases h0 : R = 0 <;> simp [h0]

theorem ScanOut.never {f : Task → Task} {g : Task → Task} {xs ys : List Task} {r : Option Task}
    (h : ScanOut f (fun _ => false) g xs ys r) : ys = xs.map f ∧ r = Option.none := by
  cases h with
  | none _ => exact ⟨rfl, rfl⟩
  | found pre t post e hpre ht => cases ht

theorem reaperPass_map {files : List String} {R : Int} {m : Master} (hw : WF files R m)
    (hp : m.DistributePhase = MapPhase) (now : Int) :
    reaperPass m now
      = some { m with MapChannel :=
          ⟨m.MapChannel.buf.map (removeTimeoutTask now), m.MapChannel.cap⟩ } := by
  rcases hw.scanMap (removeTimeoutTask now) (fun _ => false) id with ⟨ys, r, hrun, hout⟩
  rcases hout.never with ⟨rfl, rfl⟩
  unfold reaperPass
  rw [if_pos hp, hrun]

theorem reaperPass_reduce {files : List String} {R : Int} {m : Master} (hw : WF files R m)
    (hp : m.DistributePhase = ReducePhase) (now : Int) :
    reaperPass m now
      = some { m with ReduceChannel :=
          ⟨m.ReduceChannel.buf.map (removeTimeoutTask now), m.ReduceChannel.cap⟩ } := by
  rcases hw.scanReduce hp (removeTimeoutTask now) (fun _ => false) id with ⟨ys, r, hrun, hout⟩
  rcases hout.never with ⟨rfl, rfl⟩
  unfold reaperPass
  have : ¬ m.DistributePhase = MapPhase := by rw [hp]; decide
  rw [if_neg this, hrun]

/-- The three ways a `DistributeTask` call ends in the Map phase. -/
theorem DistributeTask_map {files : List String} {R : Int} {m : Master} (hw : WF files R m)
    (hp : m.DistributePhase = MapPhase) (now : Int) :
    (∃ pre t post, m.MapChannel.buf = pre ++ t :: post ∧
        (∀ u ∈ pre, u.TaskStatus ≠ Ready) ∧ t.TaskStatus = Ready ∧
        DistributeTask m now = some
          ({ m with MapChannel := ⟨post ++ pre ++ [leaseMap m.WorkerId now t], m.MapChannel.cap⟩,
                    WorkerId := m.WorkerId + 1 },
           { Task := some (leaseMap m.WorkerId now t), NReduce := m.ReduceNum,
             AllDone := false })) ∨
    ((∀ u ∈ m.MapChannel.buf, u.TaskStatus = Finished) ∧
        DistributeTask m now = some
          ({ m with ReduceChannel := ⟨reduceTasksFrom R.toNat 0, m.ReduceChannel.cap⟩,
                    DistributePhase := ReducePhase }, TaskReply.zero)) ∨
    (∃ pre t post, m.MapChannel.buf = pre ++ t :: post ∧
        (∀ u ∈ m.MapChannel.buf, u.TaskStatus ≠ Ready) ∧
        (∀ u ∈ pre, u.TaskStatus = Finished) ∧ t.TaskStatus ≠ Finished ∧
        DistributeTask m now = some
          ({ m with MapChannel := ⟨post ++ pre ++ [t], m.MapChannel.cap⟩ }, TaskReply.zero)) := by
  rcases hw.scanMap id (fun t => decide (t.TaskStatus = Ready)) (leaseMap m.WorkerId now)
    with ⟨ys, r, hrun, hout⟩
  cases hout with
  | found pre t post e hpre ht =>
    left
    refine ⟨pre, t, post, e, ?_, by simpa using ht, ?_⟩
    · intro u hu; simpa using hpre u hu
    · unfold DistributeTask
      rw [if_pos hp, hrun]
      simp [TaskReply.zero]
  | none hno =>
    right
    have hno' : ∀ u ∈ m.MapChannel.buf, u.TaskStatus ≠ Ready := by
      intro u hu; simpa using hno u hu
    have hcap : m.MapChannel.buf.length ≤ m.MapChannel.cap := by rw [hw.mapLen, hw.hMapCap]
    rcases rotateScan_spec id (fun t => decide (t.TaskStatus ≠ Finished)) id
      m.MapChannel.buf m.MapChannel.cap hcap with ⟨zs, r2, hrun2, hout2⟩
    rw [← hw.mapNumNat] at hrun2
    cases hout2 with
    | none hfin =>
      left
      have hfin' : ∀ u ∈ m.MapChannel.buf, u.TaskStatus = Finished := by
        intro u hu; simpa using hfin u hu
      refine ⟨hfin', ?_⟩
      have hgen : generateReduceTasksLoop m.ReduceNum.toNat 0 m.ReduceChannel
          = some ⟨reduceTasksFrom R.toNat 0, m.ReduceChannel.cap⟩ := by
        have := generateReduceTasksLoop_eq m.ReduceChannel.cap R.toNat 0 []
          (by rw [hw.hRedCap]; simp)
        have hch : m.ReduceChannel = ⟨[], m.ReduceChannel.cap⟩ := by
          have hb := hw.hRedEmpty hp
          cases hc : m.ReduceChannel with
          | mk buf cap => rw [hc] at hb; simp at hb; simp [hb]
        rw [hw.hRedNum, hch]
        simpa using this
      unfold DistributeTask
      rw [if_pos hp, hrun]
      simp only [List.map_id] at hrun2 ⊢
      simp only [judgeAllMapDone, hrun2, generateReduceTasks, hgen]
    | found pre t post e hpre ht =>
      right
      refine ⟨pre, t, post, e, hno', ?_, by simpa using ht, ?_⟩
      · intro u hu; simpa using hpre u hu
      · unfold DistributeTask
        rw [if_pos hp, hrun]
        simp only [List.map_id, id] at hrun2 ⊢
        simp only [judgeAllMapDone, hrun2]

/-- The three ways a `DistributeTask` call ends in the Reduce phase. -/
theorem DistributeTask_reduce {files : List String} {R : Int} {m : Master} (hw : WF files R m)
    (hp : m.DistributePhase = ReducePhase) (now : Int) :
    (∃ pre t post, m.ReduceChannel.buf = pre ++ t :: post ∧
        (∀ u ∈ pre, u.TaskStatus ≠ Ready) ∧ t.TaskStatus = Ready ∧
        DistributeTask m now = some
          ({ m with ReduceChannel :=
                      ⟨post ++ pre ++ [leaseReduce m.WorkerId now t], m.ReduceChannel.cap⟩,
                    WorkerId := m.WorkerId + 1 },
           { Task := some (leaseReduce m.WorkerId now t), NReduce := 0, AllDone := false })) ∨
    ((∀ u ∈ m.ReduceChannel.buf, u.TaskStatus = Finished) ∧
        DistributeTask m now = some (m, { Task := none, NReduce := 0, AllDone := true })) ∨
    (∃ pre t post, m.ReduceChannel.buf = pre ++ t :: post ∧
        (∀ u ∈ m.ReduceChannel.buf, u.TaskStatus ≠ Ready) ∧
        (∀ u ∈ pre, u.TaskStatus = Finished) ∧ t.TaskStatus ≠ Finished ∧
        DistributeTask m now = some
          ({ m with ReduceChannel := ⟨post ++ pre ++ [t], m.ReduceChannel.cap⟩ },
           TaskReply.zero)) := by
  have hnp : ¬ m.DistributePhase = MapPhase := by rw [hp]; decide
  rcases hw.scanReduce hp id (fun t => decide (t.TaskStatus = Ready))
    (leaseReduce m.WorkerId now) with ⟨ys, r, hrun, hout⟩
  cases hout with
  | found pre t post e hpre ht =>
    left
    refine ⟨pre, t, post, e, ?_, by simpa using ht, ?_⟩
    · intro u hu; simpa using hpre u hu
    · unfold DistributeTask
      rw [if_neg hnp, hrun]
      simp [TaskReply.zero]
  | none hno =>
    right
    have hno' : ∀ u ∈ m.ReduceChannel.buf, u.TaskStatus ≠ Ready := by
      intro u hu; simpa using hno u hu
    have hcap : m.ReduceChannel.buf.length ≤ m.ReduceChannel.cap := by
      rw [hw.redLen hp, hw.hRedCap]
    rcases rotateScan_spec id (fun t => decide (t.TaskStatus ≠ Finished)) id
      m.ReduceChannel.buf m.ReduceChannel.cap hcap with ⟨zs, r2, hrun2, hout2⟩
    have hn : m.ReduceNum.toNat = m.ReduceChannel.buf.length := by
      rw [hw.hRedNum, hw.redLen hp]
    rw [← hn] at hrun2
    cases hout2 with
    | none hfin =>
      left
      have hfin' : ∀ u ∈ m.ReduceChannel.buf, u.TaskStatus = Finished := by
        intro u hu; simpa using hfin u hu
      refine ⟨hfin', ?_⟩
      unfold DistributeTask
      rw [if_neg hnp, hrun]
      simp only [List.map_id] at hrun2 ⊢
      simp only [judgeAllReduceDone, hrun2, TaskReply.zero]
    | found pre t post e hpre ht =>
      right
      refine ⟨pre, t, post, e, hno', ?_, by simpa using ht, ?_⟩
      · intro u hu; simpa using hpre u hu
      · unfold DistributeTask
        rw [if_neg hnp, hrun]
        simp only [List.map_id, id] at hrun2 ⊢
        simp only [judgeAllReduceDone, hrun2]

/-! ### Preservation of well-formedness -/

theorem Upd.refl (w w1 : Int) (s0 : Nat × MR.TaskType × String) (x : Task) : Upd w w1 s0 x x :=
  ⟨rfl, fun h => h, Or.inl ⟨rfl, fun h => h⟩⟩

theorem Upd.removeTimeout (w w1 : Int) (s0 : Nat × MR.TaskType × String) (now : Int) (x : Task) :
    Upd w w1 s0 x (removeTimeoutTask now x) := by
  refine ⟨by simp, fun h => (removeTimeoutTask_finished_iff now x).2 h, Or.inl ⟨by simp, ?_⟩⟩
  intro h
  rcases removeTimeoutTask_status now x with e | ⟨h1, _, _⟩
  · rw [e] at h; exact h
  · rw [h1]; decide

theorem Upd.finish (w w1 : Int) (s0 : Nat × MR.TaskType × String) (now : Int) (x : Task)
    (h : (removeTimeoutTask now x).TaskStatus = Running) :
    Upd w w1 s0 x (finishTask (removeTimeoutTask now x)) := by
  refine ⟨by simp, fun _ => rfl, Or.inl ⟨by simp, ?_⟩⟩
  intro _
  rw [((removeTimeoutTask_running_iff now x).1 h).1]; decide

theorem Upd.finish_id (w w1 : Int) (s0 : Nat × MR.TaskType × String) (x : Task)
    (h : x.TaskStatus = Running) : Upd w w1 s0 x (finishTask x) := by
  refine ⟨by simp, fun _ => rfl, Or.inl ⟨by simp, ?_⟩⟩
  intro _
  rw [h]; decide

theorem upd_of_scan {f : Task → Task} {p : Task → Bool} {g : Task → Task}
    {xs ys : List Task} {r : Option Task} (hs : ScanOut f p g xs ys r)
    (w w1 : Int) (s0 : Nat × MR.TaskType × String)
    (hf : ∀ x ∈ xs, Upd w w1 s0 x (f x))
    (hg : ∀ x ∈ xs, p (f x) = true → r = some (g (f x)) → Upd w w1 s0 x (g (f x))) :
    ∀ y ∈ ys, ∃ x ∈ xs, Upd w w1 s0 x y := by
  intro y hy
  rcases hs.mem_out hy with ⟨x, hx, rfl | ⟨rfl, _⟩ | ⟨rfl, hp, hr⟩⟩
  · exact ⟨y, hx, Upd.refl _ _ _ _⟩
  · exact ⟨x, hx, hf x hx⟩
  · exact ⟨x, hx, hg x hx hp hr⟩

theorem WF.of_updates {files : List String} {R : Int} {m m1 : Master} (hw : WF files R m)
    (s0 : Nat × MR.TaskType × String)
    (hF : m1.Files = m.Files) (hMN : m1.MapNum = m.MapNum) (hRN : m1.ReduceNum = m.ReduceNum)
    (hMC : m1.MapChannel.cap = m.MapChannel.cap)
    (hRC : m1.ReduceChannel.cap = m.ReduceChannel.cap)
    (hP : m1.DistributePhase = m.DistributePhase) (hW : m.WorkerId ≤ m1.WorkerId)
    (hMs : List.IsRotated (m1.MapChannel.buf.map Task.static) (m.MapChannel.buf.map Task.static))
    (hRs : List.IsRotated (m1.ReduceChannel.buf.map Task.static)
      (m.ReduceChannel.buf.map Task.static))
    (hM : ∀ y ∈ m1.MapChannel.buf, ∃ x ∈ m.MapChannel.buf, Upd m.WorkerId m1.WorkerId s0 x y)
    (hRd : ∀ y ∈ m1.ReduceChannel.buf,
      ∃ x ∈ m.ReduceChannel.buf, Upd m.WorkerId m1.WorkerId s0 x y) :
    WF files R m1 := by
  have hT : ∀ y ∈ m1.tasks, ∃ x ∈ m.tasks, Upd m.WorkerId m1.WorkerId s0 x y := by
    intro y hy
    unfold Master.tasks at hy ⊢
    rcases List.mem_append.1 hy with h | h
    · rcases hM y h with ⟨x, hx, hu⟩
      exact ⟨x, List.mem_append_left _ hx, hu⟩
    · rcases hRd y h with ⟨x, hx, hu⟩
      exact ⟨x, List.mem_append_right _ hx, hu⟩
  refine
    { hFiles := by rw [hF]; exact hw.hFiles
      hMapNum := by rw [hMN]; exact hw.hMapNum
      hRedNum := by rw [hRN]; exact hw.hRedNum
      hR := hw.hR
      hMapCap := by rw [hMC]; exact hw.hMapCap
      hRedCap := by rw [hRC]; exact hw.hRedCap
      hMapStatic := hMs.trans hw.hMapStatic
      hRedStatic := fun hp => hRs.trans (hw.hRedStatic (by rw [← hP]; exact hp))
      hRedEmpty := ?_
      hGate := ?_
      hWid := le_trans hw.hWid hW
      hIds := ?_
      hUniq := ?_ }
  · intro hp
    have hb := hw.hRedEmpty (by rw [← hP]; exact hp)
    rw [hb] at hRs
    have := hRs.perm.length_eq
    simp only [List.length_map, List.map_nil, List.length_nil] at this
    exact List.length_eq_zero.1 this
  · intro hp y hy
    rcases hM y hy with ⟨x, hx, hu⟩
    exact hu.2.1 (hw.hGate (by rw [← hP]; exact hp) x hx)
  · intro y hy
    rcases hT y hy with ⟨x, hx, _, _, hu⟩
    have hx' := hw.hIds x hx
    rcases hu with ⟨e, hr⟩ | ⟨e, _, hlt⟩
    · rw [e]
      refine ⟨hx'.1, lt_of_lt_of_le hx'.2.1 hW, fun h => hx'.2.2 (hr h)⟩
    · rw [e]
      have := hw.hWid
      exact ⟨by omega, hlt, fun _ => this⟩
  · intro a ha b hb hab h1
    rcases hT a ha with ⟨xa, hxa, sa, _, hua⟩
    rcases hT b hb with ⟨xb, hxb, sb, _, hub⟩
    have ia := hw.hIds xa hxa
    have ib := hw.hIds xb hxb
    rcases hua with ⟨ea, _⟩ | ⟨ea, ea0, _⟩ <;> rcases hub with ⟨eb, _⟩ | ⟨eb, eb0, _⟩
    · rw [sa, sb]
      exact hw.hUniq xa hxa xb hxb (by rw [← ea, ← eb]; exact hab) (by rw [← ea]; exact h1)
    · exfalso; have := ia.2.1; omega
    · exfalso; have := ib.2.1; omega
    · rw [ea0, eb0]

theorem WF_init {files : List String} {R : Int} {m : Master}
    (h : MakeMaster files R = some m) : WF files R m := by
  unfold MakeMaster at h
  by_cases hR : R < 0
  · simp [hR] at h
  · rw [if_neg hR] at h
    have hgen := generateMapTasksLoop_eq files.length files 0 [] (by simp)
    simp only [generateMapTasks, hgen, List.nil_append, Option.some.injEq] at h
    subst h
    refine
      { hFiles := rfl, hMapNum := rfl, hRedNum := rfl, hR := not_lt.1 hR, hMapCap := rfl,
        hRedCap := rfl, hMapStatic := List.IsRotated.refl _,
        hRedStatic := (fun hp => by cases hp), hRedEmpty := fun _ => rfl,
        hGate := (fun hp => by cases hp), hWid := le_refl _, hIds := ?_, hUniq := ?_ }
    · intro t ht
      simp only [Master.tasks, List.append_nil] at ht
      have := mem_mapTasksFrom files 0 t ht
      rw [holderId_of_map t this.1, this.2.2.1]
      refine ⟨le_refl _, Int.zero_lt_one, fun hne => absurd this.2.1 hne⟩
    · intro a ha b _ _ h1
      simp only [Master.tasks, List.append_nil] at ha
      have := mem_mapTasksFrom files 0 a ha
      rw [holderId_of_map a this.1, this.2.2.1] at h1
      exact absurd h1 (by decide)

theorem MakeMaster_eq (files : List String) (R : Int) (hR : 0 ≤ R) :
    MakeMaster files R = some
      { MapChannel := ⟨mapTasksFrom files 0, files.length⟩
        ReduceChannel := ⟨[], R.toNat⟩
        Files := files
        MapNum := files.length
        ReduceNum := R
        DistributePhase := MapPhase
        WorkerId := 1
        IsDone := false } := by
  unfold MakeMaster
  have hgen := generateMapTasksLoop_eq files.length files 0 [] (by simp)
  rw [if_neg (not_lt.2 hR)]
  simp only [generateMapTasks, hgen, List.nil_append]

/-- Entering the Reduce phase. -/
theorem WF.toReduce {files : List String} {R : Int} {m : Master} (hw : WF files R m)
    (hfin : ∀ u ∈ m.MapChannel.buf, u.TaskStatus = Finished) :
    WF files R { m with ReduceChannel := ⟨reduceTasksFrom R.toNat 0, m.ReduceChannel.cap⟩,
                        DistributePhase := ReducePhase } := by
  have hsplit : ∀ t ∈ m.MapChannel.buf ++ reduceTasksFrom R.toNat 0,
      t ∈ m.tasks ∨ (t.holderId = 0 ∧ t.TaskStatus = Ready) := by
    intro t ht
    rcases List.mem_append.1 ht with h | h
    · exact Or.inl (List.mem_append_left _ h)
    · have := mem_reduceTasksFrom _ _ t h
      right
      rw [holderId_of_reduce t this.1]
      exact ⟨this.2.2.2.1, this.2.1⟩
  refine
    { hFiles := hw.hFiles, hMapNum := hw.hMapNum, hRedNum := hw.hRedNum, hR := hw.hR,
      hMapCap := hw.hMapCap, hRedCap := hw.hRedCap, hMapStatic := hw.hMapStatic,
      hRedStatic := fun _ => List.IsRotated.refl _, hRedEmpty := (fun h => by cases h),
      hGate := fun _ => hfin, hWid := hw.hWid, hIds := ?_, hUniq := ?_ }
  · intro t ht
    rcases hsplit t ht with h | ⟨h0, hr⟩
    · exact hw.hIds t h
    · have := hw.hWid
      rw [h0]
      exact ⟨le_refl _, by show (0 : Int) < m.WorkerId; omega, fun hne => absurd hr hne⟩
  · intro a ha b hb hab h1
    rcases hsplit a ha with ha' | ⟨h0, _⟩
    · rcases hsplit b hb with hb' | ⟨h0, _⟩
      · exact hw.hUniq a ha' b hb' hab h1
      · exfalso; omega
    · exfalso; omega

theorem static_rotated_move (pre post : List Task) (t t1 : Task) (h : t1.static = t.static) :
    List.IsRotated ((post ++ pre ++ [t1]).map Task.static)
      ((pre ++ t :: post).map Task.static) := by
  have e1 : (post ++ pre ++ [t1]).map Task.static
      = post.map Task.static ++ (pre.map Task.static ++ [t.static]) := by simp [h]
  have e2 : (pre ++ t :: post).map Task.static
      = (pre.map Task.static ++ [t.static]) ++ post.map Task.static := by simp
  rw [e1, e2]
  exact List.isRotated_append

theorem Effect.same (R : Int) (m : Master) : Effect R m m :=
  Effect.upd (0, MapTask, "") rfl rfl rfl rfl rfl rfl (le_refl _) (List.IsRotated.refl _)
    (List.IsRotated.refl _) (fun y hy => ⟨y, hy, Upd.refl _ _ _ _⟩)
    (fun y hy => ⟨y, hy, Upd.refl _ _ _ _⟩)

theorem WF.of_effect {files : List String} {R : Int} {m m1 : Master} (hw : WF files R m)
    (h : Effect R m m1) : WF files R m1 := by
  cases h with
  | upd s0 hF hMN hRN hMC hRC hP hW hMs hRs hM hRd =>
    exact hw.of_updates s0 hF hMN hRN hMC hRC hP hW hMs hRs hM hRd
  | toReduce hp hfin e => rw [e]; exact hw.toReduce hfin

theorem mem_move {pre post : List Task} {t t1 y : Task} (hy : y ∈ post ++ pre ++ [t1]) :
    y = t1 ∨ y ∈ pre ++ t :: post := by
  simp only [List.mem_append, List.mem_singleton, List.mem_cons] at hy ⊢
  tauto

theorem effect_mapTaskDone {files : List String} {R : Int} {m m1 : Master} (hw : WF files R m)
    {args : MapTaskDoneArgs} {now : Int} {r : Option (List String)}
    (h : MapTaskDone m args now = some (m1, r)) : Effect R m m1 := by
  rcases MapTaskDone_spec hw args now with ⟨ys, r0, hout, heq⟩
  rw [heq] at h
  cases h
  refine Effect.upd (0, MapTask, "") rfl rfl rfl rfl rfl rfl (le_refl _)
    (hout.static_rotated (by simp) (by simp)) (List.IsRotated.refl _) ?_
    (fun y hy => ⟨y, hy, Upd.refl _ _ _ _⟩)
  refine upd_of_scan hout _ _ _ (fun x _ => Upd.removeTimeout _ _ _ _ _) ?_
  intro x _ hp _
  have : (removeTimeoutTask now x).TaskStatus = Running := by
    simp only [decide_eq_true_eq] at hp; exact hp.2
  exact Upd.finish _ _ _ _ _ this

theorem effect_reduceTaskDone {files : List String} {R : Int} {m m1 : Master}
    (hw : WF files R m) {args : ReduceTaskDoneArgs} {r : Option (List String)}
    (h : ReduceTaskDone m args = some (m1, r)) : Effect R m m1 := by
  cases hp : m.DistributePhase with
  | MapPhase =>
    rw [ReduceTaskDone_mapPhase hw hp] at h
    by_cases h0 : R = 0
    · rw [if_pos h0] at h; cases h; exact Effect.same R _
    · rw [if_neg h0] at h; cases h
  | ReducePhase =>
    rcases ReduceTaskDone_spec hw hp args with ⟨ys, r0, hout, heq⟩
    rw [heq] at h
    cases h
    refine Effect.upd (0, MapTask, "") rfl rfl rfl rfl rfl rfl (le_refl _)
      (List.IsRotated.refl _) (hout.static_rotated (by simp) (by simp))
      (fun y hy => ⟨y, hy, Upd.refl _ _ _ _⟩) ?_
    refine upd_of_scan hout _ _ _ (fun x _ => Upd.refl _ _ _ _) ?_
    intro x _ hp _
    have : x.TaskStatus = Running := by
      simp only [decide_eq_true_eq, id] at hp; exact hp.2
    exact Upd.finish_id _ _ _ _ this

theorem static_map_removeTimeout (now : Int) (xs : List Task) :
    (xs.map (removeTimeoutTask now)).map Task.static = xs.map Task.static := by
  simp [List.map_map, Function.comp_def]

theorem upd_map_removeTimeout (w w1 : Int) (s0 : Nat × MR.TaskType × String) (now : Int)
    (xs : List Task) :
    ∀ y ∈ xs.map (removeTimeoutTask now), ∃ x ∈ xs, Upd w w1 s0 x y := by
  intro y hy
  rcases List.mem_map.1 hy with ⟨x, hx, rfl⟩
  exact ⟨x, hx, Upd.removeTimeout _ _ _ _ _⟩

theorem effect_reaper {files : List String} {R : Int} {m m1 : Master} (hw : WF files R m)
    {now : Int} (h : reaperPass m now = some m1) : Effect R m m1 := by
  cases hp : m.DistributePhase with
  | MapPhase =>
    rw [reaperPass_map hw hp] at h
    cases h
    refine Effect.upd (0, MapTask, "") rfl rfl rfl rfl rfl rfl (le_refl _) ?_
      (List.IsRotated.refl _) (upd_map_removeTimeout _ _ _ _ _)
      (fun y hy => ⟨y, hy, Upd.refl _ _ _ _⟩)
    show List.IsRotated ((m.MapChannel.buf.map (removeTimeoutTask now)).map Task.static) _
    rw [static_map_removeTimeout]
  | ReducePhase =>
    rw [reaperPass_reduce hw hp] at h
    cases h
    refine Effect.upd (0, MapTask, "") rfl rfl rfl rfl rfl rfl (le_refl _)
      (List.IsRotated.refl _) ?_ (fun y hy => ⟨y, hy, Upd.refl _ _ _ _⟩)
      (upd_map_removeTimeout _ _ _ _ _)
    show List.IsRotated ((m.ReduceChannel.buf.map (removeTimeoutTask now)).map Task.static) _
    rw [static_map_removeTimeout]

theorem effect_distribute {files : List String} {R : Int} {m m1 : Master} (hw : WF files R m)
    {now : Int} {r : TaskReply} (h : DistributeTask m now = some (m1, r)) : Effect R m m1 := by
  cases hp : m.DistributePhase with
  | MapPhase =>
    rcases DistributeTask_map hw hp now with
      ⟨pre, t, post, e, _, ht, heq⟩ | ⟨hfin, heq⟩ | ⟨pre, t, post, e, _, _, _, heq⟩
    · rw [heq] at h; cases h
      refine Effect.upd t.static rfl rfl rfl rfl rfl rfl
        (by show m.WorkerId ≤ m.WorkerId + 1; omega) ?_ (List.IsRotated.refl _) ?_
        (fun y hy => ⟨y, hy, Upd.refl _ _ _ _⟩)
      · show List.IsRotated ((post ++ pre ++ [leaseMap m.WorkerId now t]).map Task.static) _
        rw [e]; exact static_rotated_move pre post t _ rfl
      · intro y hy
        rcases mem_move (t := t) hy with rfl | hy'
        · have hmem : t ∈ m.MapChannel.buf := by rw [e]; simp
          refine ⟨t, hmem, rfl, fun hf => ?_, Or.inr ⟨?_, rfl, ?_⟩⟩
          · rw [ht] at hf; cases hf
          · rw [holderId_of_map _ (by simpa using hw.mapType hmem)]; rfl
          · show m.WorkerId < m.WorkerId + 1; omega
        · exact ⟨y, by rw [e]; exact hy', Upd.refl _ _ _ _⟩
    · rw [heq] at h; cases h
      exact Effect.toReduce hp hfin rfl
    · rw [heq] at h; cases h
      refine Effect.upd t.static rfl rfl rfl rfl rfl rfl (le_refl _) ?_
        (List.IsRotated.refl _) ?_ (fun y hy => ⟨y, hy, Upd.refl _ _ _ _⟩)
      · show List.IsRotated ((post ++ pre ++ [t]).map Task.static) _
        rw [e]; exact static_rotated_move pre post t _ rfl
      · intro y hy
        rcases mem_move (t := t) hy with rfl | hy'
        · exact ⟨y, by rw [e]; simp, Upd.refl _ _ _ _⟩
        · exact ⟨y, by rw [e]; exact hy', Upd.refl _ _ _ _⟩
  | ReducePhase =>
    rcases DistributeTask_reduce hw hp now with
      ⟨pre, t, post, e, _, ht, heq⟩ | ⟨hfin, heq⟩ | ⟨pre, t, post, e, _, _, _, heq⟩
    · rw [heq] at h; cases h
      refine Effect.upd t.static rfl rfl rfl rfl rfl rfl
        (by show m.WorkerId ≤ m.WorkerId + 1; omega) (List.IsRotated.refl _) ?_
        (fun y hy => ⟨y, hy, Upd.refl _ _ _ _⟩) ?_
      · show List.IsRotated ((post ++ pre ++ [leaseReduce m.WorkerId now t]).map Task.static) _
        rw [e]; exact static_rotated_move pre post t _ rfl
      · intro y hy
        rcases mem_move (t := t) hy with rfl | hy'
        · have hmem : t ∈ m.ReduceChannel.buf := by rw [e]; simp
          refine ⟨t, hmem, rfl, fun hf => ?_, Or.inr ⟨?_, rfl, ?_⟩⟩
          · rw [ht] at hf; cases hf
          · rw [holderId_of_reduce _ (by simpa using hw.redType hmem)]; rfl
          · show m.WorkerId < m.WorkerId + 1; omega
        · exact ⟨y, by rw [e]; exact hy', Upd.refl _ _ _ _⟩
    · rw [heq] at h; cases h
      exact Effect.same R _
    · rw [heq] at h; cases h
      refine Effect.upd t.static rfl rfl rfl rfl rfl rfl (le_refl _)
        (List.IsRotated.refl _) ?_ (fun y hy => ⟨y, hy, Upd.refl _ _ _ _⟩) ?_
      · show List.IsRotated ((post ++ pre ++ [t]).map Task.static) _
        rw [e]; exact static_rotated_move pre post t _ rfl
      · intro y hy
        rcases mem_move (t := t) hy with rfl | hy'
        · exact ⟨y, by rw [e]; simp, Upd.refl _ _ _ _⟩
        · exact ⟨y, by rw [e]; exact hy', Upd.refl _ _ _ _⟩

theorem effect_step {files : List String} {R : Int} {m m1 : Master} (hw : WF files R m)
    {e : Event} {o : Output} (h : step m e = some (m1, o)) : Effect R m m1 := by
  cases e with
  | distribute now =>
    simp only [MR.step, Option.map_eq_some'] at h
    rcases h with ⟨⟨m2, r⟩, h1, h2⟩
    cases h2
    exact effect_distribute hw h1
  | mapDone args now =>
    simp only [MR.step, Option.map_eq_some'] at h
    rcases h with ⟨⟨m2, r⟩, h1, h2⟩
    cases h2
    exact effect_mapTaskDone hw h1
  | reduceDone args =>
    simp only [MR.step, Option.map_eq_some'] at h
    rcases h with ⟨⟨m2, r⟩, h1, h2⟩
    cases h2
    exact effect_reduceTaskDone hw h1
  | reaper now =>
    simp only [MR.step, Option.map_eq_some'] at h
    rcases h with ⟨m2, h1, h2⟩
    cases h2
    exact effect_reaper hw h1

theorem WF.step {files : List String} {R : Int} {m m1 : Master} (hw : WF files R m)
    {e : Event} {o : Output} (h : step m e = some (m1, o)) : WF files R m1 :=
  hw.of_effect (effect_step hw h)

theorem run_cons_some {m m2 : Master} {e : Event} {es : List Event} {os : List Output}
    (h : run m (e :: es) = some (m2, os)) :
    ∃ m1 o os1, step m e = some (m1, o) ∧ run m1 es = some (m2, os1) ∧ os = o :: os1 := by
  unfold run at h
  cases hs : step m e with
  | none => rw [hs] at h; cases h
  | some x =>
    rcases x with ⟨m1, o⟩
    rw [hs] at h
    simp only at h
    cases hr : run m1 es with
    | none => rw [hr] at h; cases h
    | some y =>
      rcases y with ⟨m3, os1⟩
      rw [hr] at h
      cases h
      exact ⟨m1, o, os1, rfl, hr, rfl⟩

theorem WF.run {files : List String} {R : Int} :
    ∀ (es : List Event) {m m1 : Master} {os : List Output}, WF files R m →
      run m es = some (m1, os) → WF files R m1 := by
  intro es
  induction es with
  | nil => intro m m1 os hw h; simp only [MR.run, Option.some.injEq, Prod.mk.injEq] at h; rw [← h.1]; exact hw
  | cons e es ih =>
    intro m m1 os hw h
    rcases run_cons_some h with ⟨m2, o, os1, hs, hr, _⟩
    exact ih (hw.step hs) hr

theorem Reachable.wf {files : List String} {R : Int} {m : Master} (h : Reachable files R m) :
    WF files R m := by
  rcases h with ⟨m0, es, os, h0, hr⟩
  exact WF.run es (WF_init h0) hr

/-! ### Phase monotonicity -/

theorem Effect.phase_mono {R : Int} {m m1 : Master} (h : Effect R m m1)
    (hp : m.DistributePhase = ReducePhase) : m1.DistributePhase = ReducePhase := by
  cases h with
  | upd s0 hF hMN hRN hMC hRC hP hW hMs hRs hM hRd => rw [hP]; exact hp
  | toReduce hp1 hfin e => rw [e]

theorem run_phase_mono {files : List String} {R : Int} :
    ∀ (es : List Event) {m m1 : Master} {os : List Output}, WF files R m →
      run m es = some (m1, os) → m.DistributePhase = ReducePhase →
      m1.DistributePhase = ReducePhase := by
  intro es
  induction es with
  | nil =>
    intro m m1 os _ h hp
    simp only [MR.run, Option.some.injEq, Prod.mk.injEq] at h
    rw [← h.1]; exact hp
  | cons e es ih =>
    intro m m1 os hw h hp
    rcases run_cons_some h with ⟨m2, o, os1, hs, hr, _⟩
    exact ih (hw.step hs) hr ((effect_step hw hs).phase_mono hp)

/-- In a well-formed state a dispatch reply carries a Reduce task only in the
Reduce phase. -/
theorem DistributeTask_reduceTask_phase {files : List String} {R : Int} {m m1 : Master}
    (hw : WF files R m) {now : Int} {r : TaskReply} {t : Task}
    (h : DistributeTask m now = some (m1, r)) (hr : r.Task = some t)
    (ht : t.TaskType = ReduceTask) : m.DistributePhase = ReducePhase := by
  cases hp : m.DistributePhase with
  | ReducePhase => rfl
  | MapPhase =>
    exfalso
    rcases DistributeTask_map hw hp now with
      ⟨pre, t0, post, e, _, _, heq⟩ | ⟨_, heq⟩ | ⟨pre, t0, post, e, _, _, _, heq⟩
    · rw [heq] at h; cases h
      simp only [Option.some.injEq] at hr
      have hmem : t0 ∈ m.MapChannel.buf := by rw [e]; simp
      have := hw.mapType hmem
      rw [← hr, leaseMap_TaskType, this] at ht
      cases ht
    · rw [heq] at h; cases h; cases hr
    · rw [heq] at h; cases h; cases hr

/-! ### Reachability of concrete states -/

theorem reachable_of_run {files : List String} {R : Int} {m : Master} (es : List Event)
    (h : ((MakeMaster files R).bind (fun m0 => run m0 es)).map Prod.fst = some m) :
    Reachable files R m := by
  cases h0 : MakeMaster files R with
  | none => rw [h0] at h; cases h
  | some m0 =>
    rw [h0] at h
    simp only [Option.some_bind, Option.map_eq_some'] at h
    rcases h with ⟨⟨m1, os⟩, hr, rfl⟩
    exact ⟨m0, es, os, h0, hr⟩

theorem Reachable.extend {files : List String} {R : Int} {m m1 : Master} (h : Reachable files R m)
    {es : List Event} {os : List Output} (hr : run m es = some (m1, os)) :
    Reachable files R m1 := by
  rcases h with ⟨m0, es0, os0, h0, hr0⟩
  refine ⟨m0, es0 ++ es, os0 ++ os, h0, ?_⟩
  clear h0
  induction es0 generalizing m0 os0 with
  | nil =>
    simp only [MR.run, Option.some.injEq, Prod.mk.injEq] at hr0
    rw [hr0.1, ← hr0.2]; simpa using hr
  | cons e es0 ih =>
    rcases run_cons_some hr0 with ⟨m2, o, os1, hs, hr1, rfl⟩
    have := ih m2 os1 hr1
    rw [List.cons_append, List.cons_append]
    unfold MR.run
    rw [hs]
    simp only
    rw [this]

/-! ### A Finished task is never touched again -/

theorem rotateScan_keeps (f : Task → Task) (p : Task → Bool) (g : Task → Task)
    (hf : ∀ t, t.TaskStatus = Finished → f t = t)
    (hp : ∀ t, t.TaskStatus = Finished → p t = false) :
    ∀ (n : Nat) (ch ch1 : Chan) (r : Option Task), rotateScan f p g n ch = some (ch1, r) →
      ∀ t ∈ ch.buf, t.TaskStatus = Finished → t ∈ ch1.buf := by
  intro n
  induction n with
  | zero =>
    intro ch ch1 r h t ht _
    simp only [rotateScan, Option.some.injEq, Prod.mk.injEq] at h
    rw [← h.1]; exact ht
  | succ n ih =>
    intro ch ch1 r h t ht hfin
    rcases ch with ⟨buf, cap⟩
    cases buf with
    | nil => rw [rotateScan_nil] at h; cases h
    | cons x xs =>
      rw [rotateScan_cons] at h
      by_cases hlt : xs.length < cap
      · rw [if_pos hlt] at h
        by_cases hpx : p (f x) = true
        · rw [if_pos hpx] at h
          simp only [Option.some.injEq, Prod.mk.injEq] at h
          rw [← h.1]
          rcases List.mem_cons.1 ht with rfl | hmem
          · rw [hf t hfin, hp t hfin] at hpx; cases hpx
          · exact List.mem_append_left _ hmem
        · rw [if_neg hpx] at h
          refine ih _ _ _ h t ?_ hfin
          rcases List.mem_cons.1 ht with rfl | hmem
          · rw [hf t hfin]; simp
          · exact List.mem_append_left _ hmem
      · rw [if_neg hlt] at h; cases h

theorem generateReduceTasksLoop_keeps :
    ∀ (k i : Nat) (ch ch1 : Chan), generateReduceTasksLoop k i ch = some ch1 →
      ∀ t ∈ ch.buf, t ∈ ch1.buf := by
  intro k
  induction k with
  | zero =>
    intro i ch ch1 h t ht
    simp only [generateReduceTasksLoop, Option.some.injEq] at h
    rw [← h]; exact ht
  | succ k ih =>
    intro i ch ch1 h t ht
    unfold generateReduceTasksLoop at h
    cases hs : ch.send (newReduceTask i) with
    | none => rw [hs] at h; cases h
    | some ch2 =>
      rw [hs] at h
      refine ih _ _ _ h t ?_
      unfold Chan.send at hs
      split at hs
      · simp only [Option.some.injEq] at hs
        rw [← hs]; exact List.mem_append_left _ ht
      · cases hs

theorem removeTimeoutTask_finished (now : Int) (t : Task) (h : t.TaskStatus = Finished) :
    removeTimeoutTask now t = t :=
  removeTimeoutTask_of_not_running now t (by rw [h]; decide)

theorem judgeAllMapDone_some {m m1 : Master} {b : Bool} (h : judgeAllMapDone m = some (m1, b)) :
    ∃ ch r, rotateScan id (fun t => decide (t.TaskStatus ≠ Finished)) id
        m.MapNum.toNat m.MapChannel = some (ch, r) ∧ m1 = { m with MapChannel := ch } := by
  unfold judgeAllMapDone at h
  cases hs : rotateScan id (fun t => decide (t.TaskStatus ≠ Finished)) id
      m.MapNum.toNat m.MapChannel with
  | none => rw [hs] at h; cases h
  | some x =>
    rcases x with ⟨ch, r⟩
    rw [hs] at h
    refine ⟨ch, r, rfl, ?_⟩
    cases r <;> (simp only [Option.some.injEq, Prod.mk.injEq] at h; exact h.1.symm)

theorem judgeAllReduceDone_some {m m1 : Master} {b : Bool}
    (h : judgeAllReduceDone m = some (m1, b)) :
    ∃ ch r, rotateScan id (fun t => decide (t.TaskStatus ≠ Finished)) id
        m.ReduceNum.toNat m.ReduceChannel = some (ch, r) ∧
      m1 = { m with ReduceChannel := ch } := by
  unfold judgeAllReduceDone at h
  cases hs : rotateScan id (fun t => decide (t.TaskStatus ≠ Finished)) id
      m.ReduceNum.toNat m.ReduceChannel with
  | none => rw [hs] at h; cases h
  | some x =>
    rcases x with ⟨ch, r⟩
    rw [hs] at h
    refine ⟨ch, r, rfl, ?_⟩
    cases r <;> (simp only [Option.some.injEq, Prod.mk.injEq] at h; exact h.1.symm)

theorem keeps_ready (t : Task) (h : t.TaskStatus = Finished) :
    decide (t.TaskStatus = Ready) = false := by
  rw [h]; rfl

theorem keeps_unfinished (t : Task) (h : t.TaskStatus = Finished) :
    decide (t.TaskStatus ≠ Finished) = false := by
  rw [h]; rfl

theorem DistributeTask_keeps {m m1 : Master} {now : Int} {r : TaskReply}
    (h : DistributeTask m now = some (m1, r)) :
    (∀ t ∈ m.MapChannel.buf, t.TaskStatus = Finished → t ∈ m1.MapChannel.buf) ∧
    (∀ t ∈ m.ReduceChannel.buf, t.TaskStatus = Finished → t ∈ m1.ReduceChannel.buf) := by
  unfold DistributeTask at h
  by_cases hp : m.DistributePhase = MapPhase
  · rw [if_pos hp] at h
    cases hs : rotateScan id (fun t => decide (t.TaskStatus = Ready)) (leaseMap m.WorkerId now)
        m.MapNum.toNat m.MapChannel with
    | none => rw [hs] at h; cases h
    | some x =>
      rcases x with ⟨ch, rt⟩
      rw [hs] at h
      have k1 := rotateScan_keeps _ _ _ (fun _ _ => rfl) keeps_ready _ _ _ _ hs
      cases rt with
      | some task =>
        simp only [Option.some.injEq, Prod.mk.injEq] at h
        rw [← h.1]
        exact ⟨k1, fun t ht _ => ht⟩
      | none =>
        simp only at h
        cases hj : judgeAllMapDone { m with MapChannel := ch } with
        | none => rw [hj] at h; cases h
        | some y =>
          rcases y with ⟨m2, b⟩
          rw [hj] at h
          rcases judgeAllMapDone_some hj with ⟨ch2, r2, hs2, e2⟩
          have k2 := rotateScan_keeps _ _ _ (fun _ _ => rfl) keeps_unfinished _ _ _ _ hs2
          cases b with
          | false =>
            simp only [Option.some.injEq, Prod.mk.injEq] at h
            rw [← h.1, e2]
            exact ⟨fun t ht hf => k2 t (k1 t ht hf) hf, fun t ht _ => ht⟩
          | true =>
            simp only at h
            cases hg : generateReduceTasks m2 with
            | none => rw [hg] at h; cases h
            | some m3 =>
              rw [hg] at h
              simp only [Option.some.injEq, Prod.mk.injEq] at h
              unfold generateReduceTasks at hg
              cases hl : generateReduceTasksLoop m2.ReduceNum.toNat 0 m2.ReduceChannel with
              | none => rw [hl] at hg; cases hg
              | some ch3 =>
                rw [hl] at hg
                simp only [Option.some.injEq] at hg
                have k3 := generateReduceTasksLoop_keeps _ _ _ _ hl
                rw [← h.1, ← hg, e2]
                refine ⟨fun t ht hf => k2 t (k1 t ht hf) hf, fun t ht _ => ?_⟩
                rw [e2] at k3
                exact k3 t ht
  · rw [if_neg hp] at h
    cases hs : rotateScan id (fun t => decide (t.TaskStatus = Ready))
        (leaseReduce m.WorkerId now) m.ReduceNum.toNat m.ReduceChannel with
    | none => rw [hs] at h; cases h
    | some x =>
      rcases x with ⟨ch, rt⟩
      rw [hs] at h
      have k1 := rotateScan_keeps _ _ _ (fun _ _ => rfl) keeps_ready _ _ _ _ hs
      cases rt with
      | some task =>
        simp only [Option.some.injEq, Prod.mk.injEq] at h
        rw [← h.1]
        exact ⟨fun t ht _ => ht, k1⟩
      | none =>
        simp only at h
        cases hj : judgeAllReduceDone { m with ReduceChannel := ch } with
        | none => rw [hj] at h; cases h
        | some y =>
          rcases y with ⟨m2, b⟩
          rw [hj] at h
          rcases judgeAllReduceDone_some hj with ⟨ch2, r2, hs2, e2⟩
          have k2 := rotateScan_keeps _ _ _ (fun _ _ => rfl) keeps_unfinished _ _ _ _ hs2
          cases b <;>
          · simp only [Option.some.injEq, Prod.mk.injEq] at h
            rw [← h.1, e2]
            exact ⟨fun t ht _ => ht, fun t ht hf => k2 t (k1 t ht hf) hf⟩

theorem MapTaskDone_keeps {m m1 : Master} {args : MapTaskDoneArgs} {now : Int}
    {r : Option (List String)} (h : MapTaskDone m args now = some (m1, r)) :
    (∀ t ∈ m.MapChannel.buf, t.TaskStatus = Finished → t ∈ m1.MapChannel.buf) ∧
    (∀ t ∈ m.ReduceChannel.buf, t.TaskStatus = Finished → t ∈ m1.ReduceChannel.buf) := by
  unfold MapTaskDone at h
  cases hs : rotateScan (removeTimeoutTask now)
      (fun t => decide (t.MapWorkerId = args.MapWorkerId ∧ t.TaskStatus = Running)) finishTask
      m.MapNum.toNat m.MapChannel with
  | none => rw [hs] at h; cases h
  | some x =>
    rcases x with ⟨ch, rt⟩
    rw [hs] at h
    have k1 := rotateScan_keeps _ _ _ (removeTimeoutTask_finished now)
      (fun t ht => by rw [ht]; simp) _ _ _ _ hs
    cases rt <;>
    · simp only [Option.some.injEq, Prod.mk.injEq] at h
      rw [← h.1]
      exact ⟨k1, fun t ht _ => ht⟩

theorem ReduceTaskDone_keeps {m m1 : Master} {args : ReduceTaskDoneArgs}
    {r : Option (List String)} (h : ReduceTaskDone m args = some (m1, r)) :
    (∀ t ∈ m.MapChannel.buf, t.TaskStatus = Finished → t ∈ m1.MapChannel.buf) ∧
    (∀ t ∈ m.ReduceChannel.buf, t.TaskStatus = Finished → t ∈ m1.ReduceChannel.buf) := by
  unfold ReduceTaskDone at h
  cases hs : rotateScan id
      (fun t => decide (t.ReduceWorkerId = args.ReduceWorkerId ∧ t.TaskStatus = Running))
      finishTask m.ReduceNum.toNat m.ReduceChannel with
  | none => rw [hs] at h; cases h
  | some x =>
    rcases x with ⟨ch, rt⟩
    rw [hs] at h
    have k1 := rotateScan_keeps _ _ _ (fun _ _ => rfl)
      (fun t ht => by rw [ht]; simp) _ _ _ _ hs
    cases rt <;>
    · simp only [Option.some.injEq, Prod.mk.injEq] at h
      rw [← h.1]
      exact ⟨fun t ht _ => ht, k1⟩

theorem reaperPass_keeps {m m1 : Master} {now : Int} (h : reaperPass m now = some m1) :
    (∀ t ∈ m.MapChannel.buf, t.TaskStatus = Finished → t ∈ m1.MapChannel.buf) ∧
    (∀ t ∈ m.ReduceChannel.buf, t.TaskStatus = Finished → t ∈ m1.ReduceChannel.buf) := by
  unfold reaperPass at h
  by_cases hp : m.DistributePhase = MapPhase
  · rw [if_pos hp] at h
    cases hs : rotateScan (removeTimeoutTask now) (fun _ => false) id
        m.MapNum.toNat m.MapChannel with
    | none => rw [hs] at h; cases h
    | some x =>
      rcases x with ⟨ch, rt⟩
      rw [hs] at h
      have k1 := rotateScan_keeps _ _ _ (removeTimeoutTask_finished now)
        (fun _ _ => rfl) _ _ _ _ hs
      simp only [Option.some.injEq] at h
      rw [← h]
      exact ⟨k1, fun t ht _ => ht⟩
  · rw [if_neg hp] at h
    cases hs : rotateScan (removeTimeoutTask now) (fun _ => false) id
        m.ReduceNum.toNat m.ReduceChannel with
    | none => rw [hs] at h; cases h
    | some x =>
      rcases x with ⟨ch, rt⟩
      rw [hs] at h
      have k1 := rotateScan_keeps _ _ _ (removeTimeoutTask_finished now)
        (fun _ _ => rfl) _ _ _ _ hs
      simp only [Option.some.injEq] at h
      rw [← h]
      exact ⟨fun t ht _ => ht, k1⟩

/-! ### Issued holder ids -/

theorem DistributeTask_issue {files : List String} {R : Int} {m m1 : Master} (hw : WF files R m)
    {now : Int} {r : TaskReply} (h : DistributeTask m now = some (m1, r)) :
    (r.Task = none ∧ m1.WorkerId = m.WorkerId) ∨
      (∃ t, r.Task = some t ∧ t.holderId = m.WorkerId ∧ m1.WorkerId = m.WorkerId + 1) := by
  cases hp : m.DistributePhase with
  | MapPhase =>
    rcases DistributeTask_map hw hp now with
      ⟨pre, t, post, e, _, _, heq⟩ | ⟨_, heq⟩ | ⟨pre, t, post, e, _, _, _, heq⟩
    · rw [heq] at h; cases h
      right
      have hmem : t ∈ m.MapChannel.buf := by rw [e]; simp
      refine ⟨_, rfl, ?_, rfl⟩
      rw [holderId_of_map _ (by simpa using hw.mapType hmem)]; rfl
    · rw [heq] at h; cases h; exact Or.inl ⟨rfl, rfl⟩
    · rw [heq] at h; cases h; exact Or.inl ⟨rfl, rfl⟩
  | ReducePhase =>
    rcases DistributeTask_reduce hw hp now with
      ⟨pre, t, post, e, _, _, heq⟩ | ⟨_, heq⟩ | ⟨pre, t, post, e, _, _, _, heq⟩
    · rw [heq] at h; cases h
      right
      have hmem : t ∈ m.ReduceChannel.buf := by rw [e]; simp
      refine ⟨_, rfl, ?_, rfl⟩
      rw [holderId_of_reduce _ (by simpa using hw.redType hmem)]; rfl
    · rw [heq] at h; cases h; exact Or.inl ⟨rfl, rfl⟩
    · rw [heq] at h; cases h; exact Or.inl ⟨rfl, rfl⟩

theorem MapTaskDone_WorkerId {files : List String} {R : Int} {m m1 : Master} (hw : WF files R m)
    {args : MapTaskDoneArgs} {now : Int} {r : Option (List String)}
    (h : MapTaskDone m args now = some (m1, r)) : m1.WorkerId = m.WorkerId := by
  rcases MapTaskDone_spec hw args now with ⟨ys, r0, _, heq⟩
  rw [heq] at h; cases h; rfl

theorem ReduceTaskDone_WorkerId {files : List String} {R : Int} {m m1 : Master}
    (hw : WF files R m) {args : ReduceTaskDoneArgs} {r : Option (List String)}
    (h : ReduceTaskDone m args = some (m1, r)) : m1.WorkerId = m.WorkerId := by
  cases hp : m.DistributePhase with
  | MapPhase =>
    rw [ReduceTaskDone_mapPhase hw hp] at h
    by_cases h0 : R = 0
    · rw [if_pos h0] at h; cases h; rfl
    · rw [if_neg h0] at h; cases h
  | ReducePhase =>
    rcases ReduceTaskDone_spec hw hp args with ⟨ys, r0, _, heq⟩
    rw [heq] at h; cases h; rfl

theorem reaperPass_WorkerId {files : List String} {R : Int} {m m1 : Master} (hw : WF files R m)
    {now : Int} (h : reaperPass m now = some m1) : m1.WorkerId = m.WorkerId := by
  cases hp : m.DistributePhase with
  | MapPhase => rw [reaperPass_map hw hp] at h; cases h; rfl
  | ReducePhase => rw [reaperPass_reduce hw hp] at h; cases h; rfl

theorem step_issue {files : List String} {R : Int} {m m1 : Master} (hw : WF files R m)
    {e : Event} {o : Output} (h : step m e = some (m1, o)) :
    (o.task = none ∧ m1.WorkerId = m.WorkerId) ∨
      (∃ t, o.task = some t ∧ t.holderId = m.WorkerId ∧ m1.WorkerId = m.WorkerId + 1) := by
  cases e with
  | distribute now =>
    simp only [MR.step, Option.map_eq_some'] at h
    rcases h with ⟨⟨m2, r⟩, h1, h2⟩
    cases h2
    exact DistributeTask_issue hw h1
  | mapDone args now =>
    simp only [MR.step, Option.map_eq_some'] at h
    rcases h with ⟨⟨m2, r⟩, h1, h2⟩
    cases h2
    exact Or.inl ⟨rfl, MapTaskDone_WorkerId hw h1⟩
  | reduceDone args =>
    simp only [MR.step, Option.map_eq_some'] at h
    rcases h with ⟨⟨m2, r⟩, h1, h2⟩
    cases h2
    exact Or.inl ⟨rfl, ReduceTaskDone_WorkerId hw h1⟩
  | reaper now =>
    simp only [MR.step, Option.map_eq_some'] at h
    rcases h with ⟨m2, h1, h2⟩
    cases h2
    exact Or.inl ⟨rfl, reaperPass_WorkerId hw h1⟩

theorem issuedIds_cons_none {o : Output} {os : List Output} (h : o.task = none) :
    issuedIds (o :: os) = issuedIds os := by
  unfold issuedIds
  simp [List.filterMap_cons, h]

theorem issuedIds_cons_some {o : Output} {os : List Output} {t : Task} (h : o.task = some t) :
    issuedIds (o :: os) = t.holderId :: issuedIds os := by
  unfold issuedIds
  simp [List.filterMap_cons, h]

theorem run_issued {files : List String} {R : Int} :
    ∀ (es : List Event) {m m1 : Master} {os : List Output}, WF files R m →
      run m es = some (m1, os) →
      m.WorkerId ≤ m1.WorkerId ∧ (issuedIds os).Pairwise (fun a b => a < b) ∧
        ∀ h ∈ issuedIds os, m.WorkerId ≤ h ∧ h < m1.WorkerId := by
  intro es
  induction es with
  | nil =>
    intro m m1 os _ h
    simp only [MR.run, Option.some.injEq, Prod.mk.injEq] at h
    rw [← h.1, ← h.2]
    exact ⟨le_refl _, by simp [issuedIds], by simp [issuedIds]⟩
  | cons e es ih =>
    intro m m1 os hw h
    rcases run_cons_some h with ⟨m2, o, os1, hs, hr, rfl⟩
    rcases ih (hw.step hs) hr with ⟨hle, hpw, hall⟩
    rcases step_issue hw hs with ⟨hn, hW⟩ | ⟨t, ht, hid, hW⟩
    · rw [issuedIds_cons_none hn]
      rw [hW] at hle hall
      exact ⟨hle, hpw, hall⟩
    · rw [issuedIds_cons_some ht]
      rw [hW] at hle hall
      refine ⟨by omega, List.pairwise_cons.2 ⟨?_, hpw⟩, ?_⟩
      · intro b hb
        have := (hall b hb).1
        omega
      · intro h hh
        rcases List.mem_cons.1 hh with rfl | hh
        · omega
        · have := hall h hh
          omega

/-! ### Running tasks have distinct holders -/

theorem WF.running_pairwise {files : List String} {R : Int} {m : Master} (hw : WF files R m) :
    m.tasks.Pairwise (fun a b =>
      a.TaskStatus = Running → b.TaskStatus = Running → a.holderId ≠ b.holderId) := by
  have hnd : m.tasks.Pairwise (fun a b => a.static ≠ b.static) :=
    (List.pairwise_map (f := Task.static) (R := fun x y => x ≠ y)).1 hw.nodup_static
  refine List.Pairwise.imp_of_mem ?_ hnd
  intro a b ha hb hne hra _ hab
  have h1 : 1 ≤ a.holderId := (hw.hIds a ha).2.2 (by rw [hra]; decide)
  exact hne (hw.hUniq a ha b hb hab h1)

/-- In a well-formed state two queued tasks with the same static part are the
same task. -/
theorem WF.eq_of_static {files : List String} {R : Int} {m : Master} (hw : WF files R m)
    {a b : Task} (ha : a ∈ m.tasks) (hb : b ∈ m.tasks) (h : a.static = b.static) : a = b :=
  List.inj_on_of_nodup_map hw.nodup_static ha hb h

/-! ### Commit validation -/

/-- A Running task of a well-formed state is a task of the current phase. -/
theorem WF.running_mem {files : List String} {R : Int} {m : Master} (hw : WF files R m)
    {t : Task} (ht : t ∈ m.tasks) (hr : t.TaskStatus = Running) : t ∈ m.phaseTasks := by
  unfold Master.tasks at ht
  unfold Master.phaseTasks
  cases hp : m.DistributePhase with
  | MapPhase =>
    rw [hw.hRedEmpty hp, List.append_nil] at ht
    exact ht
  | ReducePhase =>
    rcases List.mem_append.1 ht with h | h
    · have := hw.hGate hp t h
      rw [hr] at this; cases this
    · exact h

theorem Retired.preserved {R : Int} {m m1 : Master} {h : Int} (he : Effect R m m1)
    (hq : Retired h m) : Retired h m1 := by
  cases he with
  | upd s0 hF hMN hRN hMC hRC hP hW hMs hRs hM hRd =>
    refine ⟨lt_of_lt_of_le hq.1 hW, ?_⟩
    intro y hy hyh hyr
    have hx : ∃ x ∈ m.tasks, Upd m.WorkerId m1.WorkerId s0 x y := by
      unfold Master.tasks at hy ⊢
      rcases List.mem_append.1 hy with h1 | h1
      · rcases hM y h1 with ⟨x, hx, hu⟩; exact ⟨x, List.mem_append_left _ hx, hu⟩
      · rcases hRd y h1 with ⟨x, hx, hu⟩; exact ⟨x, List.mem_append_right _ hx, hu⟩
    rcases hx with ⟨x, hx, _, hfin, hu⟩
    rcases hu with ⟨e, hr⟩ | ⟨e, _, _⟩
    · have hxr := hq.2 x hx (by rw [← e]; exact hyh)
      have hxn : x.TaskStatus ≠ Ready := hr (by rw [hyr]; decide)
      have hxf : x.TaskStatus = Finished := by
        cases hst : x.TaskStatus with
        | Ready => exact absurd hst hxn
        | Running => exact absurd hst hxr
        | Finished => rfl
      have := hfin hxf
      rw [hyr] at this; cases this
    · have := hq.1
      omega
  | toReduce hp hfin e =>
    subst e
    refine ⟨hq.1, ?_⟩
    intro u hu huh
    have hu' : u ∈ m.MapChannel.buf ++ reduceTasksFrom R.toNat 0 := hu
    rcases List.mem_append.1 hu' with h1 | h1
    · exact hq.2 u (List.mem_append_left _ h1) huh
    · rw [(mem_reduceTasksFrom _ _ u h1).2.1]; decide

theorem Retired.preserved_run {files : List String} {R : Int} {h : Int} :
    ∀ (es : List Event) {m m1 : Master} {os : List Output}, WF files R m →
      run m es = some (m1, os) → Retired h m → Retired h m1 := by
  intro es
  induction es with
  | nil =>
    intro m m1 os _ hr hq
    simp only [MR.run, Option.some.injEq, Prod.mk.injEq] at hr
    rw [← hr.1]; exact hq
  | cons e es ih =>
    intro m m1 os hw hr hq
    rcases run_cons_some hr with ⟨m2, o, os1, hs, hr1, _⟩
    exact ih (hw.step hs) hr1 (hq.preserved (effect_step hw hs))

/-- A reaper pass that finds the lease of holder `t.holderId` overdue retires the id. -/
theorem Retired.of_reaper {files : List String} {R : Int} {m m1 : Master} (hw : WF files R m)
    {t : Task} (ht : t ∈ m.tasks) (hr : t.TaskStatus = Running) {now : Int}
    (hover : 10 * Second ≤ now - t.BeginTime) (h : reaperPass m now = some m1) :
    Retired t.holderId m1 := by
  have hid := hw.hIds t ht
  have h1 : 1 ≤ t.holderId := hid.2.2 (by rw [hr]; decide)
  have hexp : (removeTimeoutTask now t).TaskStatus ≠ Running := by
    rw [removeTimeoutTask_of_overdue now t hr hover]
    intro hc; cases hc
  have key : ∀ x ∈ m.tasks, x.holderId = t.holderId →
      (removeTimeoutTask now x).TaskStatus ≠ Running := by
    intro x hx hxh
    have : x = t := hw.eq_of_static hx ht (hw.hUniq x hx t ht hxh (by rw [hxh]; exact h1))
    rw [this]; exact hexp
  have hphase := hw.running_mem ht hr
  cases hp : m.DistributePhase with
  | MapPhase =>
    rw [reaperPass_map hw hp] at h; cases h
    refine ⟨hid.2.1, ?_⟩
    intro u hu huh
    have hu' : u ∈ m.MapChannel.buf.map (removeTimeoutTask now) ++ m.ReduceChannel.buf := hu
    rcases List.mem_append.1 hu' with h2 | h2
    · rcases List.mem_map.1 h2 with ⟨x, hx, rfl⟩
      exact key x (List.mem_append_left _ hx) (by simpa using huh)
    · rw [hw.hRedEmpty hp] at h2; cases h2
  | ReducePhase =>
    rw [reaperPass_reduce hw hp] at h; cases h
    refine ⟨hid.2.1, ?_⟩
    intro u hu huh
    have hu' : u ∈ m.MapChannel.buf ++ m.ReduceChannel.buf.map (removeTimeoutTask now) := hu
    rcases List.mem_append.1 hu' with h2 | h2
    · rw [hw.hGate hp u h2]; decide
    · rcases List.mem_map.1 h2 with ⟨x, hx, rfl⟩
      exact key x (List.mem_append_right _ hx) (by simpa using huh)

theorem finished_of_map_removeTimeout {now : Int} {xs : List Task} {u : Task}
    (hu : u ∈ xs.map (removeTimeoutTask now)) (hf : u.TaskStatus = Finished) : u ∈ xs := by
  rcases List.mem_map.1 hu with ⟨x, hx, rfl⟩
  have := (removeTimeoutTask_finished_iff now x).1 hf
  rw [removeTimeoutTask_finished now x this]; exact hx

/-- A `MapTaskDone` call with a holder id that no Running Map task carries: the call
is rejected and acts on the Map queue as a reaper pass would. -/
theorem MapTaskDone_reject {files : List String} {R : Int} {m : Master} (hw : WF files R m)
    (h : Int) (hno : ∀ u ∈ m.MapChannel.buf, u.MapWorkerId = h → u.TaskStatus ≠ Running)
    (fs : List String) (now : Int) :
    MapTaskDone m ⟨h, fs⟩ now
      = some ({ m with MapChannel :=
                  ⟨m.MapChannel.buf.map (removeTimeoutTask now), m.MapChannel.cap⟩ }, none) := by
  rcases MapTaskDone_spec hw ⟨h, fs⟩ now with ⟨ys, r, hout, heq⟩
  cases hout with
  | none _ => rw [heq]; rfl
  | found pre t post e hpre ht =>
    exfalso
    simp only [decide_eq_true_eq, removeTimeoutTask_MapWorkerId] at ht
    have hmem : t ∈ m.MapChannel.buf := by rw [e]; simp
    exact hno t hmem ht.1 ((removeTimeoutTask_running_iff now t).1 ht.2).1

/-- A `ReduceTaskDone` call with a holder id that no Running Reduce task carries, in
the Reduce phase: the call is rejected and changes nothing. -/
theorem ReduceTaskDone_reject {files : List String} {R : Int} {m : Master} (hw : WF files R m)
    (hp : m.DistributePhase = ReducePhase) (h : Int)
    (hno : ∀ u ∈ m.ReduceChannel.buf, u.ReduceWorkerId = h → u.TaskStatus ≠ Running)
    (fs : List String) : ReduceTaskDone m ⟨h, fs⟩ = some (m, none) := by
  rcases ReduceTaskDone_spec hw hp ⟨h, fs⟩ with ⟨ys, r, hout, heq⟩
  cases hout with
  | none _ => rw [heq]; simp
  | found pre t post e hpre ht =>
    exfalso
    simp only [decide_eq_true_eq, id] at ht
    have hmem : t ∈ m.ReduceChannel.buf := by rw [e]; simp
    exact hno t hmem ht.1 ht.2

theorem Retired.map {files : List String} {R : Int} {m : Master} (hw : WF files R m) {h : Int}
    (hq : Retired h m) : ∀ u ∈ m.MapChannel.buf, u.MapWorkerId = h → u.TaskStatus ≠ Running := by
  intro u hu huh
  refine hq.2 u (List.mem_append_left _ hu) ?_
  rw [holderId_of_map u (hw.mapType hu)]; exact huh

theorem Retired.reduce {files : List String} {R : Int} {m : Master} (hw : WF files R m) {h : Int}
    (hq : Retired h m) :
    ∀ u ∈ m.ReduceChannel.buf, u.ReduceWorkerId = h → u.TaskStatus ≠ Running := by
  intro u hu huh
  refine hq.2 u (List.mem_append_right _ hu) ?_
  rw [holderId_of_reduce u (hw.redType hu)]; exact huh

/-- A `MapTaskDone` call by the holder of a Running Map task whose lease is live. -/
theorem MapTaskDone_accept {files : List String} {R : Int} {m : Master} (hw : WF files R m)
    {u : Task} (hu : u ∈ m.MapChannel.buf) (hr : u.TaskStatus = Running) (fs : List String)
    {now : Int} (hlive : now - u.BeginTime < 10 * Second) :
    ∃ m1, MapTaskDone m ⟨u.MapWorkerId, fs⟩ now = some (m1, some fs) ∧
      finishTask u ∈ m1.MapChannel.buf := by
  rcases MapTaskDone_spec hw ⟨u.MapWorkerId, fs⟩ now with ⟨ys, r, hout, heq⟩
  have hrt : removeTimeoutTask now u = u := removeTimeoutTask_of_live now u hlive
  cases hout with
  | none hno =>
    exfalso
    have := hno u hu
    rw [hrt] at this
    simp [hr] at this
  | found pre t post e hpre ht =>
    refine ⟨_, heq, ?_⟩
    simp only [decide_eq_true_eq, removeTimeoutTask_MapWorkerId] at ht
    have hmem : t ∈ m.MapChannel.buf := by rw [e]; simp
    have htr := (removeTimeoutTask_running_iff now t).1 ht.2
    have hid : t.holderId = u.holderId := by
      rw [holderId_of_map t (hw.mapType hmem), holderId_of_map u (hw.mapType hu)]; exact ht.1
    have h1 : 1 ≤ t.holderId :=
      (hw.hIds t (List.mem_append_left _ hmem)).2.2 (by rw [htr.1]; decide)
    have : t = u := hw.eq_of_static (List.mem_append_left _ hmem) (List.mem_append_left _ hu)
      (hw.hUniq t (List.mem_append_left _ hmem) u (List.mem_append_left _ hu) hid h1)
    subst this
    show finishTask t ∈ post ++ pre.map (removeTimeoutTask now) ++ [finishTask (removeTimeoutTask now t)]
    rw [hrt]; simp

/-- A `ReduceTaskDone` call by the holder of a Running Reduce task. -/
theorem ReduceTaskDone_accept {files : List String} {R : Int} {m : Master} (hw : WF files R m)
    {u : Task} (hu : u ∈ m.ReduceChannel.buf) (hr : u.TaskStatus = Running) (fs : List String) :
    ∃ m1, ReduceTaskDone m ⟨u.ReduceWorkerId, fs⟩ = some (m1, some fs) ∧
      finishTask u ∈ m1.ReduceChannel.buf := by
  have hp : m.DistributePhase = ReducePhase := by
    cases hp : m.DistributePhase with
    | MapPhase => rw [hw.hRedEmpty hp] at hu; cases hu
    | ReducePhase => rfl
  rcases ReduceTaskDone_spec hw hp ⟨u.ReduceWorkerId, fs⟩ with ⟨ys, r, hout, heq⟩
  cases hout with
  | none hno =>
    exfalso
    have := hno u hu
    simp [hr] at this
  | found pre t post e hpre ht =>
    refine ⟨_, heq, ?_⟩
    simp only [decide_eq_true_eq, id] at ht
    have hmem : t ∈ m.ReduceChannel.buf := by rw [e]; simp
    have hid : t.holderId = u.holderId := by
      rw [holderId_of_reduce t (hw.redType hmem), holderId_of_reduce u (hw.redType hu)]
      exact ht.1
    have h1 : 1 ≤ t.holderId :=
      (hw.hIds t (List.mem_append_right _ hmem)).2.2 (by rw [ht.2]; decide)
    have : t = u := hw.eq_of_static (List.mem_append_right _ hmem) (List.mem_append_right _ hu)
      (hw.hUniq t (List.mem_append_right _ hmem) u (List.mem_append_right _ hu) hid h1)
    subst this
    show finishTask t ∈ post ++ pre.map id ++ [finishTask (id t)]
    simp

/-- Commit validation of `MapTaskDone` in a well-formed state: the call
returns, and the commit is accepted exactly when some Map task carries the
holder id, is Running, and has a lease younger than 10 s at the clock value of
the call. -/
theorem MapTaskDone_commit_iff {files : List String} {R : Int} {m : Master}
    (hw : WF files R m) (h : Int) (fs : List String) (now : Int) :
    ∃ m1 r, MapTaskDone m ⟨h, fs⟩ now = some (m1, r) ∧ (r = none ∨ r = some fs) ∧
      (r = some fs ↔ ∃ t ∈ m.MapChannel.buf,
        t.MapWorkerId = h ∧ t.TaskStatus = Running ∧ now - t.BeginTime < 10 * Second) := by
  by_cases hex : ∃ t ∈ m.MapChannel.buf,
      t.MapWorkerId = h ∧ t.TaskStatus = Running ∧ now - t.BeginTime < 10 * Second
  · rcases hex with ⟨t, ht, hth, hr, hl⟩
    rcases MapTaskDone_accept hw ht hr fs hl with ⟨m1, hm, _⟩
    rw [hth] at hm
    exact ⟨m1, some fs, hm, Or.inr rfl, ⟨fun _ => ⟨t, ht, hth, hr, hl⟩, fun _ => rfl⟩⟩
  · rcases MapTaskDone_spec hw ⟨h, fs⟩ now with ⟨ys, r, hout, heq⟩
    cases hout with
    | none _ =>
      exact ⟨_, none, heq, Or.inl rfl, ⟨fun hc => (by cases hc), fun hc => absurd hc hex⟩⟩
    | found pre t post e hpre ht =>
      exfalso
      simp only [decide_eq_true_eq, removeTimeoutTask_MapWorkerId] at ht
      have htr := (removeTimeoutTask_running_iff now t).1 ht.2
      exact hex ⟨t, by rw [e]; simp, ht.1, htr.1, htr.2⟩

/-- Commit validation of `ReduceTaskDone` in a well-formed state of the Reduce
phase: the call returns, and the commit is accepted exactly when some Reduce
task carries the holder id and is Running; the age of the lease plays no part. -/
theorem ReduceTaskDone_commit_iff {files : List String} {R : Int} {m : Master}
    (hw : WF files R m) (hp : m.DistributePhase = ReducePhase) (h : Int) (fs : List String) :
    ∃ m1 r, ReduceTaskDone m ⟨h, fs⟩ = some (m1, r) ∧ (r = none ∨ r = some fs) ∧
      (r = some fs ↔ ∃ t ∈ m.ReduceChannel.buf,
        t.ReduceWorkerId = h ∧ t.TaskStatus = Running) := by
  by_cases hex : ∃ t ∈ m.ReduceChannel.buf, t.ReduceWorkerId = h ∧ t.TaskStatus = Running
  · rcases hex with ⟨t, ht, hth, hr⟩
    rcases ReduceTaskDone_accept hw ht hr fs with ⟨m1, hm, _⟩
    rw [hth] at hm
    exact ⟨m1, some fs, hm, Or.inr rfl, ⟨fun _ => ⟨t, ht, hth, hr⟩, fun _ => rfl⟩⟩
  · have hno : ∀ u ∈ m.ReduceChannel.buf, u.ReduceWorkerId = h → u.TaskStatus ≠ Running :=
      fun u hu huh hur => hex ⟨u, hu, huh, hur⟩
    exact ⟨m, none, ReduceTaskDone_reject hw hp h hno fs, Or.inl rfl,
      ⟨fun hc => (by cases hc), fun hc => absurd hc hex⟩⟩

/-! ## The claims -/

/-- C1 (phase gate).  In every state reachable from `MakeMaster` by
`DistributeTask`, `MapTaskDone`, `ReduceTaskDone` calls and reaper passes, the
Map queue holds all `|files|` Map tasks and `DistributePhase = ReducePhase`
implies that each of them is Finished; hence a `DistributeTask` reply that
carries a Reduce task is only given when every Map task is Finished; and along
any further run the phase, once Reduce, stays Reduce. -/
theorem C1_phase_gate (files : List String) (R : Int) (m : Master) (h : Reachable files R m) :
    m.MapChannel.buf.length = files.length ∧
    (m.DistributePhase = ReducePhase → ∀ t ∈ m.MapChannel.buf, t.TaskStatus = Finished) ∧
    (∀ (now : Int) (m1 : Master) (r : TaskReply) (t : Task),
      DistributeTask m now = some (m1, r) → r.Task = some t → t.TaskType = ReduceTask →
        ∀ u ∈ m.MapChannel.buf, u.TaskStatus = Finished) ∧
    (∀ (es : List Event) (m1 : Master) (os : List Output),
      run m es = some (m1, os) → m.DistributePhase = ReducePhase →
        m1.DistributePhase = ReducePhase) := by
  have hw := h.wf
  refine ⟨hw.mapLen, hw.hGate, ?_, ?_⟩
  · intro now m1 r t hd hr ht
    exact hw.hGate (DistributeTask_reduceTask_phase hw hd hr ht)
  · intro es m1 os hr hp
    exact run_phase_mono es hw hr hp

/-- Witness for C1: the state `demoReduce`, reached after the only Map task was
committed, is in the Reduce phase. -/
theorem C1_phase_gate_witness :
    Reachable ["a"] 1 demoReduce ∧
    demoReduce.MapChannel.buf.length = ["a"].length ∧
    (demoReduce.DistributePhase = ReducePhase →
      ∀ t ∈ demoReduce.MapChannel.buf, t.TaskStatus = Finished) ∧
    (∀ (now : Int) (m1 : Master) (r : TaskReply) (t : Task),
      DistributeTask demoReduce now = some (m1, r) → r.Task = some t →
        t.TaskType = ReduceTask → ∀ u ∈ demoReduce.MapChannel.buf, u.TaskStatus = Finished) ∧
    (∀ (es : List Event) (m1 : Master) (os : List Output),
      run demoReduce es = some (m1, os) → demoReduce.DistributePhase = ReducePhase →
        m1.DistributePhase = ReducePhase) :=
  ⟨reachable_of_run (demoEvents.take 3) (by decide),
   C1_phase_gate ["a"] 1 demoReduce (reachable_of_run (demoEvents.take 3) (by decide))⟩

/-- C2 (a Finished task stays Finished).  For every state, every single step
(`DistributeTask`, `MapTaskDone`, `ReduceTaskDone`, one reaper pass, at any
clock value) that returns, and every task that is Finished before the step:
the task is in the same queue after the step, untouched (same status Finished,
same holder id, same begin time). -/
theorem C2_finished_stays (m : Master) (e : Event) (m1 : Master) (o : Output)
    (h : step m e = some (m1, o)) :
    (∀ t ∈ m.MapChannel.buf, t.TaskStatus = Finished → t ∈ m1.MapChannel.buf) ∧
    (∀ t ∈ m.ReduceChannel.buf, t.TaskStatus = Finished → t ∈ m1.ReduceChannel.buf) := by
  cases e with
  | distribute now =>
    simp only [MR.step, Option.map_eq_some'] at h
    rcases h with ⟨⟨m2, r⟩, h1, h2⟩
    cases h2
    exact DistributeTask_keeps h1
  | mapDone args now =>
    simp only [MR.step, Option.map_eq_some'] at h
    rcases h with ⟨⟨m2, r⟩, h1, h2⟩
    cases h2
    exact MapTaskDone_keeps h1
  | reduceDone args =>
    simp only [MR.step, Option.map_eq_some'] at h
    rcases h with ⟨⟨m2, r⟩, h1, h2⟩
    cases h2
    exact ReduceTaskDone_keeps h1
  | reaper now =>
    simp only [MR.step, Option.map_eq_some'] at h
    rcases h with ⟨m2, h1, h2⟩
    cases h2
    exact reaperPass_keeps h1

/-- Witness for C2: the dispatch of the Reduce task from `demoReduce`, whose Map
task is Finished. -/
theorem C2_finished_stays_witness :
    step demoReduce (Event.distribute 3)
      = some (demoReduceLeased,
          Output.reply ⟨some (leaseReduce 2 3 (newReduceTask 0)), 0, false⟩) ∧
    (∀ t ∈ demoReduce.MapChannel.buf, t.TaskStatus = Finished →
      t ∈ demoReduceLeased.MapChannel.buf) ∧
    (∀ t ∈ demoReduce.ReduceChannel.buf, t.TaskStatus = Finished →
      t ∈ demoReduceLeased.ReduceChannel.buf) :=
  ⟨by decide,
   C2_finished_stays demoReduce (Event.distribute 3) demoReduceLeased
     (Output.reply ⟨some (leaseReduce 2 3 (newReduceTask 0)), 0, false⟩) (by decide)⟩

/-- C3 (holder ids are unique).  Along every run from `MakeMaster`, the holder
ids stamped on the tasks that `DistributeTask` returns, listed in call order,
are strictly increasing, so each differs from every id issued by an earlier
call; each is at least 1 and strictly below the final `WorkerId` counter; and
in the state reached no two queued tasks that are both Running carry the same
holder id. -/
theorem C3_holder_ids_unique (files : List String) (R : Int) (m0 : Master) (es : List Event)
    (m : Master) (os : List Output) (h0 : MakeMaster files R = some m0)
    (hr : run m0 es = some (m, os)) :
    (issuedIds os).Pairwise (fun a b => a < b) ∧ (issuedIds os).Nodup ∧
    (∀ h ∈ issuedIds os, 1 ≤ h ∧ h < m.WorkerId) ∧
    m.tasks.Pairwise (fun a b =>
      a.TaskStatus = Running → b.TaskStatus = Running → a.holderId ≠ b.holderId) := by
  have hw0 := WF_init h0
  have hw := WF.run es hw0 hr
  rcases run_issued es hw0 hr with ⟨_, hpw, hall⟩
  refine ⟨hpw, hpw.imp (fun hab => ne_of_lt hab), ?_, hw.running_pairwise⟩
  intro h hh
  have := hall h hh
  have h1 := hw0.hWid
  exact ⟨le_trans h1 this.1, this.2⟩

/-- Witness for C3: the run `demoEvents`, which issues the holder ids 1 and 2. -/
theorem C3_holder_ids_unique_witness :
    MakeMaster ["a"] 1 = some demoInit ∧
    run demoInit demoEvents = some (demoReduceLeased, demoOutputs) ∧
    issuedIds demoOutputs = [1, 2] ∧
    (issuedIds demoOutputs).Pairwise (fun a b => a < b) ∧ (issuedIds demoOutputs).Nodup ∧
    (∀ h ∈ issuedIds demoOutputs, 1 ≤ h ∧ h < demoReduceLeased.WorkerId) ∧
    demoReduceLeased.tasks.Pairwise (fun a b =>
      a.TaskStatus = Running → b.TaskStatus = Running → a.holderId ≠ b.holderId) :=
  ⟨by decide, by decide, by decide,
   C3_holder_ids_unique ["a"] 1 demoInit demoEvents demoReduceLeased demoOutputs
     (by decide) (by decide)⟩

/-- C4 (commit validation), evaluated where the code departs from it.  In the
reachable state `demoReduceLeased` the Reduce task is Running under holder 2
with `BeginTime = 3`.  A reaper pass at clock 9.5 s leaves it Running.  At clock
10.2 s the lease is overdue (its age is not below 10 s), yet `ReduceTaskDone`
with holder 2, which never reads the clock, marks the task Finished and hands
the files to `generateReduceFile`.  `MapTaskDone` in the same situation (the
Map task of `demoLeased`, leased at clock 0, commit at 10.2 s) rejects the
commit and expires the lease. -/
theorem C4_reduceTaskDone_accepts_overdue_lease :
    Reachable ["a"] 1 demoReduceLeased ∧
    leaseReduce 2 3 (newReduceTask 0) ∈ demoReduceLeased.ReduceChannel.buf ∧
    (leaseReduce 2 3 (newReduceTask 0)).TaskStatus = Running ∧
    reaperPass demoReduceLeased 9500000000 = some demoReduceLeased ∧
    ¬ (10200000000 - (leaseReduce 2 3 (newReduceTask 0)).BeginTime < 10 * Second) ∧
    ReduceTaskDone demoReduceLeased ⟨2, ["/var/tmp/mr-out-0"]⟩
      = some ({ demoReduceLeased with
                ReduceChannel := ⟨[finishTask (leaseReduce 2 3 (newReduceTask 0))], 1⟩ },
              some ["/var/tmp/mr-out-0"]) ∧
    Reachable ["a"] 1 demoLeased ∧
    MapTaskDone demoLeased ⟨1, ["/var/tmp/mr-1-0"]⟩ 10200000000
      = some ({ demoLeased with
                MapChannel :=
                  ⟨[removeTimeoutTask 10200000000 (leaseMap 1 0 (newMapTask 0 "a"))], 1⟩ },
              none) ∧
    (removeTimeoutTask 10200000000 (leaseMap 1 0 (newMapTask 0 "a"))).TaskStatus = Ready :=
  ⟨reachable_of_run demoEvents (by decide), by decide, by decide, by decide, by decide,
   by decide, reachable_of_run (demoEvents.take 1) (by decide), by decide, by decide⟩

/-- C5 (late commit is rejected).  Let a task `t` be Running under holder
`t.holderId` in a reachable state `s1`, and let a reaper pass at a clock value
at which its lease is at least 10 s old lead to `s2`.  In every state `s`
reached from `s2` by any further run: `MapTaskDone` carrying the old holder id
returns with the commit rejected (no file promoted) and every task Finished
afterwards was Finished before; `ReduceTaskDone` carrying it, whenever it
returns, rejects the commit and changes nothing, and it does return in the
Reduce phase, hence always when `t` is a Reduce task; and a commit by the holder of any task that is Running in `s`,
sent while that lease is live, is accepted, promotes the files and marks that
task Finished. -/
theorem C5_late_commit_rejected (files : List String) (R : Int) (s1 : Master)
    (hs1 : Reachable files R s1) (t : Task) (ht : t ∈ s1.tasks)
    (hrun : t.TaskStatus = Running) (now1 : Int) (hover : 10 * Second ≤ now1 - t.BeginTime)
    (s2 : Master) (hreap : reaperPass s1 now1 = some s2)
    (es : List Event) (s : Master) (os : List Output) (hlater : run s2 es = some (s, os))
    (fs : List String) (now : Int) :
    (∃ s3, MapTaskDone s ⟨t.holderId, fs⟩ now = some (s3, none) ∧
      ∀ u ∈ s3.tasks, u.TaskStatus = Finished → u ∈ s.tasks) ∧
    (∀ s3 r, ReduceTaskDone s ⟨t.holderId, fs⟩ = some (s3, r) → r = none ∧ s3 = s) ∧
    (s.DistributePhase = ReducePhase → ReduceTaskDone s ⟨t.holderId, fs⟩ = some (s, none)) ∧
    (t.TaskType = ReduceTask → ReduceTaskDone s ⟨t.holderId, fs⟩ = some (s, none)) ∧
    (∀ u ∈ s.MapChannel.buf, u.TaskStatus = Running → now - u.BeginTime < 10 * Second →
      ∃ s3, MapTaskDone s ⟨u.MapWorkerId, fs⟩ now = some (s3, some fs) ∧
        finishTask u ∈ s3.MapChannel.buf) ∧
    (∀ u ∈ s.ReduceChannel.buf, u.TaskStatus = Running → now - u.BeginTime < 10 * Second →
      ∃ s3, ReduceTaskDone s ⟨u.ReduceWorkerId, fs⟩ = some (s3, some fs) ∧
        finishTask u ∈ s3.ReduceChannel.buf) := by
  have hw1 := hs1.wf
  have hw2 := hw1.of_effect (effect_reaper hw1 hreap)
  have hw := WF.run es hw2 hlater
  have hq : Retired t.holderId s :=
    Retired.preserved_run es hw2 hlater (Retired.of_reaper hw1 ht hrun hover hreap)
  refine ⟨?_, ?_, ?_, ?_, ?_, ?_⟩
  · refine ⟨_, MapTaskDone_reject hw t.holderId (hq.map hw) fs now, ?_⟩
    intro u hu hf
    have hu' : u ∈ s.MapChannel.buf.map (removeTimeoutTask now) ++ s.ReduceChannel.buf := hu
    rcases List.mem_append.1 hu' with h1 | h1
    · exact List.mem_append_left _ (finished_of_map_removeTimeout h1 hf)
    · exact List.mem_append_right _ h1
  · intro s3 r h
    cases hp : s.DistributePhase with
    | MapPhase =>
      rw [ReduceTaskDone_mapPhase hw hp] at h
      by_cases h0 : R = 0
      · rw [if_pos h0] at h; cases h; exact ⟨rfl, rfl⟩
      · rw [if_neg h0] at h; cases h
    | ReducePhase =>
      rw [ReduceTaskDone_reject hw hp t.holderId (hq.reduce hw) fs] at h
      cases h; exact ⟨rfl, rfl⟩
  · intro hp
    exact ReduceTaskDone_reject hw hp t.holderId (hq.reduce hw) fs
  · intro hty
    have hp1 : s1.DistributePhase = ReducePhase := by
      cases hp1 : s1.DistributePhase with
      | ReducePhase => rfl
      | MapPhase =>
        exfalso
        have hmem : t ∈ s1.MapChannel.buf := by
          have := ht
          unfold Master.tasks at this
          rw [hw1.hRedEmpty hp1, List.append_nil] at this
          exact this
        rw [hw1.mapType hmem] at hty
        cases hty
    have hp2 := (effect_reaper hw1 hreap).phase_mono hp1
    have hp := run_phase_mono es hw2 hlater hp2
    exact ReduceTaskDone_reject hw hp t.holderId (hq.reduce hw) fs
  · intro u hu hr hlive
    exact MapTaskDone_accept hw hu hr fs hlive
  · intro u hu hr _
    exact ReduceTaskDone_accept hw hu hr fs

/-- Witness for C5: the Map task of `demoLeased` (holder 1, leased at clock 0)
is expired by a reaper pass at 10 s and leased again to holder 2 at 11 s; at
12 s the commit of holder 1 is rejected and the commit of holder 2 accepted. -/
theorem C5_late_commit_rejected_witness :
    Reachable ["a"] 1 demoLeased ∧
    leaseMap 1 0 (newMapTask 0 "a") ∈ demoLeased.tasks ∧
    (leaseMap 1 0 (newMapTask 0 "a")).TaskStatus = Running ∧
    10 * Second ≤ 10000000000 - (leaseMap 1 0 (newMapTask 0 "a")).BeginTime ∧
    reaperPass demoLeased 10000000000 = some demoExpired ∧
    run demoExpired [Event.distribute 11000000000]
      = some (demoReleased,
          [Output.reply ⟨some (leaseMap 2 11000000000
            (removeTimeoutTask 10000000000 (leaseMap 1 0 (newMapTask 0 "a")))), 1, false⟩]) ∧
    (∃ s3, MapTaskDone demoReleased ⟨(leaseMap 1 0 (newMapTask 0 "a")).holderId,
          ["/var/tmp/mr-1-0"]⟩ 12000000000 = some (s3, none) ∧
      ∀ u ∈ s3.tasks, u.TaskStatus = Finished → u ∈ demoReleased.tasks) ∧
    (∀ u ∈ demoReleased.MapChannel.buf, u.TaskStatus = Running →
      12000000000 - u.BeginTime < 10 * Second →
      ∃ s3, MapTaskDone demoReleased ⟨u.MapWorkerId, ["/var/tmp/mr-1-0"]⟩ 12000000000
          = some (s3, some ["/var/tmp/mr-1-0"]) ∧
        finishTask u ∈ s3.MapChannel.buf) :=
  have h := C5_late_commit_rejected ["a"] 1 demoLeased
    (reachable_of_run (demoEvents.take 1) (by decide)) (leaseMap 1 0 (newMapTask 0 "a"))
    (by decide) (by decide) 10000000000 (by decide) demoExpired (by decide)
    [Event.distribute 11000000000] demoReleased
    [Output.reply ⟨some (leaseMap 2 11000000000
      (removeTimeoutTask 10000000000 (leaseMap 1 0 (newMapTask 0 "a")))), 1, false⟩]
    (by decide) ["/var/tmp/mr-1-0"] 12000000000
  ⟨reachable_of_run (demoEvents.take 1) (by decide), by decide, by decide, by decide,
   by decide, by decide, h.1, h.2.2.2.2.1⟩

/-- C6 as stated fails for `MapTaskDone`.  In the reachable state
`demoCommitted` the Map task of `"a"` was committed through holder 1 while the
Map task of `"b"` is Running under holder 2, leased at clock 0.  Replaying
`MapTaskDone` with holder 1 at clock 11 s promotes no file but changes the
registry: the Running task of holder 2 is reset to Ready. -/
theorem C6_counterexample :
    Reachable ["a", "b"] 1 demoCommitted ∧
    finishTask (leaseMap 1 0 (newMapTask 0 "a")) ∈ demoCommitted.MapChannel.buf ∧
    leaseMap 2 0 (newMapTask 1 "b") ∈ demoCommitted.MapChannel.buf ∧
    ∃ s1, MapTaskDone demoCommitted ⟨1, ["/var/tmp/mr-1-0"]⟩ 11000000000 = some (s1, none) ∧
      s1 ≠ demoCommitted ∧
      leaseMap 2 0 (newMapTask 1 "b") ∉ s1.MapChannel.buf ∧
      { leaseMap 2 0 (newMapTask 1 "b") with TaskStatus := Ready } ∈ s1.MapChannel.buf :=
  ⟨reachable_of_run demoCommittedEvents (by decide), by decide, by decide,
   { demoCommitted with
     MapChannel := ⟨demoCommitted.MapChannel.buf.map (removeTimeoutTask 11000000000), 2⟩ },
   by decide, by decide, by decide, by decide⟩

/-- C6 (replay idempotence), amended.  In a reachable state in which a task
committed through holder id `h` is Finished: a further `ReduceTaskDone`
carrying `h` (for a Reduce task) returns with the commit rejected and the whole
state unchanged; a further `MapTaskDone` carrying `h` (for a Map task) at clock
value `now` returns with the commit rejected, and its only effect is the one of
`removeTimeoutTask` on each Map task, in place: queue order, phase, `WorkerId`,
holder ids and begin times are unchanged, and a status changes only from
Running to Ready for a lease at least 10 s old; when no Running Map task is
overdue at `now` the whole state is unchanged. -/
theorem C6_replay_amended (files : List String) (R : Int) (s : Master)
    (hs : Reachable files R s) (h : Int) (fs : List String) (now : Int) :
    (∀ t ∈ s.MapChannel.buf, t.MapWorkerId = h → t.TaskStatus = Finished →
      MapTaskDone s ⟨h, fs⟩ now
        = some ({ s with MapChannel :=
                    ⟨s.MapChannel.buf.map (removeTimeoutTask now), s.MapChannel.cap⟩ }, none) ∧
      (∀ u ∈ s.MapChannel.buf,
        (removeTimeoutTask now u).static = u.static ∧
        (removeTimeoutTask now u).holderId = u.holderId ∧
        (removeTimeoutTask now u).BeginTime = u.BeginTime ∧
        (removeTimeoutTask now u = u ∨
          (u.TaskStatus = Running ∧ 10 * Second ≤ now - u.BeginTime ∧
            (removeTimeoutTask now u).TaskStatus = Ready))) ∧
      ((∀ u ∈ s.MapChannel.buf, u.TaskStatus = Running → now - u.BeginTime < 10 * Second) →
        MapTaskDone s ⟨h, fs⟩ now = some (s, none))) ∧
    (∀ t ∈ s.ReduceChannel.buf, t.ReduceWorkerId = h → t.TaskStatus = Finished →
      ReduceTaskDone s ⟨h, fs⟩ = some (s, none)) := by
  have hw := hs.wf
  constructor
  · intro t ht hth hfin
    have hno : ∀ u ∈ s.MapChannel.buf, u.MapWorkerId = h → u.TaskStatus ≠ Running := by
      intro u hu huh hur
      have hid : u.holderId = t.holderId := by
        rw [holderId_of_map u (hw.mapType hu), holderId_of_map t (hw.mapType ht), huh, hth]
      have h1 : 1 ≤ u.holderId :=
        (hw.hIds u (List.mem_append_left _ hu)).2.2 (by rw [hur]; decide)
      have : u = t := hw.eq_of_static (List.mem_append_left _ hu) (List.mem_append_left _ ht)
        (hw.hUniq u (List.mem_append_left _ hu) t (List.mem_append_left _ ht) hid h1)
      rw [this, hfin] at hur; cases hur
    have hrej := MapTaskDone_reject hw h hno fs now
    refine ⟨hrej, ?_, ?_⟩
    · intro u _
      exact ⟨by simp, by simp, by simp, removeTimeoutTask_status now u⟩
    · intro hlive
      rw [hrej]
      have : s.MapChannel.buf.map (removeTimeoutTask now) = s.MapChannel.buf := by
        conv_rhs => rw [← List.map_id s.MapChannel.buf]
        refine List.map_congr_left ?_
        intro u hu
        by_cases hur : u.TaskStatus = Running
        · exact removeTimeoutTask_of_live now u (hlive u hu hur)
        · exact removeTimeoutTask_of_not_running now u hur
      rw [this]
  · intro t ht hth hfin
    have hp : s.DistributePhase = ReducePhase := by
      cases hp : s.DistributePhase with
      | MapPhase => rw [hw.hRedEmpty hp] at ht; cases ht
      | ReducePhase => rfl
    refine ReduceTaskDone_reject hw hp h ?_ fs
    intro u hu huh hur
    have hid : u.holderId = t.holderId := by
      rw [holderId_of_reduce u (hw.redType hu), holderId_of_reduce t (hw.redType ht), huh, hth]
    have h1 : 1 ≤ u.holderId :=
      (hw.hIds u (List.mem_append_right _ hu)).2.2 (by rw [hur]; decide)
    have : u = t := hw.eq_of_static (List.mem_append_right _ hu) (List.mem_append_right _ ht)
      (hw.hUniq u (List.mem_append_right _ hu) t (List.mem_append_right _ ht) hid h1)
    rw [this, hfin] at hur; cases hur

/-- Witness for the amended C6: the replay of holder 1 in `demoCommitted`. -/
theorem C6_replay_amended_witness :
    Reachable ["a", "b"] 1 demoCommitted ∧
    (∀ t ∈ demoCommitted.MapChannel.buf, t.MapWorkerId = 1 → t.TaskStatus = Finished →
      MapTaskDone demoCommitted ⟨1, ["/var/tmp/mr-1-0"]⟩ 11000000000
        = some ({ demoCommitted with MapChannel :=
                    ⟨demoCommitted.MapChannel.buf.map (removeTimeoutTask 11000000000),
                     demoCommitted.MapChannel.cap⟩ }, none) ∧
      (∀ u ∈ demoCommitted.MapChannel.buf,
        (removeTimeoutTask 11000000000 u).static = u.static ∧
        (removeTimeoutTask 11000000000 u).holderId = u.holderId ∧
        (removeTimeoutTask 11000000000 u).BeginTime = u.BeginTime ∧
        (removeTimeoutTask 11000000000 u = u ∨
          (u.TaskStatus = Running ∧ 10 * Second ≤ 11000000000 - u.BeginTime ∧
            (removeTimeoutTask 11000000000 u).TaskStatus = Ready))) ∧
      ((∀ u ∈ demoCommitted.MapChannel.buf, u.TaskStatus = Running →
          11000000000 - u.BeginTime < 10 * Second) →
        MapTaskDone demoCommitted ⟨1, ["/var/tmp/mr-1-0"]⟩ 11000000000
          = some (demoCommitted, none))) ∧
    (∀ t ∈ demoCommitted.ReduceChannel.buf, t.ReduceWorkerId = 1 → t.TaskStatus = Finished →
      ReduceTaskDone demoCommitted ⟨1, ["/var/tmp/mr-1-0"]⟩ = some (demoCommitted, none)) :=
  ⟨reachable_of_run demoCommittedEvents (by decide),
   C6_replay_amended ["a", "b"] 1 demoCommitted
     (reachable_of_run demoCommittedEvents (by decide)) 1 ["/var/tmp/mr-1-0"] 11000000000⟩

theorem phaseTasks_map {m : Master} (hp : m.DistributePhase = MapPhase) :
    m.phaseTasks = m.MapChannel.buf := by
  unfold Master.phaseTasks; rw [hp]

theorem phaseTasks_reduce {m : Master} (hp : m.DistributePhase = ReducePhase) :
    m.phaseTasks = m.ReduceChannel.buf := by
  unfold Master.phaseTasks; rw [hp]

theorem split_head_ready {pre post rest : List Task} {t x : Task}
    (e : x :: rest = pre ++ t :: post) (hx : x.TaskStatus = Ready)
    (hpre : ∀ u ∈ pre, u.TaskStatus ≠ Ready) : pre = [] ∧ t = x ∧ post = rest := by
  cases pre with
  | nil =>
    simp only [List.nil_append, List.cons.injEq] at e
    exact ⟨rfl, e.1.symm, e.2.symm⟩
  | cons y ys =>
    simp only [List.cons_append, List.cons.injEq] at e
    exact absurd hx (by rw [e.1]; exact hpre y (List.mem_cons_self _ _))

/-- C7 (dispatch postcondition).  In every reachable state `DistributeTask`
returns, and its reply carries a task if and only if some task of the current
phase is Ready.  The task returned is a task of the current phase that was
Ready before the call; after the call it is queued as Running with holder id
equal to the `WorkerId` counter before the call and `BeginTime` equal to the
clock value of the call; the counter has grown by exactly 1; every other task
is queued unchanged (same status, holder id, begin time), and nothing else is
queued. -/
theorem C7_dispatch_postcondition (files : List String) (R : Int) (s : Master)
    (hs : Reachable files R s) (now : Int) :
    ∃ s1 r, DistributeTask s now = some (s1, r) ∧
      (r.Task.isSome ↔ ∃ t ∈ s.phaseTasks, t.TaskStatus = Ready) ∧
      ∀ t, r.Task = some t →
        (∃ t0 ∈ s.phaseTasks, t0.TaskStatus = Ready ∧ t0.static = t.static) ∧
        t ∈ s1.tasks ∧ t.TaskStatus = Running ∧ t.holderId = s.WorkerId ∧
        t.BeginTime = now ∧ s1.WorkerId = s.WorkerId + 1 ∧
        (∀ u ∈ s.tasks, u.static ≠ t.static → u ∈ s1.tasks) ∧
        (∀ u ∈ s1.tasks, u = t ∨ u ∈ s.tasks) ∧
        s1.tasks.length = s.tasks.length := by
  have hw := hs.wf
  cases hp : s.DistributePhase with
  | MapPhase =>
    rw [phaseTasks_map hp]
    rcases DistributeTask_map hw hp now with
      ⟨pre, t0, post, e, _, ht0, heq⟩ | ⟨hfin, heq⟩ | ⟨pre, t0, post, e, hno, _, _, heq⟩
    · have hmem : t0 ∈ s.MapChannel.buf := by rw [e]; simp
      refine ⟨_, _, heq, ⟨fun _ => ⟨t0, hmem, ht0⟩, fun _ => rfl⟩, ?_⟩
      intro t ht
      simp only [Option.some.injEq] at ht
      subst ht
      refine ⟨⟨t0, hmem, ht0, rfl⟩, ?_, rfl, ?_, rfl, rfl, ?_, ?_, ?_⟩
      · show leaseMap s.WorkerId now t0 ∈
          (post ++ pre ++ [leaseMap s.WorkerId now t0]) ++ s.ReduceChannel.buf
        simp
      · rw [holderId_of_map _ (by simpa using hw.mapType hmem)]; rfl
      · intro u hu hne
        show u ∈ (post ++ pre ++ [leaseMap s.WorkerId now t0]) ++ s.ReduceChannel.buf
        unfold Master.tasks at hu
        rw [e] at hu
        simp only [List.mem_append, List.mem_cons, List.mem_singleton] at hu ⊢
        rcases hu with (h1 | rfl | h1) | h1
        · exact Or.inl (Or.inl (Or.inr h1))
        · exact absurd rfl hne
        · exact Or.inl (Or.inl (Or.inl h1))
        · exact Or.inr h1
      · intro u hu
        have hu' : u ∈ (post ++ pre ++ [leaseMap s.WorkerId now t0]) ++ s.ReduceChannel.buf := hu
        unfold Master.tasks
        rw [e]
        simp only [List.mem_append, List.mem_cons, List.mem_singleton] at hu' ⊢
        tauto
      · show ((post ++ pre ++ [leaseMap s.WorkerId now t0]) ++ s.ReduceChannel.buf).length = _
        unfold Master.tasks
        rw [e]
        simp only [List.length_append, List.length_cons, List.length_nil]
        omega
    · refine ⟨_, _, heq, ⟨fun h => (by cases h), ?_⟩, fun t ht => (by cases ht)⟩
      rintro ⟨t, ht, hr⟩
      rw [hfin t ht] at hr; cases hr
    · refine ⟨_, _, heq, ⟨fun h => (by cases h), ?_⟩, fun t ht => (by cases ht)⟩
      rintro ⟨t, ht, hr⟩
      exact absurd hr (hno t ht)
  | ReducePhase =>
    rw [phaseTasks_reduce hp]
    rcases DistributeTask_reduce hw hp now with
      ⟨pre, t0, post, e, _, ht0, heq⟩ | ⟨hfin, heq⟩ | ⟨pre, t0, post, e, hno, _, _, heq⟩
    · have hmem : t0 ∈ s.ReduceChannel.buf := by rw [e]; simp
      refine ⟨_, _, heq, ⟨fun _ => ⟨t0, hmem, ht0⟩, fun _ => rfl⟩, ?_⟩
      intro t ht
      simp only [Option.some.injEq] at ht
      subst ht
      refine ⟨⟨t0, hmem, ht0, rfl⟩, ?_, rfl, ?_, rfl, rfl, ?_, ?_, ?_⟩
      · show leaseReduce s.WorkerId now t0 ∈
          s.MapChannel.buf ++ (post ++ pre ++ [leaseReduce s.WorkerId now t0])
        simp
      · rw [holderId_of_reduce _ (by simpa using hw.redType hmem)]; rfl
      · intro u hu hne
        show u ∈ s.MapChannel.buf ++ (post ++ pre ++ [leaseReduce s.WorkerId now t0])
        unfold Master.tasks at hu
        rw [e] at hu
        simp only [List.mem_append, List.mem_cons, List.mem_singleton] at hu ⊢
        rcases hu with h1 | h1 | rfl | h1
        · exact Or.inl h1
        · exact Or.inr (Or.inl (Or.inr h1))
        · exact absurd rfl hne
        · exact Or.inr (Or.inl (Or.inl h1))
      · intro u hu
        have hu' : u ∈ s.MapChannel.buf ++ (post ++ pre ++ [leaseReduce s.WorkerId now t0]) := hu
        unfold Master.tasks
        rw [e]
        simp only [List.mem_append, List.mem_cons, List.mem_singleton] at hu' ⊢
        tauto
      · show (s.MapChannel.buf ++ (post ++ pre ++ [leaseReduce s.WorkerId now t0])).length = _
        unfold Master.tasks
        rw [e]
        simp only [List.length_append, List.length_cons, List.length_nil]
        omega
    · refine ⟨_, _, heq, ⟨fun h => (by cases h), ?_⟩, fun t ht => (by cases ht)⟩
      rintro ⟨t, ht, hr⟩
      rw [hfin t ht] at hr; cases hr
    · refine ⟨_, _, heq, ⟨fun h => (by cases h), ?_⟩, fun t ht => (by cases ht)⟩
      rintro ⟨t, ht, hr⟩
      exact absurd hr (hno t ht)

/-- Witness for C7: the dispatch of the Reduce task in `demoReduce`. -/
theorem C7_dispatch_postcondition_witness :
    Reachable ["a"] 1 demoReduce ∧
    ∃ s1 r, DistributeTask demoReduce 3 = some (s1, r) ∧
      (r.Task.isSome ↔ ∃ t ∈ demoReduce.phaseTasks, t.TaskStatus = Ready) ∧
      ∀ t, r.Task = some t →
        (∃ t0 ∈ demoReduce.phaseTasks, t0.TaskStatus = Ready ∧ t0.static = t.static) ∧
        t ∈ s1.tasks ∧ t.TaskStatus = Running ∧ t.holderId = demoReduce.WorkerId ∧
        t.BeginTime = 3 ∧ s1.WorkerId = demoReduce.WorkerId + 1 ∧
        (∀ u ∈ demoReduce.tasks, u.static ≠ t.static → u ∈ s1.tasks) ∧
        (∀ u ∈ s1.tasks, u = t ∨ u ∈ demoReduce.tasks) ∧
        s1.tasks.length = demoReduce.tasks.length :=
  ⟨reachable_of_run (demoEvents.take 3) (by decide),
   C7_dispatch_postcondition ["a"] 1 demoReduce
     (reachable_of_run (demoEvents.take 3) (by decide)) 3⟩

/-- C9 as stated fails.  In the reachable state `demoStale` both Map tasks are
Ready, and the queue has been rotated by the earlier dispatch: `DistributeTask`
returns the Map task of `"b"` (id 1, the second input file) although the Map
task of `"a"` (id 0) is Ready. -/
theorem C9_counterexample :
    Reachable ["a", "b"] 1 demoStale ∧
    DistributeTask demoStale 10000000000
      = some (demoStaleNext, ⟨some (leaseMap 2 10000000000 (newMapTask 1 "b")), 1, false⟩) ∧
    (leaseMap 2 10000000000 (newMapTask 1 "b")).Addr = 1 ∧
    (leaseMap 2 10000000000 (newMapTask 1 "b")).InputFile = "b" ∧
    ∃ u ∈ demoStale.phaseTasks, u.TaskStatus = Ready ∧ u.InputFile = "a" ∧ u.Addr = 0 ∧
      u.Addr < (leaseMap 2 10000000000 (newMapTask 1 "b")).Addr :=
  ⟨reachable_of_run [Event.distribute 0, Event.reaper 10000000000] (by decide), by decide,
   by decide, by decide,
   removeTimeoutTask 10000000000 (leaseMap 1 0 (newMapTask 0 "a")), by decide, by decide,
   by decide, by decide, by decide⟩

/-- C9 (tie-break), amended.  In every reachable state, when `DistributeTask`
returns a task, that task is the Ready task of the current phase that stands
first in the queue of that phase: the queue splits into tasks that are not
Ready, the task chosen, and the rest; after the call the tasks that stood
before the chosen one have moved behind the rest, and the chosen one stands
last. -/
theorem C9_first_ready_in_queue (files : List String) (R : Int) (s : Master)
    (hs : Reachable files R s) (now : Int) (s1 : Master) (r : TaskReply) (t : Task)
    (h : DistributeTask s now = some (s1, r)) (hr : r.Task = some t) :
    ∃ pre t0 post, s.phaseTasks = pre ++ t0 :: post ∧ (∀ u ∈ pre, u.TaskStatus ≠ Ready) ∧
      t0.TaskStatus = Ready ∧ t.static = t0.static ∧ s1.phaseTasks = post ++ pre ++ [t] := by
  have hw := hs.wf
  cases hp : s.DistributePhase with
  | MapPhase =>
    rw [phaseTasks_map hp]
    rcases DistributeTask_map hw hp now with
      ⟨pre, t0, post, e, hpre, ht0, heq⟩ | ⟨_, heq⟩ | ⟨pre, t0, post, e, _, _, _, heq⟩
    · rw [heq] at h; cases h
      simp only [Option.some.injEq] at hr
      subst hr
      exact ⟨pre, t0, post, e, hpre, ht0, rfl, phaseTasks_map hp⟩
    · rw [heq] at h; cases h; cases hr
    · rw [heq] at h; cases h; cases hr
  | ReducePhase =>
    rw [phaseTasks_reduce hp]
    rcases DistributeTask_reduce hw hp now with
      ⟨pre, t0, post, e, hpre, ht0, heq⟩ | ⟨_, heq⟩ | ⟨pre, t0, post, e, _, _, _, heq⟩
    · rw [heq] at h; cases h
      simp only [Option.some.injEq] at hr
      subst hr
      exact ⟨pre, t0, post, e, hpre, ht0, rfl, phaseTasks_reduce hp⟩
    · rw [heq] at h; cases h; cases hr
    · rw [heq] at h; cases h; cases hr

/-- Witness for the amended C9: the dispatch in `demoStale`. -/
theorem C9_first_ready_in_queue_witness :
    Reachable ["a", "b"] 1 demoStale ∧
    DistributeTask demoStale 10000000000
      = some (demoStaleNext, ⟨some (leaseMap 2 10000000000 (newMapTask 1 "b")), 1, false⟩) ∧
    ∃ pre t0 post, demoStale.phaseTasks = pre ++ t0 :: post ∧
      (∀ u ∈ pre, u.TaskStatus ≠ Ready) ∧ t0.TaskStatus = Ready ∧
      (leaseMap 2 10000000000 (newMapTask 1 "b")).static = t0.static ∧
      demoStaleNext.phaseTasks = post ++ pre ++ [leaseMap 2 10000000000 (newMapTask 1 "b")] :=
  ⟨reachable_of_run [Event.distribute 0, Event.reaper 10000000000] (by decide), by decide,
   C9_first_ready_in_queue ["a", "b"] 1 demoStale
     (reachable_of_run [Event.distribute 0, Event.reaper 10000000000] (by decide))
     10000000000 demoStaleNext ⟨some (leaseMap 2 10000000000 (newMapTask 1 "b")), 1, false⟩
     (leaseMap 2 10000000000 (newMapTask 1 "b")) (by decide) rfl⟩

/-- C10 as stated fails.  In the reachable state `demoMapped` (Map phase, the
only Map task Finished, reduce count 1) `DistributeTask` advances the phase to
Reduce and creates the Reduce task, but its reply carries no task. -/
theorem C10_counterexample :
    Reachable ["a"] 1 demoMapped ∧
    demoMapped.DistributePhase = MapPhase ∧
    (∀ u ∈ demoMapped.MapChannel.buf, u.TaskStatus = Finished) ∧
    (1 : Int) ≤ demoMapped.ReduceNum ∧
    DistributeTask demoMapped 2 = some (demoReduce, TaskReply.zero) ∧
    demoReduce.DistributePhase = ReducePhase ∧
    TaskReply.zero.Task = none :=
  ⟨reachable_of_run (demoEvents.take 2) (by decide), by decide, by decide, by decide,
   by decide, by decide, by decide⟩

/-- C10 (phase change on dispatch), amended.  When a `DistributeTask` call made
in the Map phase finds every Map task Finished, it creates the `R` Reduce tasks,
all Ready, advances the phase to Reduce and returns a reply without a task (and
`AllDone = false`), the `WorkerId` counter unchanged; for `R ≥ 1` the next
`DistributeTask` call returns the Reduce task of shard 0, Running, with the
fresh holder id `WorkerId`. -/
theorem C10_phase_change_amended (files : List String) (R : Int) (s : Master)
    (hs : Reachable files R s) (hp : s.DistributePhase = MapPhase)
    (hfin : ∀ u ∈ s.MapChannel.buf, u.TaskStatus = Finished) (now now2 : Int) :
    DistributeTask s now
      = some ({ s with ReduceChannel := ⟨reduceTasksFrom R.toNat 0, s.ReduceChannel.cap⟩,
                       DistributePhase := ReducePhase }, TaskReply.zero) ∧
    (reduceTasksFrom R.toNat 0).length = R.toNat ∧
    (∀ u ∈ reduceTasksFrom R.toNat 0, u.TaskStatus = Ready ∧ u.TaskType = ReduceTask) ∧
    (1 ≤ R →
      ∃ s2, DistributeTask
          { s with ReduceChannel := ⟨reduceTasksFrom R.toNat 0, s.ReduceChannel.cap⟩,
                   DistributePhase := ReducePhase } now2
        = some (s2, ⟨some (leaseReduce s.WorkerId now2 (newReduceTask 0)), 0, false⟩) ∧
        (leaseReduce s.WorkerId now2 (newReduceTask 0)).TaskType = ReduceTask ∧
        (leaseReduce s.WorkerId now2 (newReduceTask 0)).TaskStatus = Running ∧
        (leaseReduce s.WorkerId now2 (newReduceTask 0)).holderId = s.WorkerId ∧
        s2.WorkerId = s.WorkerId + 1) := by
  have hw := hs.wf
  have hfirst : DistributeTask s now
      = some ({ s with ReduceChannel := ⟨reduceTasksFrom R.toNat 0, s.ReduceChannel.cap⟩,
                       DistributePhase := ReducePhase }, TaskReply.zero) := by
    rcases DistributeTask_map hw hp now with
      ⟨pre, t0, post, e, _, ht0, _⟩ | ⟨_, heq⟩ | ⟨pre, t0, post, e, _, _, ht0, _⟩
    · have := hfin t0 (by rw [e]; simp)
      rw [ht0] at this; cases this
    · exact heq
    · exact absurd (hfin t0 (by rw [e]; simp)) ht0
  refine ⟨hfirst, length_reduceTasksFrom _ _, ?_, ?_⟩
  · intro u hu
    have := mem_reduceTasksFrom _ _ u hu
    exact ⟨this.2.1, this.1⟩
  · intro hR
    have hw2 := hw.toReduce hfin
    have hk : ∃ k, R.toNat = k + 1 := ⟨R.toNat - 1, by omega⟩
    rcases hk with ⟨k, hk⟩
    have hbuf : reduceTasksFrom R.toNat 0 = newReduceTask 0 :: reduceTasksFrom k 1 := by
      rw [hk]; rfl
    rcases DistributeTask_reduce hw2 rfl now2 with
      ⟨pre, t0, post, e, hpre, _, heq⟩ | ⟨hf, _⟩ | ⟨pre, t0, post, e, hno, _, _, _⟩
    · have e' : newReduceTask 0 :: reduceTasksFrom k 1 = pre ++ t0 :: post := by
        rw [← hbuf]; exact e
      rcases split_head_ready e' rfl hpre with ⟨_, rfl, _⟩
      exact ⟨_, heq, rfl, rfl, rfl, rfl⟩
    · have : (newReduceTask 0).TaskStatus = Finished :=
        hf (newReduceTask 0) (by show newReduceTask 0 ∈ reduceTasksFrom R.toNat 0; rw [hbuf]; simp)
      cases this
    · exact absurd rfl
        (hno (newReduceTask 0) (by show newReduceTask 0 ∈ reduceTasksFrom R.toNat 0; rw [hbuf]; simp))

/-- Witness for the amended C10: the phase change in `demoMapped` and the
dispatch that follows. -/
theorem C10_phase_change_amended_witness :
    Reachable ["a"] 1 demoMapped ∧
    demoMapped.DistributePhase = MapPhase ∧
    (∀ u ∈ demoMapped.MapChannel.buf, u.TaskStatus = Finished) ∧
    DistributeTask demoMapped 2 = some (demoReduce, TaskReply.zero) ∧
    ((1 : Int) ≤ 1 →
      ∃ s2, DistributeTask demoReduce 3
        = some (s2, ⟨some (leaseReduce demoMapped.WorkerId 3 (newReduceTask 0)), 0, false⟩) ∧
        (leaseReduce demoMapped.WorkerId 3 (newReduceTask 0)).TaskType = ReduceTask ∧
        (leaseReduce demoMapped.WorkerId 3 (newReduceTask 0)).TaskStatus = Running ∧
        (leaseReduce demoMapped.WorkerId 3 (newReduceTask 0)).holderId = demoMapped.WorkerId ∧
        s2.WorkerId = demoMapped.WorkerId + 1) :=
  have h := C10_phase_change_amended ["a"] 1 demoMapped
    (reachable_of_run (demoEvents.take 2) (by decide)) (by decide) (by decide) 2 3
  ⟨reachable_of_run (demoEvents.take 2) (by decide), by decide, by decide, h.1, h.2.2.2⟩

/-! ### Consecutive dispatches from a fresh coordinator -/

theorem MakeMaster_dispatchState (files : List String) (R : Int) (hR : 0 ≤ R) :
    MakeMaster files R = some (dispatchState files R files 0 []) := by
  rw [MakeMaster_eq files R hR]
  simp [dispatchState]

theorem DistributeTask_dispatchState_lease (files : List String) (R : Int) (f : String)
    (rest : List String) (j : Nat) (L : List Task)
    (hlen : (f :: rest).length + L.length = files.length) (now : Int) :
    DistributeTask (dispatchState files R (f :: rest) j L) now
      = some (dispatchState files R rest (j + 1)
                (L ++ [leaseMap ((j : Int) + 1) now (newMapTask j f)]),
              ⟨some (leaseMap ((j : Int) + 1) now (newMapTask j f)), R, false⟩) := by
  have hn : files.length = (rest.length + L.length) + 1 := by
    simp only [List.length_cons] at hlen; omega
  have hlt : (mapTasksFrom rest (j + 1) ++ L).length < files.length := by
    rw [List.length_append, length_mapTasksFrom]; omega
  unfold DistributeTask
  simp only [dispatchState, if_true, Int.toNat_ofNat, mapTasksFrom, List.cons_append]
  rw [hn, rotateScan_cons, ← hn, if_pos hlt]
  simp [newMapTask, TaskReply.zero, List.append_assoc]

theorem DistributeTask_dispatchState_idle (files : List String) (R : Int) (j : Nat)
    (x : Task) (xs : List Task) (hlen : (x :: xs).length = files.length)
    (hrun : ∀ t ∈ x :: xs, t.TaskStatus = Running) (now : Int) :
    DistributeTask (dispatchState files R [] j (x :: xs)) now
      = some (dispatchState files R [] j (xs ++ [x]), TaskReply.zero) := by
  have hx : x.TaskStatus = Running := hrun x (List.mem_cons_self _ _)
  have h1 := rotateScan_none_aux id (fun t => decide (t.TaskStatus = Ready))
    (leaseMap ((j : Int) + 1) now) files.length (x :: xs) [] (by simp [hlen])
    (by intro t ht; simp [hrun t ht])
  rw [hlen] at h1
  simp only [List.append_nil, List.nil_append, List.map_id] at h1
  have hn : files.length = xs.length + 1 := by
    simp only [List.length_cons] at hlen; omega
  have hlt : xs.length < files.length := by omega
  have h2 : rotateScan id (fun t => decide (t.TaskStatus ≠ Finished)) id files.length
      ⟨x :: xs, files.length⟩ = some (⟨xs ++ [x], files.length⟩, some x) := by
    conv_lhs => rw [hn]
    rw [rotateScan_cons, ← hn, if_pos hlt]
    simp [hx]
  unfold DistributeTask
  simp only [dispatchState, if_true, Int.toNat_ofNat, mapTasksFrom, List.nil_append, h1,
    judgeAllMapDone, h2]

theorem run_dispatchState (files : List String) (R : Int) (hne : files ≠ []) :
    ∀ (nows : List Int) (rest : List String) (j : Nat) (L : List Task),
      rest.length + L.length = files.length → (∀ t ∈ L, t.TaskStatus = Running) →
      ∃ m, run (dispatchState files R rest j L) (nows.map Event.distribute)
        = some (m, dispatchOutputs R rest j nows) := by
  intro nows
  induction nows with
  | nil => intro rest j L _ _; cases rest <;> exact ⟨_, rfl⟩
  | cons now nows ih =>
    intro rest j L hlen hrun
    cases rest with
    | nil =>
      cases L with
      | nil =>
        exfalso
        simp only [List.length_nil, Nat.add_zero] at hlen
        exact hne (List.length_eq_zero.1 hlen.symm)
      | cons x xs =>
        have hlen' : (x :: xs).length = files.length := by simpa using hlen
        have hstep := DistributeTask_dispatchState_idle files R j x xs hlen' hrun now
        have hlen2 : ([] : List String).length + (xs ++ [x]).length = files.length := by
          simp only [List.length_nil, List.length_append, List.length_cons] at hlen' ⊢
          omega
        have hrun2 : ∀ t ∈ xs ++ [x], t.TaskStatus = Running := by
          intro t ht
          apply hrun
          simp only [List.mem_append, List.mem_singleton, List.mem_cons] at ht ⊢
          tauto
        rcases ih [] j (xs ++ [x]) hlen2 hrun2 with ⟨m, hm⟩
        refine ⟨m, ?_⟩
        simp only [List.map_cons, MR.run, MR.step, hstep, Option.map_some', hm, dispatchOutputs]
    | cons f rest =>
      have hstep := DistributeTask_dispatchState_lease files R f rest j L hlen now
      have hlen2 : rest.length
          + (L ++ [leaseMap ((j : Int) + 1) now (newMapTask j f)]).length = files.length := by
        simp only [List.length_append, List.length_cons, List.length_nil] at hlen ⊢
        omega
      have hrun2 : ∀ t ∈ L ++ [leaseMap ((j : Int) + 1) now (newMapTask j f)],
          t.TaskStatus = Running := by
        intro t ht
        rcases List.mem_append.1 ht with h | h
        · exact hrun t h
        · rw [List.mem_singleton.1 h]; rfl
      rcases ih rest (j + 1) _ hlen2 hrun2 with ⟨m, hm⟩
      refine ⟨m, ?_⟩
      simp only [List.map_cons, MR.run, MR.step, hstep, Option.map_some', hm, dispatchOutputs]

theorem length_dispatchOutputs (R : Int) :
    ∀ (nows : List Int) (rest : List String) (j : Nat),
      (dispatchOutputs R rest j nows).length = nows.length := by
  intro nows
  induction nows with
  | nil => intro rest j; cases rest <;> rfl
  | cons now nows ih =>
    intro rest j
    cases rest with
    | nil => simp [dispatchOutputs, ih]
    | cons f rest => simp [dispatchOutputs, ih]

theorem dispatchOutputs_task (R : Int) :
    ∀ (nows : List Int) (rest : List String) (j k : Nat) (now : Int) (f : String),
      nows[k]? = some now → rest[k]? = some f →
      (dispatchOutputs R rest j nows)[k]?
        = some (Output.reply
            ⟨some (leaseMap (((j + k : Nat) : Int) + 1) now (newMapTask (j + k) f)), R, false⟩) := by
  intro nows
  induction nows with
  | nil => intro rest j k now f h; simp at h
  | cons n0 nows ih =>
    intro rest j k now f hn hf
    cases rest with
    | nil => simp at hf
    | cons f0 rest =>
      cases k with
      | zero =>
        simp only [List.getElem?_cons_zero, Option.some.injEq] at hn hf
        subst hn; subst hf
        simp [dispatchOutputs]
      | succ k =>
        simp only [List.getElem?_cons_succ] at hn hf
        have := ih rest (j + 1) k now f hn hf
        have e : j + 1 + k = j + (k + 1) := by omega
        rw [e] at this
        simpa [dispatchOutputs] using this

theorem dispatchOutputs_idle (R : Int) :
    ∀ (nows : List Int) (rest : List String) (j k : Nat) (now : Int),
      nows[k]? = some now → rest.length ≤ k →
      (dispatchOutputs R rest j nows)[k]? = some (Output.reply TaskReply.zero) := by
  intro nows
  induction nows with
  | nil => intro rest j k now h; simp at h
  | cons n0 nows ih =>
    intro rest j k now hn hk
    cases rest with
    | nil =>
      cases k with
      | zero => simp [dispatchOutputs]
      | succ k =>
        simp only [List.getElem?_cons_succ] at hn
        have := ih [] j k now hn (by simp)
        simpa [dispatchOutputs] using this
    | cons f0 rest =>
      cases k with
      | zero => simp at hk
      | succ k =>
        simp only [List.getElem?_cons_succ] at hn
        have := ih rest (j + 1) k now hn (by simp only [List.length_cons] at hk; omega)
        simpa [dispatchOutputs] using this

/-- C8 as stated fails for an empty input list.  With `M = 0` input files and
`R = 1`, of `n = 2` consecutive `DistributeTask` calls the first finds the Map
phase complete and changes the phase, and the second hands out the Reduce
task, although `min n M = 0`. -/
theorem C8_counterexample :
    ((MakeMaster [] 1).bind
        (fun m0 => run m0 [Event.distribute 0, Event.distribute 1])).map Prod.snd
      = some [Output.reply TaskReply.zero,
              Output.reply ⟨some (leaseReduce 1 1 (newReduceTask 0)), 0, false⟩] ∧
    min 2 ([] : List String).length = 0 ∧
    (leaseReduce 1 1 (newReduceTask 0)).TaskType = ReduceTask := by
  decide

/-- C8 (no duplicate assignment under repeated requests), amended to a
non-empty input list.  From a fresh coordinator with `M ≥ 1` input files, any
number of consecutive `DistributeTask` calls (no commit and no reaper pass in
between) all return; call number `k` (from 0), for `k < M`, hands out the Map
task of input file `k`, Running, with holder id `k + 1` and the clock value of
that call as begin time (so the tasks handed out are pairwise distinct, with
pairwise distinct holder ids); every call from number `M` on returns no task,
with `AllDone = false`. -/
theorem C8_repeated_dispatch_amended (files : List String) (R : Int) (hR : 0 ≤ R)
    (hne : files ≠ []) (nows : List Int) :
    ∃ m os, (MakeMaster files R).bind (fun m0 => run m0 (nows.map Event.distribute))
        = some (m, os) ∧
      os.length = nows.length ∧
      (∀ (k : Nat) (now : Int) (f : String), nows[k]? = some now → files[k]? = some f →
        os[k]? = some (Output.reply
          ⟨some { Addr := k, TaskType := MapTask, MapWorkerId := (k : Int) + 1,
                  ReduceWorkerId := 0, InputFile := f, BeginTime := now,
                  TaskStatus := Running }, R, false⟩)) ∧
      (∀ (k : Nat) (now : Int), nows[k]? = some now → files.length ≤ k →
        os[k]? = some (Output.reply ⟨none, 0, false⟩)) := by
  rcases run_dispatchState files R hne nows files 0 [] (by simp) (by simp) with ⟨m, hm⟩
  refine ⟨m, dispatchOutputs R files 0 nows, ?_, length_dispatchOutputs R nows files 0, ?_, ?_⟩
  · rw [MakeMaster_dispatchState files R hR]
    exact hm
  · intro k now f hn hf
    have := dispatchOutputs_task R nows files 0 k now f hn hf
    simpa [leaseMap, newMapTask] using this
  · intro k now hn hk
    exact dispatchOutputs_idle R nows files 0 k now hn hk

/-- Witness for the amended C8: three consecutive calls on the one-file job. -/
theorem C8_repeated_dispatch_amended_witness :
    (0 : Int) ≤ 1 ∧ ["a"] ≠ ([] : List String) ∧
    ∃ m os, (MakeMaster ["a"] 1).bind
        (fun m0 => run m0 (([0, 1, 2] : List Int).map Event.distribute)) = some (m, os) ∧
      os.length = ([0, 1, 2] : List Int).length ∧
      (∀ (k : Nat) (now : Int) (f : String), ([0, 1, 2] : List Int)[k]? = some now →
        ["a"][k]? = some f →
        os[k]? = some (Output.reply
          ⟨some { Addr := k, TaskType := MapTask, MapWorkerId := (k : Int) + 1,
                  ReduceWorkerId := 0, InputFile := f, BeginTime := now,
                  TaskStatus := Running }, 1, false⟩)) ∧
      (∀ (k : Nat) (now : Int), ([0, 1, 2] : List Int)[k]? = some now → ["a"].length ≤ k →
        os[k]? = some (Output.reply ⟨none, 0, false⟩)) :=
  ⟨by decide, by decide, C8_repeated_dispatch_amended ["a"] 1 (by decide) (by decide) [0, 1, 2]⟩

/-! ### The dispatch reply -/

/-- The fields of a dispatch reply that carries a task, in a well-formed state:
`AllDone` is false; `NReduce` is the reduce count with a Map task and is left
at zero with a Reduce task. -/
theorem DistributeTask_reply_fields {files : List String} {R : Int} {m m1 : Master}
    (hw : WF files R m) {now : Int} {r : TaskReply} {t : Task}
    (h : DistributeTask m now = some (m1, r)) (hr : r.Task = some t) :
    r.AllDone = false ∧ (t.TaskType = MapTask → r.NReduce = R) ∧
      (t.TaskType = ReduceTask → r.NReduce = 0) := by
  cases hp : m.DistributePhase with
  | MapPhase =>
    rcases DistributeTask_map hw hp now with
      ⟨pre, t0, post, e, _, _, heq⟩ | ⟨_, heq⟩ | ⟨pre, t0, post, e, _, _, _, heq⟩
    · rw [heq] at h; cases h
      simp only [Option.some.injEq] at hr
      subst hr
      have hmem : t0 ∈ m.MapChannel.buf := by rw [e]; simp
      refine ⟨rfl, fun _ => hw.hRedNum, fun ht => ?_⟩
      rw [leaseMap_TaskType, hw.mapType hmem] at ht
      cases ht
    · rw [heq] at h; cases h; cases hr
    · rw [heq] at h; cases h; cases hr
  | ReducePhase =>
    rcases DistributeTask_reduce hw hp now with
      ⟨pre, t0, post, e, _, _, heq⟩ | ⟨_, heq⟩ | ⟨pre, t0, post, e, _, _, _, heq⟩
    · rw [heq] at h; cases h
      simp only [Option.some.injEq] at hr
      subst hr
      have hmem : t0 ∈ m.ReduceChannel.buf := by rw [e]; simp
      refine ⟨rfl, fun ht => ?_, fun _ => rfl⟩
      rw [leaseReduce_TaskType, hw.redType hmem] at ht
      cases ht
    · rw [heq] at h; cases h; cases hr
    · rw [heq] at h; cases h; cases hr

/-- When `DistributeTask` replies `AllDone = true`, in a well-formed state. -/
theorem DistributeTask_allDone_iff {files : List String} {R : Int} {m : Master}
    (hw : WF files R m) (now : Int) :
    ∃ m1 r, DistributeTask m now = some (m1, r) ∧
      (r.AllDone = true ↔
        (m.DistributePhase = ReducePhase ∧ ∀ t ∈ m.ReduceChannel.buf, t.TaskStatus = Finished)) ∧
      (r.AllDone = true → r.Task = none ∧ m1 = m) := by
  cases hp : m.DistributePhase with
  | MapPhase =>
    have hno : ¬ (MapPhase = ReducePhase ∧ ∀ t ∈ m.ReduceChannel.buf, t.TaskStatus = Finished) :=
      fun h => by cases h.1
    rcases DistributeTask_map hw hp now with
      ⟨pre, t0, post, e, _, _, heq⟩ | ⟨_, heq⟩ | ⟨pre, t0, post, e, _, _, _, heq⟩
    · exact ⟨_, _, heq, ⟨fun h => (by cases h), fun h => absurd h hno⟩, fun h => (by cases h)⟩
    · exact ⟨_, _, heq, ⟨fun h => (by cases h), fun h => absurd h hno⟩, fun h => (by cases h)⟩
    · exact ⟨_, _, heq, ⟨fun h => (by cases h), fun h => absurd h hno⟩, fun h => (by cases h)⟩
  | ReducePhase =>
    rcases DistributeTask_reduce hw hp now with
      ⟨pre, t0, post, e, _, ht0, heq⟩ | ⟨hfin, heq⟩ | ⟨pre, t0, post, e, _, _, ht0, heq⟩
    · refine ⟨_, _, heq, ⟨fun h => (by cases h), fun h => ?_⟩, fun h => (by cases h)⟩
      have := h.2 t0 (by rw [e]; simp)
      rw [ht0] at this; cases this
    · exact ⟨_, _, heq, ⟨fun _ => ⟨rfl, hfin⟩, fun _ => rfl⟩, fun _ => ⟨rfl, rfl⟩⟩
    · refine ⟨_, _, heq, ⟨fun h => (by cases h), fun h => ?_⟩, fun h => (by cases h)⟩
      exact absurd (h.2 t0 (by rw [e]; simp)) ht0

/-! ### The completion flag -/

theorem WF.afterFinish {files : List String} {R : Int} {m : Master} (hw : WF files R m) :
    WF files R (finish m) :=
  { hFiles := hw.hFiles, hMapNum := hw.hMapNum, hRedNum := hw.hRedNum, hR := hw.hR,
    hMapCap := hw.hMapCap, hRedCap := hw.hRedCap, hMapStatic := hw.hMapStatic,
    hRedStatic := hw.hRedStatic, hRedEmpty := hw.hRedEmpty, hGate := hw.hGate,
    hWid := hw.hWid, hIds := hw.hIds, hUniq := hw.hUniq }

theorem sysStep_call_some {s s1 : Sys} {e : Event} {o : Output}
    (h : sysStep s (SysEvent.call e) = some (s1, o)) :
    ∃ m1, step s.m e = some (m1, o) ∧
      s1 = ⟨m1, if o.allDone then s.finishPending + 1 else s.finishPending⟩ := by
  simp only [MR.sysStep] at h
  cases hs : step s.m e with
  | none => rw [hs] at h; cases h
  | some x =>
    rcases x with ⟨m1, o1⟩
    rw [hs] at h
    simp only [Option.some.injEq, Prod.mk.injEq] at h
    rcases h with ⟨h1, h2⟩
    subst h2
    exact ⟨m1, rfl, h1.symm⟩

theorem sysStep_finish_some {s s1 : Sys} {o : Output}
    (h : sysStep s SysEvent.finish = some (s1, o)) :
    0 < s.finishPending ∧ s1 = ⟨finish s.m, s.finishPending - 1⟩ ∧ o = Output.silent := by
  simp only [MR.sysStep] at h
  cases hk : s.finishPending with
  | zero => rw [hk] at h; cases h
  | succ k =>
    rw [hk] at h
    simp only [Option.some.injEq, Prod.mk.injEq] at h
    exact ⟨Nat.succ_pos k, h.1.symm, h.2.symm⟩

theorem WF.sysStep {files : List String} {R : Int} {s s1 : Sys} (hw : WF files R s.m)
    {e : SysEvent} {o : Output} (h : sysStep s e = some (s1, o)) : WF files R s1.m := by
  cases e with
  | call e =>
    rcases sysStep_call_some h with ⟨m1, hs, rfl⟩
    exact hw.step hs
  | finish =>
    rcases sysStep_finish_some h with ⟨_, rfl, _⟩
    exact hw.afterFinish

theorem sysRun_cons_some {s s2 : Sys} {e : SysEvent} {es : List SysEvent} {os : List Output}
    (h : sysRun s (e :: es) = some (s2, os)) :
    ∃ s1 o os1, sysStep s e = some (s1, o) ∧ sysRun s1 es = some (s2, os1) ∧ os = o :: os1 := by
  unfold sysRun at h
  cases hs : sysStep s e with
  | none => rw [hs] at h; cases h
  | some x =>
    rcases x with ⟨s1, o⟩
    rw [hs] at h
    simp only at h
    cases hr : sysRun s1 es with
    | none => rw [hr] at h; cases h
    | some y =>
      rcases y with ⟨s3, os1⟩
      rw [hr] at h
      cases h
      exact ⟨s1, o, os1, rfl, hr, rfl⟩

theorem WF.sysRun {files : List String} {R : Int} :
    ∀ (es : List SysEvent) {s s1 : Sys} {os : List Output}, WF files R s.m →
      sysRun s es = some (s1, os) → WF files R s1.m := by
  intro es
  induction es with
  | nil =>
    intro s s1 os hw h
    simp only [MR.sysRun, Option.some.injEq, Prod.mk.injEq] at h
    rw [← h.1]; exact hw
  | cons e es ih =>
    intro s s1 os hw h
    rcases sysRun_cons_some h with ⟨s2, o, os1, hs, hr, _⟩
    exact ih (hw.sysStep hs) hr

theorem SysReachable.wellFormed {files : List String} {R : Int} {s : Sys}
    (h : SysReachable files R s) : WF files R s.m := by
  rcases h with ⟨m0, es, os, h0, hr⟩
  exact WF.sysRun es (WF_init h0) hr

/-- Once in the Reduce phase with every Reduce task Finished, always so. -/
theorem Effect.allReduceDone {R : Int} {m m1 : Master} (he : Effect R m m1)
    (hp : m.DistributePhase = ReducePhase)
    (hfin : ∀ t ∈ m.ReduceChannel.buf, t.TaskStatus = Finished) :
    m1.DistributePhase = ReducePhase ∧ ∀ t ∈ m1.ReduceChannel.buf, t.TaskStatus = Finished := by
  refine ⟨he.phase_mono hp, ?_⟩
  cases he with
  | upd s0 hF hMN hRN hMC hRC hP hW hMs hRs hM hRd =>
    intro y hy
    rcases hRd y hy with ⟨x, hx, hu⟩
    exact hu.2.1 (hfin x hx)
  | toReduce hp1 _ _ => rw [hp] at hp1; cases hp1

theorem sysRun_allReduceDone {files : List String} {R : Int} :
    ∀ (es : List SysEvent) {s s1 : Sys} {os : List Output}, WF files R s.m →
      sysRun s es = some (s1, os) → s.m.DistributePhase = ReducePhase →
      (∀ t ∈ s.m.ReduceChannel.buf, t.TaskStatus = Finished) →
      s1.m.DistributePhase = ReducePhase ∧
        ∀ t ∈ s1.m.ReduceChannel.buf, t.TaskStatus = Finished := by
  intro es
  induction es with
  | nil =>
    intro s s1 os _ h hp hfin
    simp only [MR.sysRun, Option.some.injEq, Prod.mk.injEq] at h
    rw [← h.1]; exact ⟨hp, hfin⟩
  | cons e es ih =>
    intro s s1 os hw h hp hfin
    rcases sysRun_cons_some h with ⟨s2, o, os1, hs, hr, _⟩
    have hw2 := hw.sysStep hs
    cases e with
    | call e =>
      rcases sysStep_call_some hs with ⟨m1, hst, rfl⟩
      have := (effect_step hw hst).allReduceDone hp hfin
      exact ih hw2 hr this.1 this.2
    | finish =>
      rcases sysStep_finish_some hs with ⟨_, rfl, _⟩
      exact ih hw2 hr hp hfin

theorem step_IsDone {files : List String} {R : Int} {m m1 : Master} (hw : WF files R m)
    {e : Event} {o : Output} (h : step m e = some (m1, o)) : m1.IsDone = m.IsDone := by
  cases e with
  | distribute now =>
    simp only [MR.step, Option.map_eq_some'] at h
    rcases h with ⟨⟨m2, r⟩, h1, h2⟩
    cases h2
    cases hp : m.DistributePhase with
    | MapPhase =>
      rcases DistributeTask_map hw hp now with
        ⟨pre, t0, post, e, _, _, heq⟩ | ⟨_, heq⟩ | ⟨pre, t0, post, e, _, _, _, heq⟩ <;>
      · rw [heq] at h1; cases h1; rfl
    | ReducePhase =>
      rcases DistributeTask_reduce hw hp now with
        ⟨pre, t0, post, e, _, _, heq⟩ | ⟨_, heq⟩ | ⟨pre, t0, post, e, _, _, _, heq⟩ <;>
      · rw [heq] at h1; cases h1; rfl
  | mapDone args now =>
    simp only [MR.step, Option.map_eq_some'] at h
    rcases h with ⟨⟨m2, r⟩, h1, h2⟩
    cases h2
    rcases MapTaskDone_spec hw args now with ⟨ys, r0, _, heq⟩
    rw [heq] at h1; cases h1; rfl
  | reduceDone args =>
    simp only [MR.step, Option.map_eq_some'] at h
    rcases h with ⟨⟨m2, r⟩, h1, h2⟩
    cases h2
    cases hp : m.DistributePhase with
    | MapPhase =>
      rw [ReduceTaskDone_mapPhase hw hp] at h1
      by_cases h0 : R = 0
      · rw [if_pos h0] at h1; cases h1; rfl
      · rw [if_neg h0] at h1; cases h1
    | ReducePhase =>
      rcases ReduceTaskDone_spec hw hp args with ⟨ys, r0, _, heq⟩
      rw [heq] at h1; cases h1; rfl
  | reaper now =>
    simp only [MR.step, Option.map_eq_some'] at h
    rcases h with ⟨m2, h1, h2⟩
    cases h2
    cases hp : m.DistributePhase with
    | MapPhase => rw [reaperPass_map hw hp] at h1; cases h1; rfl
    | ReducePhase => rw [reaperPass_reduce hw hp] at h1; cases h1; rfl

/-- A run at whose end `IsDone` is set or a `finish` goroutine is pending
started in such a state or contains a reply with `AllDone = true`. -/
theorem sysRun_done_cause {files : List String} {R : Int} :
    ∀ (es : List SysEvent) {s s1 : Sys} {os : List Output}, WF files R s.m →
      sysRun s es = some (s1, os) → (s1.m.IsDone = true ∨ 0 < s1.finishPending) →
      (s.m.IsDone = true ∨ 0 < s.finishPending) ∨ ∃ o ∈ os, o.allDone = true := by
  intro es
  induction es with
  | nil =>
    intro s s1 os _ h hd
    simp only [MR.sysRun, Option.some.injEq, Prod.mk.injEq] at h
    rw [← h.1] at hd; exact Or.inl hd
  | cons e es ih =>
    intro s s1 os hw h hd
    rcases sysRun_cons_some h with ⟨s2, o, os1, hs, hr, rfl⟩
    rcases ih (hw.sysStep hs) hr hd with h2 | ⟨o1, ho1, hall⟩
    · cases e with
      | call e =>
        rcases sysStep_call_some hs with ⟨m1, hst, rfl⟩
        have hid := step_IsDone hw hst
        by_cases hall : o.allDone = true
        · exact Or.inr ⟨o, List.mem_cons_self _ _, hall⟩
        · left
          simp only [hall, if_false, Bool.false_eq_true] at h2
          rw [hid] at h2
          exact h2
      | finish =>
        rcases sysStep_finish_some hs with ⟨hpos, _, _⟩
        exact Or.inl (Or.inr hpos)
    · exact Or.inr ⟨o1, List.mem_cons_of_mem _ ho1, hall⟩

theorem MakeMaster_IsDone {files : List String} {R : Int} {m : Master}
    (h : MakeMaster files R = some m) : m.IsDone = false := by
  by_cases hR : 0 ≤ R
  · rw [MakeMaster_eq files R hR] at h
    cases h; rfl
  · unfold MakeMaster at h
    rw [if_pos (not_le.1 hR)] at h
    cases h

/-- C11 (reply carries R), evaluated where the code departs from it.  In the
reachable state `demoReduce` the reduce count is 1 and `DistributeTask`
returns the Reduce task, with `AllDone = false` but `NReduce = 0`: the Reduce
branch never assigns `reply.NReduce`.  The Map branch does: the reply of the
first call on `demoInit` has `NReduce = 1`. -/
theorem C11_reduce_reply_without_nreduce :
    Reachable ["a"] 1 demoReduce ∧ demoReduce.ReduceNum = 1 ∧
    DistributeTask demoReduce 3
      = some (demoReduceLeased, ⟨some (leaseReduce 2 3 (newReduceTask 0)), 0, false⟩) ∧
    (leaseReduce 2 3 (newReduceTask 0)).TaskType = ReduceTask ∧
    (0 : Int) ≠ demoReduce.ReduceNum ∧
    MakeMaster ["a"] 1 = some demoInit ∧
    DistributeTask demoInit 0
      = some (demoLeased, ⟨some (leaseMap 1 0 (newMapTask 0 "a")), 1, false⟩) :=
  ⟨reachable_of_run (demoEvents.take 3) (by decide), by decide, by decide, by decide,
   by decide, by decide, by decide⟩

/-- C12 (completion signal).  In every state `s` of the coordinator process,
reached by a run with outputs `os`: `DistributeTask` returns, and its reply has
`AllDone = true` if and only if the phase is Reduce and every Reduce task is
Finished; such a reply carries no task; after such a reply, whatever steps
follow, every `DistributeTask` call also replies `AllDone = true`; and if
`Done()` is true in `s`, one of the replies given on the way to `s` had
`AllDone = true`. -/
theorem C12_completion_signal (files : List String) (R : Int) (m0 : Master)
    (es : List SysEvent) (s : Sys) (os : List Output)
    (h0 : MakeMaster files R = some m0) (hr : sysRun ⟨m0, 0⟩ es = some (s, os)) (now : Int) :
    (∃ m1 r, DistributeTask s.m now = some (m1, r) ∧
      (r.AllDone = true ↔
        (s.m.DistributePhase = ReducePhase ∧
          ∀ t ∈ s.m.ReduceChannel.buf, t.TaskStatus = Finished)) ∧
      (r.AllDone = true → r.Task = none) ∧
      (r.AllDone = true →
        ∀ (es2 : List SysEvent) (s2 : Sys) (os2 : List Output) (now2 : Int),
          sysRun ⟨m1, s.finishPending + 1⟩ es2 = some (s2, os2) →
          ∃ m3 r3, DistributeTask s2.m now2 = some (m3, r3) ∧ r3.AllDone = true)) ∧
    (Done s.m = true → ∃ o ∈ os, o.allDone = true) := by
  have hw0 : WF files R (Sys.mk m0 0).m := WF_init h0
  have hw : WF files R s.m := WF.sysRun es hw0 hr
  constructor
  · rcases DistributeTask_allDone_iff hw now with ⟨m1, r, hd, hiff, hnone⟩
    refine ⟨m1, r, hd, hiff, fun h => (hnone h).1, ?_⟩
    intro hall es2 s2 os2 now2 hr2
    have hm : m1 = s.m := (hnone hall).2
    rw [hm] at hr2
    have hdone := hiff.1 hall
    have hw2 : WF files R s2.m := WF.sysRun (s := ⟨s.m, s.finishPending + 1⟩) es2 hw hr2
    have hd2 := sysRun_allReduceDone (s := ⟨s.m, s.finishPending + 1⟩) es2 hw hr2
      hdone.1 hdone.2
    rcases DistributeTask_allDone_iff hw2 now2 with ⟨m3, r3, hd3, hiff3, _⟩
    exact ⟨m3, r3, hd3, hiff3.2 hd2⟩
  · intro hdone
    rcases sysRun_done_cause es hw0 hr (Or.inl hdone) with h | h
    · rcases h with h | h
      · have := MakeMaster_IsDone h0
        rw [this] at h; cases h
      · exact absurd h (Nat.lt_irrefl 0)
    · exact h

/-- Witness for C12: the whole life of the one-file job, `demoSysEvents`, at
whose end `Done()` is true. -/
theorem C12_completion_signal_witness :
    MakeMaster ["a"] 1 = some demoInit ∧
    sysRun ⟨demoInit, 0⟩ demoSysEvents = some (⟨finish demoFinished, 0⟩, demoSysOutputs) ∧
    Done (finish demoFinished) = true ∧
    (∃ m1 r, DistributeTask (finish demoFinished) 6 = some (m1, r) ∧
      (r.AllDone = true ↔
        ((finish demoFinished).DistributePhase = ReducePhase ∧
          ∀ t ∈ (finish demoFinished).ReduceChannel.buf, t.TaskStatus = Finished)) ∧
      (r.AllDone = true → r.Task = none) ∧
      (r.AllDone = true →
        ∀ (es2 : List SysEvent) (s2 : Sys) (os2 : List Output) (now2 : Int),
          sysRun ⟨m1, 0 + 1⟩ es2 = some (s2, os2) →
          ∃ m3 r3, DistributeTask s2.m now2 = some (m3, r3) ∧ r3.AllDone = true)) ∧
    (Done (finish demoFinished) = true → ∃ o ∈ demoSysOutputs, o.allDone = true) :=
  ⟨by decide, by decide, by decide,
   C12_completion_signal ["a"] 1 demoInit demoSysEvents ⟨finish demoFinished, 0⟩
     demoSysOutputs (by decide) (by decide) 6⟩

/-! ### The task sets -/

theorem static_mapTasksFrom : ∀ (files : List String) (i : Nat),
    (mapTasksFrom files i).map Task.static
      = (files.enumFrom i).map (fun p => (p.1, MapTask, p.2)) := by
  intro files
  induction files with
  | nil => intro i; rfl
  | cons f rest ih =>
    intro i
    simp only [mapTasksFrom, List.map_cons, List.enumFrom_cons, ih]
    rfl

theorem static_reduceTasksFrom : ∀ (k i : Nat),
    (reduceTasksFrom k i).map Task.static
      = (List.range' i k).map (fun y => (y, ReduceTask, TempFilePath ++ "mr-*-" ++ toString y)) := by
  intro k
  induction k with
  | zero => intro i; rfl
  | succ k ih =>
    intro i
    simp only [reduceTasksFrom, List.map_cons, List.range'_succ, ih]
    rfl

theorem phaseChanges_le {files : List String} {R : Int} :
    ∀ (es : List Event) {m : Master}, WF files R m →
      phaseChanges m es ≤ 1 ∧ (m.DistributePhase = ReducePhase → phaseChanges m es = 0) := by
  intro es
  induction es with
  | nil => intro m _; exact ⟨Nat.zero_le _, fun _ => rfl⟩
  | cons e es ih =>
    intro m hw
    unfold phaseChanges
    cases hs : step m e with
    | none => exact ⟨Nat.zero_le _, fun _ => rfl⟩
    | some x =>
      rcases x with ⟨m1, o⟩
      have hw1 := hw.step hs
      have ih1 := ih hw1
      have hmono := (effect_step hw hs).phase_mono
      simp only
      constructor
      · by_cases hc : m.DistributePhase = MapPhase ∧ m1.DistributePhase = ReducePhase
        · rw [if_pos hc, ih1.2 hc.2]
        · rw [if_neg hc]; have := ih1.1; omega
      · intro hp
        have hc : ¬ (m.DistributePhase = MapPhase ∧ m1.DistributePhase = ReducePhase) := by
          intro hc; rw [hp] at hc; cases hc.1
        rw [if_neg hc, ih1.2 (hmono hp)]

/-- C13 (task sets are fixed).  In every reachable state the Map queue holds
exactly `|files|` tasks, and its tasks, as identified by position number, kind
and input file, are a rotation of the sequence created for the input files in
order; throughout the Map phase the Reduce queue is empty; throughout the
Reduce phase it holds exactly `R` tasks, a rotation of the sequence of one
task per shard `Y = 0, ..., R-1` with input pattern
`TempFilePath + "mr-*-Y"`; and along any further run the step from the Map
phase to the Reduce phase, in which the Reduce tasks are created, is taken at
most once. -/
theorem C13_task_sets_fixed (files : List String) (R : Int) (m : Master)
    (h : Reachable files R m) :
    m.MapChannel.buf.length = files.length ∧
    List.IsRotated (m.MapChannel.buf.map Task.static)
      (files.enum.map (fun p => (p.1, MapTask, p.2))) ∧
    (m.DistributePhase = MapPhase → m.ReduceChannel.buf = []) ∧
    (m.DistributePhase = ReducePhase →
      m.ReduceChannel.buf.length = R.toNat ∧
      List.IsRotated (m.ReduceChannel.buf.map Task.static)
        ((List.range R.toNat).map
          (fun y => (y, ReduceTask, TempFilePath ++ "mr-*-" ++ toString y)))) ∧
    (∀ (es : List Event), phaseChanges m es ≤ 1) := by
  have hw := h.wf
  refine ⟨hw.mapLen, ?_, hw.hRedEmpty, ?_, fun es => (phaseChanges_le es hw).1⟩
  · have := hw.hMapStatic
    rw [static_mapTasksFrom] at this
    exact this
  · intro hp
    refine ⟨hw.redLen hp, ?_⟩
    have := hw.hRedStatic hp
    rw [static_reduceTasksFrom, ← List.range_eq_range'] at this
    exact this

/-- Witness for C13: the state `demoReduceLeased`, and the run `demoEvents`
from `demoInit`, which changes the phase once. -/
theorem C13_task_sets_fixed_witness :
    Reachable ["a"] 1 demoInit ∧ phaseChanges demoInit demoEvents = 1 ∧
    Reachable ["a"] 1 demoReduceLeased ∧
    demoReduceLeased.MapChannel.buf.length = ["a"].length ∧
    List.IsRotated (demoReduceLeased.MapChannel.buf.map Task.static)
      (["a"].enum.map (fun p => (p.1, MapTask, p.2))) ∧
    (demoReduceLeased.DistributePhase = MapPhase → demoReduceLeased.ReduceChannel.buf = []) ∧
    (demoReduceLeased.DistributePhase = ReducePhase →
      demoReduceLeased.ReduceChannel.buf.length = Int.toNat 1 ∧
      List.IsRotated (demoReduceLeased.ReduceChannel.buf.map Task.static)
        ((List.range (Int.toNat 1)).map
          (fun y => (y, ReduceTask, TempFilePath ++ "mr-*-" ++ toString y)))) ∧
    (∀ (es : List Event), phaseChanges demoReduceLeased es ≤ 1) :=
  ⟨reachable_of_run [] (by decide), by decide, reachable_of_run demoEvents (by decide),
   C13_task_sets_fixed ["a"] 1 demoReduceLeased (reachable_of_run demoEvents (by decide))⟩

/-- C19 (lease expiry pass).  In every reachable state one reaper pass at clock
value `now` returns; it leaves the phase, the `WorkerId` counter and the queue
of the other phase unchanged; and the queue of the current phase keeps its
order, each task in it being reset to Ready when it is Running with
`now - BeginTime ≥ 10 s` (a lease aged exactly 10 s included) and left
untouched otherwise. -/
theorem C19_lease_expiry_pass (files : List String) (R : Int) (s : Master)
    (hs : Reachable files R s) (now : Int) :
    ∃ s1, reaperPass s now = some s1 ∧
      s1.DistributePhase = s.DistributePhase ∧ s1.WorkerId = s.WorkerId ∧
      s1.phaseTasks = s.phaseTasks.map (fun t =>
        if t.TaskStatus = Running ∧ 10 * Second ≤ now - t.BeginTime then
          { t with TaskStatus := Ready }
        else t) ∧
      (s.DistributePhase = MapPhase → s1.ReduceChannel = s.ReduceChannel) ∧
      (s.DistributePhase = ReducePhase → s1.MapChannel = s.MapChannel) ∧
      s1.MapChannel.cap = s.MapChannel.cap ∧ s1.ReduceChannel.cap = s.ReduceChannel.cap := by
  have hw := hs.wf
  have hfun : removeTimeoutTask now = (fun t =>
      if t.TaskStatus = Running ∧ 10 * Second ≤ now - t.BeginTime then
        { t with TaskStatus := Ready }
      else t) := by
    funext t; exact removeTimeoutTask_eq now t
  cases hp : s.DistributePhase with
  | MapPhase =>
    refine ⟨_, reaperPass_map hw hp now, hp, rfl, ?_, fun _ => rfl, fun h => (by cases h),
      rfl, rfl⟩
    rw [← hfun]
    unfold Master.phaseTasks
    simp only [hp]
  | ReducePhase =>
    refine ⟨_, reaperPass_reduce hw hp now, hp, rfl, ?_, fun h => (by cases h), fun _ => rfl,
      rfl, rfl⟩
    rw [← hfun]
    unfold Master.phaseTasks
    simp only [hp]

/-- Witness for C19: the reaper pass at clock 10 s in `demoLeased`, whose Map
task was leased at clock 0: its lease is aged exactly 10 s and expires. -/
theorem C19_lease_expiry_pass_witness :
    Reachable ["a"] 1 demoLeased ∧
    reaperPass demoLeased 10000000000 = some demoExpired ∧
    demoExpired.phaseTasks = [{ leaseMap 1 0 (newMapTask 0 "a") with TaskStatus := Ready }] ∧
    ∃ s1, reaperPass demoLeased 10000000000 = some s1 ∧
      s1.DistributePhase = demoLeased.DistributePhase ∧ s1.WorkerId = demoLeased.WorkerId ∧
      s1.phaseTasks = demoLeased.phaseTasks.map (fun t =>
        if t.TaskStatus = Running ∧ 10 * Second ≤ 10000000000 - t.BeginTime then
          { t with TaskStatus := Ready }
        else t) ∧
      (demoLeased.DistributePhase = MapPhase → s1.ReduceChannel = demoLeased.ReduceChannel) ∧
      (demoLeased.DistributePhase = ReducePhase → s1.MapChannel = demoLeased.MapChannel) ∧
      s1.MapChannel.cap = demoLeased.MapChannel.cap ∧
      s1.ReduceChannel.cap = demoLeased.ReduceChannel.cap :=
  ⟨reachable_of_run (demoEvents.take 1) (by decide), by decide, by decide,
   C19_lease_expiry_pass ["a"] 1 demoLeased
     (reachable_of_run (demoEvents.take 1) (by decide)) 10000000000⟩

/-! ### Output names of the Reduce tasks -/

theorem lastByte_pattern_of_lt_ten (Y : Nat) (hY : Y < 10) :
    lastByte (TempFilePath ++ "mr-*-" ++ toString Y) = some (toString Y) := by
  interval_cases Y <;> decide

theorem outName_injective_of_lt_ten (Y1 Y2 : Nat) (h1 : Y1 < 10) (h2 : Y2 < 10)
    (h : TempFilePath ++ ("mr-out-" ++ toString Y1) = TempFilePath ++ ("mr-out-" ++ toString Y2)) :
    Y1 = Y2 := by
  interval_cases Y1 <;> interval_cases Y2 <;> first | rfl | (exfalso; revert h; decide)

/-- C14 (Reduce output naming), evaluated where the code departs from it.  With
`R = 11` the Reduce task of shard 10 has the input pattern
`/var/tmp/mr-*-10`; `writeReduceResToTempFiles` takes only the last character
of the pattern and names the output `/var/tmp/mr-out-0`, not `mr-out-10`,
which is also the output name of the Reduce task of shard 0. -/
theorem C14_output_name_collision :
    ((MakeMaster ["a"] 11).map fun m => m.ReduceNum) = some 11 ∧
    newReduceTask 0 ∈ reduceTasksFrom (Int.toNat 11) 0 ∧
    newReduceTask 10 ∈ reduceTasksFrom (Int.toNat 11) 0 ∧
    (newReduceTask 10).InputFile = "/var/tmp/mr-*-10" ∧
    (writeReduceResToTempFiles (newReduceTask 10) []).map Prod.fst
      = some ["/var/tmp/mr-out-0"] ∧
    (writeReduceResToTempFiles (newReduceTask 0) []).map Prod.fst
      = some ["/var/tmp/mr-out-0"] ∧
    "/var/tmp/mr-out-0" ≠ TempFilePath ++ "mr-out-" ++ toString (10 : Nat) := by
  decide

/-- C20 (last-character reduce id, `R ≤ 10`).  For every reduce count `R` with
`1 ≤ R ≤ 10` and every shard `Y < R`: the last character of the input pattern
`TempFilePath + "mr-*-Y"` of the Reduce task of shard `Y` is the decimal digit
of `Y`, so for every task with that pattern and every list of records
`writeReduceResToTempFiles` returns the single file `TempFilePath + "mr-out-Y"`;
and the output names of different shards below `R` differ.  The count 10
passed by `mrmaster.go` is such an `R`. -/
theorem C20_last_character_reduce_id (R : Int) (hR1 : 1 ≤ R) (hR10 : R ≤ 10) :
    (∀ (Y : Nat), (Y : Int) < R → ∀ (task : Task) (recs : List KeyValue),
      task.InputFile = (newReduceTask Y).InputFile →
      newReduceTask Y ∈ reduceTasksFrom R.toNat 0 ∧
      lastByte task.InputFile = some (toString Y) ∧
      writeReduceResToTempFiles task recs
        = some ([TempFilePath ++ ("mr-out-" ++ toString Y)],
                String.join (recs.map outputLine))) ∧
    (∀ (Y1 Y2 : Nat), (Y1 : Int) < R → (Y2 : Int) < R → Y1 ≠ Y2 →
      TempFilePath ++ ("mr-out-" ++ toString Y1) ≠ TempFilePath ++ ("mr-out-" ++ toString Y2)) ∧
    (1 ≤ mrmasterNReduce ∧ mrmasterNReduce ≤ 10) := by
  refine ⟨?_, ?_, by decide⟩
  · intro Y hY task recs htask
    have hY10 : Y < 10 := by omega
    have hlast : lastByte task.InputFile = some (toString Y) := by
      rw [htask]; exact lastByte_pattern_of_lt_ten Y hY10
    refine ⟨?_, hlast, ?_⟩
    · have hmem : ∀ (k i Y : Nat), i ≤ Y → Y < i + k → newReduceTask Y ∈ reduceTasksFrom k i := by
        intro k
        induction k with
        | zero => intro i Y h1 h2; omega
        | succ k ih =>
          intro i Y h1 h2
          simp only [reduceTasksFrom, List.mem_cons]
          by_cases e : Y = i
          · left; rw [e]
          · right; exact ih (i + 1) Y (by omega) (by omega)
      exact hmem R.toNat 0 Y (Nat.zero_le _) (by omega)
    · unfold writeReduceResToTempFiles
      rw [hlast]
  · intro Y1 Y2 h1 h2 hne heq
    exact hne (outName_injective_of_lt_ten Y1 Y2 (by omega) (by omega) heq)

/-- Witness for C20: the reduce count 10 of `mrmaster.go`. -/
theorem C20_last_character_reduce_id_witness :
    (1 : Int) ≤ 10 ∧ (10 : Int) ≤ 10 ∧
    (∀ (Y : Nat), (Y : Int) < 10 → ∀ (task : Task) (recs : List KeyValue),
      task.InputFile = (newReduceTask Y).InputFile →
      newReduceTask Y ∈ reduceTasksFrom (Int.toNat 10) 0 ∧
      lastByte task.InputFile = some (toString Y) ∧
      writeReduceResToTempFiles task recs
        = some ([TempFilePath ++ ("mr-out-" ++ toString Y)],
                String.join (recs.map outputLine))) ∧
    (∀ (Y1 Y2 : Nat), (Y1 : Int) < 10 → (Y2 : Int) < 10 → Y1 ≠ Y2 →
      TempFilePath ++ ("mr-out-" ++ toString Y1) ≠ TempFilePath ++ ("mr-out-" ++ toString Y2)) ∧
    (1 ≤ mrmasterNReduce ∧ mrmasterNReduce ≤ 10) :=
  ⟨by decide, by decide, C20_last_character_reduce_id 10 (by decide) (by decide)⟩

/-! ### Partition of the Map output -/

theorem ihash_nonneg (key : String) : 0 ≤ ihash key := by
  unfold ihash
  exact Int.ofNat_nonneg _

theorem ihash_lt (key : String) : ihash key < 2 ^ 31 := by
  unfold ihash
  have h : fnv32a (utf8Bytes key) &&& 2147483647 < 2 ^ 31 :=
    Nat.and_lt_two_pow _ (by norm_num)
  exact_mod_cast h

theorem appendAt_spec : ∀ (bs : List (List KeyValue)) (i : Nat) (kv : KeyValue),
    i < bs.length →
    ∃ out, appendAt bs i kv = some out ∧ out.length = bs.length ∧
      ∀ Y, out[Y]? = if Y = i then bs[Y]?.map (fun b => b ++ [kv]) else bs[Y]? := by
  intro bs
  induction bs with
  | nil => intro i kv h; simp at h
  | cons b bs ih =>
    intro i kv h
    cases i with
    | zero =>
      refine ⟨(b ++ [kv]) :: bs, rfl, rfl, ?_⟩
      intro Y
      cases Y with
      | zero => simp
      | succ Y => simp
    | succ i =>
      rcases ih i kv (by simpa using h) with ⟨out, ho, hl, hget⟩
      refine ⟨b :: out, by simp [appendAt, ho], by simp [hl], ?_⟩
      intro Y
      cases Y with
      | zero => simp
      | succ Y => simp [hget Y]

theorem cutLoop_spec (R : Int) (hR : 1 ≤ R) :
    ∀ (recs : List KeyValue) (cutRes : List (List KeyValue)), cutRes.length = R.toNat →
    ∃ out, cutLoop R recs cutRes = some out ∧ out.length = R.toNat ∧
      ∀ Y, out[Y]? = cutRes[Y]?.map
        (fun b => b ++ recs.filter (fun kv => decide ((ihash kv.Key % R).toNat = Y))) := by
  intro recs
  induction recs with
  | nil =>
    intro cutRes hlen
    refine ⟨cutRes, rfl, hlen, ?_⟩
    intro Y
    cases h : cutRes[Y]? <;> simp
  | cons kv rest ih =>
    intro cutRes hlen
    have hne : R ≠ 0 := by omega
    have htm : Int.tmod (ihash kv.Key) R = ihash kv.Key % R :=
      Int.tmod_eq_emod (ihash_nonneg _) (by omega)
    have hnn : 0 ≤ ihash kv.Key % R := Int.emod_nonneg _ hne
    have hlt : ihash kv.Key % R < R := Int.emod_lt_of_pos _ (by omega)
    have hidx : (ihash kv.Key % R).toNat < cutRes.length := by
      rw [hlen]; omega
    rcases appendAt_spec cutRes _ kv hidx with ⟨c1, hc1, hl1, hget1⟩
    rcases ih c1 (by rw [hl1, hlen]) with ⟨out, ho, hlo, hgeto⟩
    refine ⟨out, ?_, hlo, ?_⟩
    · unfold cutLoop
      rw [if_neg hne, htm, if_neg (not_lt.2 hnn), hc1]
      exact ho
    · intro Y
      rw [hgeto Y, hget1 Y]
      by_cases hY : Y = (ihash kv.Key % R).toNat
      · rw [if_pos hY]
        cases h : cutRes[Y]? with
        | none => simp
        | some b =>
          simp only [Option.map_some', Option.some.injEq, List.filter_cons]
          rw [if_pos (by simpa using hY.symm)]
          simp
      · rw [if_neg hY]
        cases h : cutRes[Y]? with
        | none => simp
        | some b =>
          simp only [Option.map_some', Option.some.injEq, List.filter_cons]
          rw [if_neg (by simpa using fun e => hY e.symm)]

/-- C15 (Map partitioning).  For every `R ≥ 1`, every holder id `X` and every
list of key/value records, `writeMapResToTempFiles` returns exactly `R` shard
files; the file at position `Y` is named `TempFilePath + "mr-X-Y"` and holds,
in their original relative order, exactly the records whose key satisfies
`ihash(key) mod R = Y`; and `0 ≤ ihash(key) < 2^31`, so that
`ihash(key) mod R` lies in `[0, R)`.  Hence every record is written to exactly
one shard and records with equal keys to the same one. -/
theorem C15_map_partitioning (R : Int) (hR : 1 ≤ R) (X : Int) (recs : List KeyValue) :
    ∃ shards, writeMapResToTempFiles X R recs = some shards ∧ shards.length = R.toNat ∧
      (∀ Y, Y < R.toNat →
        shards[Y]? = some
          (TempFilePath ++ "mr-" ++ toString X ++ "-" ++ toString Y,
           recs.filter (fun kv => decide ((ihash kv.Key % R).toNat = Y)))) ∧
      (∀ key : String, 0 ≤ ihash key ∧ ihash key < 2 ^ 31 ∧
        0 ≤ ihash key % R ∧ ihash key % R < R) := by
  rcases cutLoop_spec R hR recs (List.replicate R.toNat []) (by simp) with ⟨out, ho, hlo, hget⟩
  refine ⟨out.enum.map (fun p => (shardName X p.1, p.2)), ?_, by simp [hlo], ?_, ?_⟩
  · unfold writeMapResToTempFiles
    rw [if_neg (by omega), ho]
  · intro Y hY
    rw [List.getElem?_map, List.getElem?_enum, hget Y, List.getElem?_replicate_of_lt hY]
    simp [shardName]
  · intro key
    exact ⟨ihash_nonneg key, ihash_lt key, Int.emod_nonneg _ (by omega),
      Int.emod_lt_of_pos _ (by omega)⟩

/-- Witness for C15: two shards, holder 3, four records. -/
theorem C15_map_partitioning_witness :
    (1 : Int) ≤ 2 ∧
    writeMapResToTempFiles 3 2 [⟨"a", "1"⟩, ⟨"b", "1"⟩, ⟨"a", "2"⟩, ⟨"c", "1"⟩]
      = some [("/var/tmp/mr-3-0", [⟨"a", "1"⟩, ⟨"a", "2"⟩, ⟨"c", "1"⟩]),
              ("/var/tmp/mr-3-1", [⟨"b", "1"⟩])] ∧
    ∃ shards,
      writeMapResToTempFiles 3 2 [⟨"a", "1"⟩, ⟨"b", "1"⟩, ⟨"a", "2"⟩, ⟨"c", "1"⟩] = some shards ∧
      shards.length = Int.toNat 2 ∧
      (∀ Y, Y < Int.toNat 2 →
        shards[Y]? = some
          (TempFilePath ++ "mr-" ++ toString (3 : Int) ++ "-" ++ toString Y,
           ([⟨"a", "1"⟩, ⟨"b", "1"⟩, ⟨"a", "2"⟩, ⟨"c", "1"⟩] : List KeyValue).filter
             (fun kv => decide ((ihash kv.Key % 2).toNat = Y)))) ∧
      (∀ key : String, 0 ≤ ihash key ∧ ihash key < 2 ^ 31 ∧
        0 ≤ ihash key % 2 ∧ ihash key % 2 < 2) :=
  ⟨by decide, by decide,
   C15_map_partitioning 2 (by decide) 3 [⟨"a", "1"⟩, ⟨"b", "1"⟩, ⟨"a", "2"⟩, ⟨"c", "1"⟩]⟩

/-! ### Grouping of the sorted records -/

theorem filter_key_eq_nil {l : List KeyValue} {k : String}
    (h : ∀ r ∈ l, r.Key ≠ k) : l.filter (fun r => decide (r.Key = k)) = [] := by
  rw [List.filter_eq_nil_iff]
  intro r hr
  simpa using h r hr

/-- The records `groupRun` produces for a run with key `key` and collected
values `values`, followed by the sorted list `l` whose keys are not below
`key`: ascending keys, none below `key`; the keys are `key` and those of `l`;
and the value of each record is `reducef` applied to the values of the records
of that key, in order. -/
theorem groupRun_spec (reducef : String → List String → String) :
    ∀ (l : List KeyValue) (key : String) (values : List String),
      l.Pairwise (fun a b => ¬ b.Key < a.Key) → (∀ r ∈ l, ¬ r.Key < key) →
      ((groupRun reducef key values l).map (fun kv => kv.Key)).Pairwise (fun a b => a < b) ∧
      (∀ kv ∈ groupRun reducef key values l, ¬ kv.Key < key) ∧
      (∀ k, k ∈ (groupRun reducef key values l).map (fun kv => kv.Key) ↔
        k = key ∨ k ∈ l.map (fun kv => kv.Key)) ∧
      (∀ kv ∈ groupRun reducef key values l,
        kv.Value = reducef kv.Key
          ((if kv.Key = key then values else []) ++
            (l.filter (fun r => decide (r.Key = kv.Key))).map (fun r => r.Value))) := by
  intro l
  induction l with
  | nil =>
    intro key values _ _
    simp [groupRun]
  | cons r rest ih =>
    intro key values hs hge
    have hs' := List.pairwise_cons.1 hs
    have hrge : ¬ r.Key < key := hge r (List.mem_cons_self _ _)
    by_cases hk : r.Key = key
    · have hrun : groupRun reducef key values (r :: rest)
          = groupRun reducef key (values ++ [r.Value]) rest := by
        simp [groupRun, hk]
      rw [hrun]
      rcases ih key (values ++ [r.Value]) hs'.2
        (fun x hx => hge x (List.mem_cons_of_mem _ hx)) with ⟨h1, h2, h3, h4⟩
      refine ⟨h1, h2, ?_, ?_⟩
      · intro k
        rw [h3 k]
        simp only [List.map_cons, List.mem_cons, hk]
        tauto
      · intro kv hkv
        rw [h4 kv hkv]
        by_cases hkk : kv.Key = key
        · have : r.Key = kv.Key := by rw [hk, hkk]
          simp [hkk, List.filter_cons, this, hk]
        · have : ¬ r.Key = kv.Key := by rw [hk]; exact fun e => hkk e.symm
          simp [hkk, List.filter_cons, this]
    · have hlt : key < r.Key := lt_of_le_of_ne (not_lt.1 hrge) (fun e => hk e.symm)
      have hrun : groupRun reducef key values (r :: rest)
          = ⟨key, reducef key values⟩ :: groupRun reducef r.Key [r.Value] rest := by
        simp [groupRun, hk]
      rw [hrun]
      rcases ih r.Key [r.Value] hs'.2 (fun x hx => hs'.1 x hx) with ⟨h1, h2, h3, h4⟩
      have hall : ∀ x ∈ r :: rest, x.Key ≠ key := by
        intro x hx e
        rcases List.mem_cons.1 hx with rfl | hx
        · exact hk e
        · have := hs'.1 x hx
          rw [e] at this
          exact this hlt
      refine ⟨?_, ?_, ?_, ?_⟩
      · simp only [List.map_cons, List.pairwise_cons]
        refine ⟨?_, h1⟩
        intro k hk'
        rcases List.mem_map.1 hk' with ⟨kv, hkv, rfl⟩
        exact lt_of_lt_of_le hlt (not_lt.1 (h2 kv hkv))
      · intro kv hkv
        rcases List.mem_cons.1 hkv with rfl | hkv
        · exact lt_irrefl _
        · exact fun hc => h2 kv hkv (lt_trans hc hlt)
      · intro k
        simp only [List.map_cons, List.mem_cons]
        rw [h3 k]
      · intro kv hkv
        rcases List.mem_cons.1 hkv with rfl | hkv
        · simp only [if_true]
          rw [filter_key_eq_nil hall]
          simp
        · have hne : kv.Key ≠ key := by
            intro e
            have := h2 kv hkv
            rw [e] at this
            exact this hlt
          rw [h4 kv hkv]
          by_cases hkk : kv.Key = r.Key
          · simp [hkk, List.filter_cons, hk]
          · have : ¬ r.Key = kv.Key := fun e => hkk e.symm
            simp [hkk, hne, List.filter_cons, this]

theorem groupSorted_spec (reducef : String → List String → String) (l : List KeyValue)
    (hs : l.Pairwise (fun a b => ¬ b.Key < a.Key)) :
    ((groupSorted reducef l).map (fun kv => kv.Key)).Pairwise (fun a b => a < b) ∧
    (∀ k, k ∈ (groupSorted reducef l).map (fun kv => kv.Key) ↔ k ∈ l.map (fun kv => kv.Key)) ∧
    (∀ kv ∈ groupSorted reducef l,
      kv.Value = reducef kv.Key
        ((l.filter (fun r => decide (r.Key = kv.Key))).map (fun r => r.Value))) := by
  cases l with
  | nil => simp [groupSorted]
  | cons r rest =>
    have hs' := List.pairwise_cons.1 hs
    rcases groupRun_spec reducef rest r.Key [r.Value] hs'.2 (fun x hx => hs'.1 x hx)
      with ⟨h1, _, h3, h4⟩
    refine ⟨h1, ?_, ?_⟩
    · intro k
      show k ∈ (groupRun reducef r.Key [r.Value] rest).map (fun kv => kv.Key) ↔ _
      rw [h3 k]
      simp
    · intro kv hkv
      have := h4 kv hkv
      rw [this]
      by_cases hkk : kv.Key = r.Key
      · simp [hkk, List.filter_cons]
      · have : ¬ r.Key = kv.Key := fun e => hkk e.symm
        simp [hkk, List.filter_cons, this]

theorem insertionSortByKey_sorts : SortsByKey insertionSortByKey := by
  intro l
  refine ⟨List.perm_insertionSort _ l, ?_⟩
  have hs : List.Sorted (fun a b : KeyValue => a.Key ≤ b.Key)
      (List.insertionSort (fun a b : KeyValue => a.Key ≤ b.Key) l) :=
    @List.sorted_insertionSort KeyValue (fun a b => a.Key ≤ b.Key) _
      ⟨fun a b => le_total a.Key b.Key⟩ ⟨fun _ _ _ h1 h2 => le_trans h1 h2⟩ l
  exact hs.imp (fun h => not_lt.2 h)

/-- C16 (Reduce grouping and order).  For every list of decoded records, every
Reduce function and every outcome of the library sort (a rearrangement ordered
by key): `generateReduceResult` returns records with strictly ascending keys,
whose keys are exactly the keys of the input, hence one record per distinct
key; the value of the record for key `k` is the Reduce function applied to `k`
and the values of the sorted records with key `k`, which are, up to order,
exactly the values of the input records with key `k`; and
`writeReduceResToTempFiles` writes the records, in order, as the lines
`"<key> <value>\n"`. -/
theorem C16_reduce_grouping (sortByKey : List KeyValue → List KeyValue)
    (hsort : SortsByKey sortByKey) (reducef : String → List String → String)
    (decoded : List KeyValue) :
    ((generateReduceResult sortByKey reducef decoded).map (fun kv => kv.Key)).Pairwise
      (fun a b => a < b) ∧
    (∀ k, k ∈ (generateReduceResult sortByKey reducef decoded).map (fun kv => kv.Key) ↔
      k ∈ decoded.map (fun kv => kv.Key)) ∧
    (∀ kv ∈ generateReduceResult sortByKey reducef decoded,
      kv.Value = reducef kv.Key
        (((sortByKey decoded).filter (fun r => decide (r.Key = kv.Key))).map
          (fun r => r.Value)) ∧
      (((sortByKey decoded).filter (fun r => decide (r.Key = kv.Key))).map
          (fun r => r.Value)).Perm
        ((decoded.filter (fun r => decide (r.Key = kv.Key))).map (fun r => r.Value))) ∧
    (∀ (task : Task) (index : String), lastByte task.InputFile = some index →
      writeReduceResToTempFiles task (generateReduceResult sortByKey reducef decoded)
        = some ([TempFilePath ++ ("mr-out-" ++ index)],
            String.join ((generateReduceResult sortByKey reducef decoded).map
              (fun kv => kv.Key ++ " " ++ kv.Value ++ "\n")))) := by
  rcases hsort decoded with ⟨hperm, hsorted⟩
  rcases groupSorted_spec reducef (sortByKey decoded) hsorted with ⟨h1, h2, h3⟩
  refine ⟨h1, ?_, ?_, ?_⟩
  · intro k
    unfold generateReduceResult
    rw [h2 k]
    exact (hperm.map _).mem_iff
  · intro kv hkv
    exact ⟨h3 kv hkv, (hperm.filter _).map _⟩
  · intro task index hidx
    unfold writeReduceResToTempFiles
    rw [hidx]
    rfl

/-- Witness for C16: insertion sort as the library sort, counting as the Reduce
function. -/
theorem C16_reduce_grouping_witness :
    SortsByKey insertionSortByKey ∧
    ((generateReduceResult insertionSortByKey countValues
        [⟨"b", "1"⟩, ⟨"a", "1"⟩, ⟨"a", "2"⟩]).map (fun kv => kv.Key)).Pairwise
      (fun a b => a < b) ∧
    (∀ k, k ∈ (generateReduceResult insertionSortByKey countValues
        [⟨"b", "1"⟩, ⟨"a", "1"⟩, ⟨"a", "2"⟩]).map (fun kv => kv.Key) ↔
      k ∈ ([⟨"b", "1"⟩, ⟨"a", "1"⟩, ⟨"a", "2"⟩] : List KeyValue).map (fun kv => kv.Key)) :=
  have h := C16_reduce_grouping insertionSortByKey insertionSortByKey_sorts countValues
    [⟨"b", "1"⟩, ⟨"a", "1"⟩, ⟨"a", "2"⟩]
  ⟨insertionSortByKey_sorts, h.1, h.2.1⟩

/-! ### The last character of a Reduce input pattern -/

theorem toDigitsCore_last (b : Nat) :
    ∀ (fuel n : Nat) (ds : List Char),
      ∃ pre, Nat.toDigitsCore b (fuel + 1) n ds = pre ++ Nat.digitChar (n % b) :: ds := by
  intro fuel
  induction fuel with
  | zero =>
    intro n ds
    refine ⟨[], ?_⟩
    simp only [Nat.toDigitsCore]
    split <;> rfl
  | succ fuel ih =>
    intro n ds
    rw [Nat.toDigitsCore]
    split
    · exact ⟨[], rfl⟩
    · rcases ih (n / b) (Nat.digitChar (n % b) :: ds) with ⟨pre, hpre⟩
      exact ⟨pre ++ [Nat.digitChar (n / b % b)], by rw [hpre]; simp⟩

theorem getLast?_toString (Y : Nat) :
    (toString Y).data.getLast? = some (Nat.digitChar (Y % 10)) := by
  have h : (toString Y).data = Nat.toDigits 10 Y := rfl
  rw [h]
  rcases toDigitsCore_last 10 Y Y [] with ⟨pre, hpre⟩
  unfold Nat.toDigits
  rw [hpre]
  simp

theorem digitChar_ascii (d : Nat) (h : d < 10) : (Nat.digitChar d).toNat < 128 := by
  interval_cases d <;> decide

/-- The last character of the input pattern of the Reduce task of shard `Y` is
the last decimal digit of `Y`. -/
theorem lastByte_pattern (Y : Nat) :
    lastByte (newReduceTask Y).InputFile = some (String.singleton (Nat.digitChar (Y % 10))) := by
  have hd : (newReduceTask Y).InputFile.data.getLast? = some (Nat.digitChar (Y % 10)) := by
    show (TempFilePath ++ "mr-*-" ++ toString Y).data.getLast? = _
    rw [String.data_append, List.getLast?_append, getLast?_toString]
    rfl
  unfold lastByte
  rw [hd]
  simp only
  rw [if_pos (digitChar_ascii _ (Nat.mod_lt _ (by norm_num)))]

/-- The file `writeReduceResToTempFiles` names for the Reduce task of shard `Y`:
`mr-out-` followed by the last decimal digit of `Y`. -/
theorem writeReduceResToTempFiles_pattern (Y : Nat) (task : Task) (recs : List KeyValue)
    (h : task.InputFile = (newReduceTask Y).InputFile) :
    writeReduceResToTempFiles task recs
      = some ([TempFilePath ++ ("mr-out-" ++ String.singleton (Nat.digitChar (Y % 10)))],
              String.join (recs.map outputLine)) := by
  unfold writeReduceResToTempFiles
  rw [h, lastByte_pattern]

/-! ### Runs in sequence -/

theorem run_append {m m1 m2 : Master} {es1 es2 : List Event} {os1 os2 : List Output}
    (h1 : run m es1 = some (m1, os1)) (h2 : run m1 es2 = some (m2, os2)) :
    run m (es1 ++ es2) = some (m2, os1 ++ os2) := by
  induction es1 generalizing m os1 with
  | nil =>
    simp only [MR.run, Option.some.injEq, Prod.mk.injEq] at h1
    rw [h1.1, ← h1.2]; simpa using h2
  | cons e es1 ih =>
    rcases run_cons_some h1 with ⟨m3, o, os3, hs, hr1, rfl⟩
    have := ih hr1
    rw [List.cons_append, List.cons_append]
    unfold MR.run
    rw [hs]
    simp only
    rw [this]

/-! ### A job without input files -/

theorem DistributeTask_empty_input (R : Int) (hR : 0 ≤ R) (now : Int) :
    ∃ m0, MakeMaster [] R = some m0 ∧
      DistributeTask m0 now
        = some (reduceQueueState R 1 (reduceTasksFrom R.toNat 0), TaskReply.zero) := by
  refine ⟨_, MakeMaster_eq [] R hR, ?_⟩
  have hgen := generateReduceTasksLoop_eq R.toNat R.toNat 0 [] (by simp)
  simp only [List.nil_append] at hgen
  simp [DistributeTask, rotateScan, judgeAllMapDone, generateReduceTasks, mapTasksFrom, hgen,
    reduceQueueState]

theorem DistributeTask_reduceQueue_lease (R : Int) (w : Int) (T : Task) (rest : List Task)
    (hT : T.TaskStatus = Ready) (hlen : (T :: rest).length = R.toNat) (now : Int) :
    DistributeTask (reduceQueueState R w (T :: rest)) now
      = some (reduceQueueState R (w + 1) (rest ++ [leaseReduce w now T]),
              ⟨some (leaseReduce w now T), 0, false⟩) := by
  have hn : R.toNat = rest.length + 1 := by rw [← hlen]; simp
  have hlt : rest.length < R.toNat := by omega
  unfold DistributeTask
  have hph : ¬ (reduceQueueState R w (T :: rest)).DistributePhase = MapPhase := by
    simp [reduceQueueState]
  rw [if_neg hph]
  simp only [reduceQueueState]
  rw [hn, rotateScan_cons, ← hn, if_pos hlt]
  simp [hT, TaskReply.zero]

theorem ReduceTaskDone_reduceQueue_head (R : Int) (w : Int) (T : Task) (rest : List Task)
    (hT : T.TaskStatus = Running) (hlen : (T :: rest).length = R.toNat) (fs : List String) :
    ReduceTaskDone (reduceQueueState R w (T :: rest)) ⟨T.ReduceWorkerId, fs⟩
      = some (reduceQueueState R w (rest ++ [finishTask T]), some fs) := by
  have hn : R.toNat = rest.length + 1 := by rw [← hlen]; simp
  have hlt : rest.length < R.toNat := by omega
  unfold ReduceTaskDone
  simp only [reduceQueueState]
  rw [hn, rotateScan_cons, ← hn, if_pos hlt]
  simp [hT]

theorem DistributeTask_reduceQueue_done (R : Int) (w : Int) (Fs : List Task)
    (hF : ∀ t ∈ Fs, t.TaskStatus = Finished) (hlen : Fs.length = R.toNat) (now : Int) :
    DistributeTask (reduceQueueState R w Fs) now
      = some (reduceQueueState R w Fs, ⟨none, 0, true⟩) := by
  have h1 := rotateScan_none_aux id (fun t => decide (t.TaskStatus = Ready))
    (leaseReduce w now) R.toNat Fs [] (by simp [hlen])
    (by intro t ht; simp [hF t ht])
  have h2 := rotateScan_none_aux id (fun t => decide (t.TaskStatus ≠ Finished)) id
    R.toNat Fs [] (by simp [hlen]) (by intro t ht; simp [hF t ht])
  rw [hlen] at h1 h2
  simp only [List.append_nil, List.nil_append, List.map_id] at h1 h2
  unfold DistributeTask
  have hph : ¬ (reduceQueueState R w Fs).DistributePhase = MapPhase := by
    simp [reduceQueueState]
  rw [if_neg hph]
  simp only [reduceQueueState, h1, judgeAllReduceDone, h2, TaskReply.zero]

theorem run_reduceQueue_dispatch (R : Int) :
    ∀ (nows : List Int) (j : Nat) (L : List Task),
      nows.length + L.length = R.toNat →
      run (reduceQueueState R ((j : Int) + 1) (reduceTasksFrom nows.length j ++ L))
          (nows.map Event.distribute)
        = some (reduceQueueState R (((j + nows.length : Nat) : Int) + 1)
                  (L ++ (nows.enumFrom j).map
                    (fun p => leaseReduce ((p.1 : Int) + 1) p.2 (newReduceTask p.1))),
                (nows.enumFrom j).map (fun p => Output.reply
                  ⟨some (leaseReduce ((p.1 : Int) + 1) p.2 (newReduceTask p.1)), 0, false⟩)) := by
  intro nows
  induction nows with
  | nil => intro j L _; simp [MR.run, reduceTasksFrom]
  | cons now nows ih =>
    intro j L hlen
    have hlen1 : (newReduceTask j :: (reduceTasksFrom nows.length (j + 1) ++ L)).length
        = R.toNat := by
      simp only [List.length_cons, List.length_append, length_reduceTasksFrom] at hlen ⊢
      omega
    have hstep := DistributeTask_reduceQueue_lease R ((j : Int) + 1) (newReduceTask j)
      (reduceTasksFrom nows.length (j + 1) ++ L) rfl hlen1 now
    have hlen2 : nows.length
        + (L ++ [leaseReduce ((j : Int) + 1) now (newReduceTask j)]).length = R.toNat := by
      simp only [List.length_cons, List.length_append, List.length_nil] at hlen ⊢
      omega
    have hrec := ih (j + 1) (L ++ [leaseReduce ((j : Int) + 1) now (newReduceTask j)]) hlen2
    have e1 : ((j + 1 : Nat) : Int) = (j : Int) + 1 := by push_cast; rfl
    have e2 : j + 1 + nows.length = j + (nows.length + 1) := by omega
    rw [e1, e2] at hrec
    simp only [List.length_cons, reduceTasksFrom, List.cons_append, List.map_cons, MR.run,
      MR.step, hstep, Option.map_some', List.enumFrom_cons]
    simp only [List.append_assoc] at hrec ⊢
    rw [hrec]
    simp

theorem run_reduceQueue_commit (R : Int) (w : Int) (files : Int → List String) :
    ∀ (Ts Fs : List Task), (∀ T ∈ Ts, T.TaskStatus = Running) →
      (Ts ++ Fs).length = R.toNat →
      run (reduceQueueState R w (Ts ++ Fs))
          (Ts.map (fun T => Event.reduceDone ⟨T.ReduceWorkerId, files T.ReduceWorkerId⟩))
        = some (reduceQueueState R w (Fs ++ Ts.map finishTask),
                Ts.map (fun T => Output.commit (some (files T.ReduceWorkerId)))) := by
  intro Ts
  induction Ts with
  | nil => intro Fs _ _; simp [MR.run]
  | cons T Ts ih =>
    intro Fs hrun hlen
    have hstep := ReduceTaskDone_reduceQueue_head R w T (Ts ++ Fs)
      (hrun T (List.mem_cons_self _ _)) (by simpa using hlen) (files T.ReduceWorkerId)
    have hlen2 : (Ts ++ (Fs ++ [finishTask T])).length = R.toNat := by
      simp only [List.length_cons, List.length_append, List.length_nil] at hlen ⊢
      omega
    have hrec := ih (Fs ++ [finishTask T]) (fun x hx => hrun x (List.mem_cons_of_mem _ hx)) hlen2
    simp only [List.cons_append, List.map_cons, MR.run, MR.step, hstep, Option.map_some']
    simp only [List.append_assoc] at hrec ⊢
    rw [hrec]
    simp

/-- The Reduce tasks handed out for an empty-input job are the shards
`0 .. n - 1`, each once. -/
theorem static_reduceLeases (nows : List Int) :
    (reduceLeases nows).map Task.static
      = (List.range nows.length).map
          (fun y => (y, ReduceTask, TempFilePath ++ "mr-*-" ++ toString y)) := by
  have h : (reduceLeases nows).map Task.static
      = (nows.enum.map Prod.fst).map
          (fun y => (y, ReduceTask, TempFilePath ++ "mr-*-" ++ toString y)) := by
    unfold reduceLeases
    rw [List.map_map, List.map_map]
    rfl
  rw [h, List.enum_map_fst]

theorem nodup_reduceLeases (nows : List Int) : ((reduceLeases nows).map Task.static).Nodup := by
  rw [static_reduceLeases]
  refine List.Nodup.map ?_ (List.nodup_range _)
  intro a b hab
  exact (Prod.mk.inj hab).1

theorem reduceLeases_running (nows : List Int) :
    ∀ T ∈ reduceLeases nows, T.TaskStatus = Running := by
  intro T hT
  unfold reduceLeases at hT
  rcases List.mem_map.1 hT with ⟨p, _, rfl⟩
  rfl

theorem reduceLeases_finished (nows : List Int) :
    ∀ T ∈ (reduceLeases nows).map finishTask, T.TaskStatus = Finished := by
  intro T hT
  rcases List.mem_map.1 hT with ⟨p, _, rfl⟩
  rfl

theorem length_reduceLeases (nows : List Int) : (reduceLeases nows).length = nows.length := by
  simp [reduceLeases]

theorem generateReduceResult_nil (sortByKey : List KeyValue → List KeyValue)
    (hs : SortsByKey sortByKey) (reducef : String → List String → String) :
    generateReduceResult sortByKey reducef [] = [] := by
  unfold generateReduceResult
  rw [List.Perm.eq_nil (hs []).1]
  rfl

/-- C17 fails in the code although the Go comment of `generateMapFile` says
that copying a staged file into the working directory is what accepts a
worker's result.  In the reachable state `demoReleased` of the job over the
file `"a"` with one reduce shard, holder 1 lost its lease at 10 s and holder 2
holds the Map task.  Both workers stage their shard under `/var/tmp/`; at 12 s
the commit of holder 1 is rejected and the commit of holder 2 accepted, and
`generateMapFile` copies `mr-2-0` into the working directory.  The Reduce task
of shard 0 carries the pattern `/var/tmp/mr-*-0`: its glob returns the two
staged files, the one of the rejected holder included, and not the promoted
copy, so the record of `"a"` reaches the reduce function twice. -/
theorem C17_reduce_reads_scratch_directory :
    Reachable ["a"] 1 demoReleased ∧
    (writeMapResToTempFiles 1 1 [⟨"k", "1"⟩]).map (fun l => l.map Prod.fst)
      = some ["/var/tmp/mr-1-0"] ∧
    (writeMapResToTempFiles 2 1 [⟨"k", "1"⟩]).map (fun l => l.map Prod.fst)
      = some ["/var/tmp/mr-2-0"] ∧
    (MapTaskDone demoReleased ⟨1, ["/var/tmp/mr-1-0"]⟩ 12000000000).map Prod.snd = some none ∧
    (MapTaskDone demoReleased ⟨2, ["/var/tmp/mr-2-0"]⟩ 12000000000).map Prod.snd
      = some (some ["/var/tmp/mr-2-0"]) ∧
    generateMapFile "/home/u/job" ["/var/tmp/mr-2-0"] = ["/home/u/job/mr-2-0"] ∧
    (newReduceTask 0).InputFile = "/var/tmp/mr-*-0" ∧
    globFiles (demoDisk.map Prod.fst) (newReduceTask 0).InputFile
      = ["/var/tmp/mr-1-0", "/var/tmp/mr-2-0"] ∧
    readIntermediate demoDisk (newReduceTask 0).InputFile = [⟨"k", "1"⟩, ⟨"k", "1"⟩] ∧
    groupSorted countValues (readIntermediate demoDisk (newReduceTask 0).InputFile)
      = [⟨"k", "2"⟩] :=
  ⟨reachable_of_run [Event.distribute 0, Event.reaper 10000000000, Event.distribute 11000000000]
      (by decide),
   by decide, by decide, by decide, by decide, by decide, by decide, by decide, by decide,
   by decide⟩

/-- C18 (empty input).  For a coordinator created with no input file and a
reduce count `R ≥ 1`, and clock values `nows`, one per shard: the first
`DistributeTask` call returns without a task, moves the job to the Reduce phase
and leaves the `R` Ready Reduce tasks of the shards `0 .. R - 1` in the queue;
the next `R` calls hand out these tasks in order, shard `k` to holder `k + 1`,
and the tasks handed out are pairwise distinct; the `R` commits by
`ReduceTaskDone`, one per holder, are all accepted; the `DistributeTask` call
after them replies `AllDone = true` without a task.  On the worker side a
Reduce over no record returns no record (for every sort meeting the contract of
`sort.Sort`), no file matches the pattern of a task when no shard was written,
and the file written for a task is empty. -/
theorem C18_empty_input (R : Int) (hR : 1 ≤ R) (now0 nowEnd : Int) (nows : List Int)
    (hn : nows.length = R.toNat) (files : Int → List String) :
    ∃ m0, MakeMaster [] R = some m0 ∧
      DistributeTask m0 now0
        = some (reduceQueueState R 1 (reduceTasksFrom R.toNat 0), TaskReply.zero) ∧
      (reduceTasksFrom R.toNat 0).length = R.toNat ∧
      (∀ t ∈ reduceTasksFrom R.toNat 0, t.TaskStatus = Ready ∧ t.TaskType = ReduceTask) ∧
      run (reduceQueueState R 1 (reduceTasksFrom R.toNat 0)) (nows.map Event.distribute)
        = some (reduceQueueState R (R.toNat + 1) (reduceLeases nows),
                (reduceLeases nows).map (fun T => Output.reply ⟨some T, 0, false⟩)) ∧
      (reduceLeases nows).map Task.static
        = (List.range R.toNat).map
            (fun y => (y, ReduceTask, TempFilePath ++ "mr-*-" ++ toString y)) ∧
      ((reduceLeases nows).map Task.static).Nodup ∧
      run (reduceQueueState R (R.toNat + 1) (reduceLeases nows))
          ((reduceLeases nows).map
            (fun T => Event.reduceDone ⟨T.ReduceWorkerId, files T.ReduceWorkerId⟩))
        = some (reduceQueueState R (R.toNat + 1) ((reduceLeases nows).map finishTask),
                (reduceLeases nows).map
                  (fun T => Output.commit (some (files T.ReduceWorkerId)))) ∧
      DistributeTask (reduceQueueState R (R.toNat + 1) ((reduceLeases nows).map finishTask))
          nowEnd
        = some (reduceQueueState R (R.toNat + 1) ((reduceLeases nows).map finishTask),
                ⟨none, 0, true⟩) ∧
      (∀ T ∈ reduceLeases nows, readIntermediate [] T.InputFile = []) ∧
      (∀ sortByKey, SortsByKey sortByKey → ∀ reducef,
        generateReduceResult sortByKey reducef [] = []) ∧
      (∀ T ∈ reduceLeases nows, ∃ name,
        writeReduceResToTempFiles T [] = some ([name], "")) := by
  rcases DistributeTask_empty_input R (by omega) now0 with ⟨m0, hm0, hd0⟩
  have hdisp := run_reduceQueue_dispatch R nows 0 [] (by simpa using hn)
  have hcommit := run_reduceQueue_commit R ((R.toNat : Int) + 1) files (reduceLeases nows) []
    (reduceLeases_running nows) (by simp [length_reduceLeases, hn])
  have hdone := DistributeTask_reduceQueue_done R ((R.toNat : Int) + 1)
    ((reduceLeases nows).map finishTask) (reduceLeases_finished nows)
    (by simp [length_reduceLeases, hn]) nowEnd
  refine ⟨m0, hm0, hd0, length_reduceTasksFrom _ _, ?_, ?_, ?_, nodup_reduceLeases nows, ?_,
    hdone, ?_, ?_, ?_⟩
  · intro t ht
    have h := mem_reduceTasksFrom _ _ _ ht
    exact ⟨h.2.1, h.1⟩
  · simp only [List.append_nil, List.nil_append, Nat.cast_zero, zero_add, hn] at hdisp
    rw [hdisp]
    simp [reduceLeases, List.enum]
  · rw [static_reduceLeases, hn]
  · simpa using hcommit
  · intro T _
    rfl
  · intro sortByKey hs reducef
    exact generateReduceResult_nil sortByKey hs reducef
  · intro T hT
    unfold reduceLeases at hT
    rcases List.mem_map.1 hT with ⟨p, _, rfl⟩
    exact ⟨_, writeReduceResToTempFiles_pattern p.1 _ [] rfl⟩

/-- Witness for C18: one reduce shard, leased at clock 2 and committed by
holder 1. -/
theorem C18_empty_input_witness :
    (1 : Int) ≤ 1 ∧ ([2] : List Int).length = (1 : Int).toNat ∧
    ∃ m0, MakeMaster [] 1 = some m0 ∧
      DistributeTask m0 1
        = some (reduceQueueState 1 1 (reduceTasksFrom (1 : Int).toNat 0), TaskReply.zero) :=
  ⟨by decide, by decide,
   (C18_empty_input 1 (by decide) 1 3 [2] (by decide) (fun _ => ["/var/tmp/mr-out-0"])).imp
     (fun _ h => ⟨h.1, h.2.1⟩)⟩

/-! ### The library sort on short slices -/

theorem ByKey_eq_ByKeyData : ByKey = ByKeyData := by
  unfold ByKey ByKeyData
  congr 1
  funext a i j
  unfold ByKey.Less
  cases a[i]? <;> cases a[j]? <;> simp [String.lt_iff_toList_lt]

/-- On a range of at most 12 elements `quickSort` does not reach `doPivot` or
`heapSort`. -/
theorem quickSort_short {σ : Type} (d : sort.Interface σ)
    (doPivot : σ → Nat → Nat → Option (σ × Nat × Nat)) (heapSort : σ → Nat → Nat → Option σ)
    (maxDepth : Nat) (data : σ) (a b : Nat) (h : b - a ≤ 12) :
    sort.quickSort d doPivot heapSort maxDepth data a b
      = if 1 < b - a then
          (sort.shellPass d (b - (a + 6)) (a + 6) data).bind
            (fun data1 => sort.insertionSort d data1 a b)
        else some data := by
  unfold sort.quickSort
  rw [if_neg (by omega)]
  by_cases h1 : 1 < b - a
  · rw [if_pos h1, if_pos h1]
    cases sort.shellPass d (b - (a + 6)) (a + 6) data <;> rfl
  · rw [if_neg h1, if_neg h1]

theorem SortData_demoRecords
    (doPivot : List KeyValue → Nat → Nat → Option (List KeyValue × Nat × Nat))
    (heapSort : List KeyValue → Nat → Nat → Option (List KeyValue)) :
    sort.SortData ByKey doPivot heapSort demoRecords = some demoRecordsSorted := by
  unfold sort.SortData
  rw [quickSort_short _ _ _ _ _ _ _ (by decide), ByKey_eq_ByKeyData]
  decide

/-! ### Stability -/

theorem filter_key_orderedInsert (k : String) (a : KeyValue) (l : List KeyValue) :
    (List.orderedInsert (fun x y : KeyValue => x.Key ≤ y.Key) a l).filter
        (fun r => decide (r.Key = k))
      = (a :: l).filter (fun r => decide (r.Key = k)) := by
  induction l with
  | nil => rfl
  | cons b l ih =>
    rw [List.orderedInsert]
    by_cases hab : a.Key ≤ b.Key
    · rw [if_pos hab]
    · rw [if_neg hab, List.filter_cons, ih]
      have hne : b.Key ≠ a.Key := fun e => hab (le_of_eq e.symm)
      by_cases hak : a.Key = k
      · have hbk : ¬ b.Key = k := fun e => hne (e.trans hak.symm)
        simp [hak, hbk]
      · simp [hak, List.filter_cons]

/-- Insertion sort by key keeps records of equal key in their order. -/
theorem insertionSortByKey_stable (l : List KeyValue) : StableOn insertionSortByKey l := by
  intro k
  unfold insertionSortByKey
  induction l with
  | nil => rfl
  | cons a l ih =>
    rw [List.insertionSort, filter_key_orderedInsert, List.filter_cons, List.filter_cons, ih]

/-- C21 as stated fails.  On the seven decoded records `demoRecords` (six of key
`"b"` with the values 1 to 6, then one of key `"a"`) the library sort
`sort.Sort(ByKey(...))`, whatever `doPivot` and `heapSort` do on longer ranges,
returns `demoRecordsSorted`: a rearrangement ordered by key in which the
record `("b", "1")` stands behind the other records of key `"b"`, moved by the
Shell sort pass (`Less(6, 0)`, `Swap(6, 0)`).  The Reduce function receives the
values of key `"b"` in the order 2, 3, 4, 5, 6, 1, not in the order 1 to 6 in
which they were decoded. -/
theorem C21_counterexample :
    (∀ doPivot heapSort,
      sort.SortData ByKey doPivot heapSort demoRecords = some demoRecordsSorted) ∧
    demoRecordsSorted.Perm demoRecords ∧
    demoRecordsSorted.map (fun kv => kv.Key) = ["a", "b", "b", "b", "b", "b", "b"] ∧
    valuesOf "b" demoRecords = ["1", "2", "3", "4", "5", "6"] ∧
    valuesOf "b" demoRecordsSorted = ["2", "3", "4", "5", "6", "1"] ∧
    (∀ doPivot heapSort,
      generateReduceResult (sortByKeyGo doPivot heapSort) concatValues demoRecords
        = [⟨"a", "7"⟩, ⟨"b", "234561"⟩]) ∧
    (∀ doPivot heapSort, ¬ StableOn (sortByKeyGo doPivot heapSort) demoRecords) := by
  have hs : ∀ doPivot heapSort, sortByKeyGo doPivot heapSort demoRecords = demoRecordsSorted := by
    intro doPivot heapSort
    unfold sortByKeyGo
    rw [SortData_demoRecords]
    rfl
  refine ⟨SortData_demoRecords, by decide, by decide, by decide, by decide, ?_, ?_⟩
  · intro doPivot heapSort
    unfold generateReduceResult
    rw [hs]
    decide
  · intro doPivot heapSort hst
    have h := hst "b"
    rw [hs] at h
    revert h
    decide

/-- C21, amended.  For every outcome of the library sort (a rearrangement
ordered by key) and every record `generateReduceResult` returns: its value is
the Reduce function applied to its key and to the values of the records of
that key in the order the sort left them; these are the values of the decoded
records of that key, each as often as it was decoded; and when the sort kept
the records of equal key in their order, they are in the order of decoding. -/
theorem C21_values_in_sorted_order (sortByKey : List KeyValue → List KeyValue)
    (hsort : SortsByKey sortByKey) (reducef : String → List String → String)
    (decoded : List KeyValue) :
    ∀ kv ∈ generateReduceResult sortByKey reducef decoded,
      kv.Value = reducef kv.Key (valuesOf kv.Key (sortByKey decoded)) ∧
      (valuesOf kv.Key (sortByKey decoded)).Perm (valuesOf kv.Key decoded) ∧
      (StableOn sortByKey decoded →
        valuesOf kv.Key (sortByKey decoded) = valuesOf kv.Key decoded ∧
        kv.Value = reducef kv.Key (valuesOf kv.Key decoded)) := by
  intro kv hkv
  rcases hsort decoded with ⟨hperm, hsorted⟩
  have h3 := (groupSorted_spec reducef (sortByKey decoded) hsorted).2.2 kv hkv
  have hval : kv.Value = reducef kv.Key (valuesOf kv.Key (sortByKey decoded)) := h3
  refine ⟨hval, (hperm.filter _).map _, ?_⟩
  intro hst
  have he : valuesOf kv.Key (sortByKey decoded) = valuesOf kv.Key decoded := by
    unfold valuesOf
    rw [hst kv.Key]
  exact ⟨he, by rw [← he]; exact hval⟩

/-- Witness for C21, amended: insertion sort as the library sort, which keeps
equal keys in order, on three records. -/
theorem C21_values_in_sorted_order_witness :
    SortsByKey insertionSortByKey ∧
    StableOn insertionSortByKey [⟨"b", "1"⟩, ⟨"a", "1"⟩, ⟨"a", "2"⟩] ∧
    ∀ kv ∈ generateReduceResult insertionSortByKey concatValues
        [⟨"b", "1"⟩, ⟨"a", "1"⟩, ⟨"a", "2"⟩],
      kv.Value = concatValues kv.Key
          (valuesOf kv.Key (insertionSortByKey [⟨"b", "1"⟩, ⟨"a", "1"⟩, ⟨"a", "2"⟩])) ∧
      (valuesOf kv.Key (insertionSortByKey [⟨"b", "1"⟩, ⟨"a", "1"⟩, ⟨"a", "2"⟩])).Perm
        (valuesOf kv.Key [⟨"b", "1"⟩, ⟨"a", "1"⟩, ⟨"a", "2"⟩]) ∧
      (StableOn insertionSortByKey [⟨"b", "1"⟩, ⟨"a", "1"⟩, ⟨"a", "2"⟩] →
        valuesOf kv.Key (insertionSortByKey [⟨"b", "1"⟩, ⟨"a", "1"⟩, ⟨"a", "2"⟩])
          = valuesOf kv.Key [⟨"b", "1"⟩, ⟨"a", "1"⟩, ⟨"a", "2"⟩] ∧
        kv.Value = concatValues kv.Key (valuesOf kv.Key [⟨"b", "1"⟩, ⟨"a", "1"⟩, ⟨"a", "2"⟩])) :=
  ⟨insertionSortByKey_sorts, insertionSortByKey_stable _,
   C21_values_in_sorted_order insertionSortByKey insertionSortByKey_sorts concatValues
     [⟨"b", "1"⟩, ⟨"a", "1"⟩, ⟨"a", "2"⟩]⟩

/-! ### Which steps return -/

theorem DistributeTask_returns {files : List String} {R : Int} {m : Master} (hw : WF files R m)
    (now : Int) : (DistributeTask m now).isSome = true := by
  cases hp : m.DistributePhase with
  | MapPhase =>
    rcases DistributeTask_map hw hp now with
      ⟨_, _, _, _, _, _, heq⟩ | ⟨_, heq⟩ | ⟨_, _, _, _, _, _, _, heq⟩ <;> rw [heq] <;> rfl
  | ReducePhase =>
    rcases DistributeTask_reduce hw hp now with
      ⟨_, _, _, _, _, _, heq⟩ | ⟨_, heq⟩ | ⟨_, _, _, _, _, _, _, heq⟩ <;> rw [heq] <;> rfl

/-- In a well-formed state every step returns, except `ReduceTaskDone` in the
Map phase of a job with at least one reduce shard, which blocks on its first
receive from the empty Reduce channel. -/
theorem step_returns_iff {files : List String} {R : Int} {m : Master} (hw : WF files R m)
    (e : Event) :
    (step m e).isSome = true ↔
      ¬ ((∃ args, e = Event.reduceDone args) ∧ m.DistributePhase = MapPhase ∧ R ≠ 0) := by
  cases e with
  | distribute now =>
    have h := DistributeTask_returns hw now
    simp only [MR.step, Option.isSome_map']
    constructor
    · rintro _ ⟨⟨args, ha⟩, _⟩; cases ha
    · intro _; exact h
  | mapDone args now =>
    rcases MapTaskDone_spec hw args now with ⟨ys, r, _, heq⟩
    simp only [MR.step, heq]
    constructor
    · rintro _ ⟨⟨args, ha⟩, _⟩; cases ha
    · intro _; rfl
  | reaper now =>
    constructor
    · rintro _ ⟨⟨args, ha⟩, _⟩; cases ha
    · intro _
      cases hp : m.DistributePhase with
      | MapPhase => simp only [MR.step, reaperPass_map hw hp now]; rfl
      | ReducePhase => simp only [MR.step, reaperPass_reduce hw hp now]; rfl
  | reduceDone args =>
    cases hp : m.DistributePhase with
    | MapPhase =>
      simp only [MR.step, ReduceTaskDone_mapPhase hw hp args]
      by_cases h0 : R = 0
      · simp [h0]
      · simp [h0]
    | ReducePhase =>
      rcases ReduceTaskDone_spec hw hp args with ⟨ys, r, _, heq⟩
      simp only [MR.step, heq]
      constructor
      · rintro _ ⟨_, hc, _⟩; cases hc
      · intro _; rfl

/-- C22 (no handler blocks), evaluated where the code departs from it.  In the
state `demoInit` right after `MakeMaster(["a"], 1)`, and in the reachable
state `demoLeased`, the phase is Map and the Reduce channel is empty, so its
receive blocks; `ReduceTaskDone`, whose loop runs `ReduceNum = 1` times
whatever the phase, does not return.  The other three steps return in these
states. -/
theorem C22_reduceTaskDone_blocks_in_map_phase :
    MakeMaster ["a"] 1 = some demoInit ∧ demoInit.DistributePhase = MapPhase ∧
    demoInit.ReduceNum = 1 ∧ demoInit.ReduceChannel.buf = [] ∧
    demoInit.ReduceChannel.recv = none ∧
    ReduceTaskDone demoInit ⟨1, ["/var/tmp/mr-out-0"]⟩ = none ∧
    Reachable ["a"] 1 demoLeased ∧ demoLeased.DistributePhase = MapPhase ∧
    ReduceTaskDone demoLeased ⟨1, ["/var/tmp/mr-out-0"]⟩ = none ∧
    (DistributeTask demoLeased 1).isSome = true ∧
    (MapTaskDone demoLeased ⟨1, ["/var/tmp/mr-1-0"]⟩ 1).isSome = true ∧
    (reaperPass demoLeased 1).isSome = true :=
  ⟨by decide, by decide, by decide, by decide, by decide, by decide,
   reachable_of_run (demoEvents.take 1) (by decide), by decide, by decide, by decide,
   by decide, by decide⟩

end MR
